import Mathlib

/-!
# Distributed task execution protocol (`main.cpp`)

A shallow embedding of the message envelope (`Message`), the worker state
(`Node`), the registry and dispatcher (`Protocol`) and the coordinator
(`TaskManager`) of `main.cpp`, followed by theorems about them.

Conventions of the embedding:

* `std::string` is a `List Char`;
* `int` is an `Int`; the range of the C++ type is the predicate `InIntRange`,
  and the operations that leave it (`std::stoi` on a long numeral, `order++`
  at `INT_MAX`) return an error;
* a `std::map<std::string, V>` is an association list kept in ascending key
  order by `mapInsert`;
* an exception, or undefined behaviour, is an `Except.error`;
* console output is reduced to a list of `Event`s: one per delivered message
  and one per executed instruction.
-/

namespace DistributedProtocol

/-! ## Errors, integers and strings -/

/-- Ways in which a call of the program can fail to return normally. -/
inductive Error where
  /-- The exception `std::invalid_argument` thrown by `std::stoi`. -/
  | invalid_argument
  /-- The exception `std::out_of_range` thrown by `std::stoi`. -/
  | out_of_range
  /-- Signed overflow of an `int` (undefined behaviour). -/
  | int_overflow
  /-- Dereference of a null `shared_ptr` (undefined behaviour). -/
  | null_dereference
deriving DecidableEq, Repr

instance instDecidableEqExcept {ε α : Type} [DecidableEq ε] [DecidableEq α] :
    DecidableEq (Except ε α)
  | .ok a, .ok b => decidable_of_iff (a = b) (by simp)
  | .error a, .error b => decidable_of_iff (a = b) (by simp)
  | .ok _, .error _ => isFalse (by simp)
  | .error _, .ok _ => isFalse (by simp)

/-- The constant `INT_MIN` of a 32-bit `int`. -/
def INT_MIN : Int := -2147483648

/-- The constant `INT_MAX` of a 32-bit `int`. -/
def INT_MAX : Int := 2147483647

/-- The values of the C++ type `int`. -/
def InIntRange (n : Int) : Prop := INT_MIN ≤ n ∧ n ≤ INT_MAX

instance (n : Int) : Decidable (InIntRange n) := by
  unfold InIntRange; infer_instance

/-- The function `isspace` of the "C" locale. -/
def isspace (c : Char) : Bool :=
  c = ' ' || c = Char.ofNat 9 || c = Char.ofNat 10 || c = Char.ofNat 11 ||
    c = Char.ofNat 12 || c = Char.ofNat 13

/-- The function `isdigit`. -/
def isdigit (c : Char) : Bool := 48 ≤ c.toNat && c.toNat ≤ 57

/-- The value of a decimal digit character. -/
def digitVal (c : Char) : Nat := c.toNat - 48

/-- The character of a decimal digit. -/
def digitChar (d : Nat) : Char := Char.ofNat (48 + d)

/-- A character that is one of the ten decimal digits. -/
def IsDigitChar (c : Char) : Prop := ∃ d, d < 10 ∧ c = digitChar d

/-- The value of a run of decimal digits, most significant first. -/
def digitsVal (ds : List Char) : Nat := ds.foldl (fun a c => a * 10 + digitVal c) 0

/-- The digits of `n`, most significant first, pushed in front of `acc`;
`fuel` bounds the number of digits. -/
def natDigitsAux : Nat → Nat → List Char → List Char
  | 0, _, acc => acc
  | fuel + 1, n, acc =>
    if n / 10 = 0 then digitChar (n % 10) :: acc
    else natDigitsAux fuel (n / 10) (digitChar (n % 10) :: acc)

/-- The decimal numeral of a natural number. -/
def natDigits (n : Nat) : List Char := natDigitsAux (n + 1) n []

/-- The function `std::to_string(int)`, which is also what `operator<<`
writes for an `int`: the decimal numeral, with a leading `-` when negative. -/
def to_string (n : Int) : List Char :=
  if n < 0 then '-' :: natDigits n.natAbs else natDigits n.natAbs

/-- The tail of `std::stoi` after the optional sign: the longest run of
digits is converted; no digit is `std::invalid_argument`, a value outside
`int` is `std::out_of_range`. -/
def stoiDigits (neg : Bool) (s : List Char) : Except Error Int :=
  let ds := s.takeWhile isdigit
  if ds = [] then .error .invalid_argument
  else
    let v : Int := if neg then -(digitsVal ds : Int) else (digitsVal ds : Int)
    if InIntRange v then .ok v else .error .out_of_range

/-- The function `std::stoi(str)` in base 10: leading white space is
skipped, one sign is accepted, the digits that follow are converted and
whatever comes after them is ignored. -/
def stoi (s : List Char) : Except Error Int :=
  match s.dropWhile isspace with
  | [] => .error .invalid_argument
  | c :: r =>
    if c = '-' then stoiDigits true r
    else if c = '+' then stoiDigits false r
    else stoiDigits false (c :: r)

/-- The loop `while (std::getline(iss, token, delim)) tokens.push_back(token)`
with `cur` the token being read, in reverse: every delimiter closes a token,
and at the end of the text a token is produced only if a character was read
for it. -/
def getlineTokensAux (delim : Char) : List Char → List Char → List (List Char)
  | [], cur => if cur = [] then [] else [cur.reverse]
  | c :: cs, cur =>
    if c = delim then cur.reverse :: getlineTokensAux delim cs []
    else getlineTokensAux delim cs (c :: cur)

/-- The tokens read by repeated `std::getline(iss, token, delim)`. -/
def getlineTokens (delim : Char) (s : List Char) : List (List Char) :=
  getlineTokensAux delim s []

/-- The loop `while (iss >> token)` with `cur` the token being read, in
reverse: white space separates the tokens and no token is empty. -/
def wsTokensAux : List Char → List Char → List (List Char)
  | [], cur => if cur = [] then [] else [cur.reverse]
  | c :: cs, cur =>
    if isspace c then
      (if cur = [] then wsTokensAux cs [] else cur.reverse :: wsTokensAux cs [])
    else wsTokensAux cs (c :: cur)

/-- The tokens read by repeated `iss >> token`. -/
def wsTokens (s : List Char) : List (List Char) := wsTokensAux s []

/-! ## Message -/

/-- The scoped enumeration `MessageType`; its underlying type is `int`, and
`static_cast<MessageType>` accepts every `int`, so a value is its tag. -/
structure MessageType where
  /-- The conversion `static_cast<int>(type)`. -/
  toInt : Int
deriving DecidableEq, Repr

namespace MessageType

def DISCOVERY_REQUEST : MessageType := ⟨0⟩
def DISCOVERY_RESPONSE : MessageType := ⟨1⟩
def CONNECTION_REQUEST : MessageType := ⟨2⟩
def CONNECTION_RESPONSE : MessageType := ⟨3⟩
def HANDSHAKE : MessageType := ⟨4⟩
def HANDSHAKE_ACK : MessageType := ⟨5⟩
def TASK_ASSIGNMENT : MessageType := ⟨6⟩
def TASK_ACK : MessageType := ⟨7⟩
def INSTRUCTION_EXECUTE : MessageType := ⟨8⟩
def INSTRUCTION_COMPLETE : MessageType := ⟨9⟩
def SYNC_BARRIER : MessageType := ⟨10⟩
def SYNC_BARRIER_ACK : MessageType := ⟨11⟩
def DISCONNECT : MessageType := ⟨12⟩
def DISCONNECT_ACK : MessageType := ⟨13⟩

end MessageType

/-- The class `Message`. -/
structure Message where
  type : MessageType
  senderId : List Char
  receiverId : List Char
  payload : List Char := []
  sequenceNumber : Int := 0
deriving DecidableEq, Repr

namespace Message

/-- The values of the C++ class: both `int` fields are in the range of `int`. -/
def InRange (m : Message) : Prop :=
  InIntRange m.type.toInt ∧ InIntRange m.sequenceNumber

instance (m : Message) : Decidable m.InRange := by
  unfold InRange; infer_instance

/-- The method `Message::serialize`. -/
def serialize (m : Message) : List Char :=
  to_string m.type.toInt ++ '|' :: m.senderId ++ '|' :: m.receiverId ++
    '|' :: m.payload ++ '|' :: to_string m.sequenceNumber

/-- The function `Message::deserialize`. Either call of `std::stoi` may
throw; the order in which C++ evaluates the two is unspecified, and the first
token is converted first here. -/
def deserialize (data : List Char) : Except Error Message :=
  let tokens := getlineTokens '|' data
  if 5 ≤ tokens.length then
    match stoi (tokens.getD 0 []) with
    | .error e => .error e
    | .ok ty =>
      match stoi (tokens.getD 4 []) with
      | .error e => .error e
      | .ok seq => .ok ⟨⟨ty⟩, tokens.getD 1 [], tokens.getD 2 [], tokens.getD 3 [], seq⟩
  else .ok ⟨MessageType.DISCOVERY_REQUEST, [], [], [], 0⟩

end Message


/-! ## Ordered maps -/

/-- The comparison `operator<` of `std::string`: lexicographic order. -/
def strLt : List Char → List Char → Bool
  | [], [] => false
  | [], _ :: _ => true
  | _ :: _, [] => false
  | a :: as, b :: bs => if a < b then true else if b < a then false else strLt as bs

/-- The lookup `map.find(k)`: the value stored under `k`, if any. -/
def mapFind {V : Type} (k : List Char) : List (List Char × V) → Option V
  | [] => none
  | (k', v) :: rest => if k' = k then some v else mapFind k rest

/-- The assignment `map[k] = v`: the entry of `k` is replaced, or created at
the place of `k` in ascending key order. -/
def mapInsert {V : Type} (k : List Char) (v : V) : List (List Char × V) → List (List Char × V)
  | [] => [(k, v)]
  | (k', v') :: rest =>
    if strLt k k' then (k, v) :: (k', v') :: rest
    else if k' = k then (k, v) :: rest
    else (k', v') :: mapInsert k v rest

/-- An update in place of the value stored under `k` (a method call through
the `shared_ptr` stored under `k`); nothing happens when `k` is absent. -/
def mapModify {V : Type} (k : List Char) (f : V → V) : List (List Char × V) → List (List Char × V)
  | [] => []
  | (k', v) :: rest => if k' = k then (k', f v) :: rest else (k', v) :: mapModify k f rest

/-! ## Instruction and Node -/

/-- The class `Instruction`. -/
structure Instruction where
  type : List Char
  id : Int
  globalOrder : Int
deriving DecidableEq, Repr

/-- The method `Instruction::toString`. -/
def Instruction.toString (i : Instruction) : List Char := i.type ++ to_string i.id

/-- What the program lets an observer see of a run. -/
inductive Event where
  /-- A message was delivered by `Protocol::sendMessage` (its line
  `Message sent: ...`), and handed to `Protocol::processMessage`. -/
  | messageSent (m : Message)
  /-- The node `nodeId` executed `inst` (the lines `executing: ...` and
  `completed: ...` of `Node::executeInstruction`, and the delay between). -/
  | executed (nodeId : List Char) (inst : Instruction)
deriving DecidableEq, Repr

/-- The state of a `Node` object. -/
structure Node where
  nodeId : List Char
  assignedType : List Char := []
  connectedNodes : List (List Char) := []
  assignedInstructions : List Instruction := []
  isActive : Bool := true
  isCoordinator : Bool := false
  nodeTypes : List (List Char × List Char) := []
  executionPointer : Int := 0
deriving DecidableEq, Repr

namespace Node

/-- The constructor `Node(id)`. -/
def new (id : List Char) : Node := { nodeId := id }

/-- The method `Node::getId`. -/
def getId (n : Node) : List Char := n.nodeId

/-- The method `Node::setCoordinator`. -/
def setCoordinator (n : Node) (coordinator : Bool) : Node :=
  { n with isCoordinator := coordinator }

/-- The method `Node::assignInstructionType`. -/
def assignInstructionType (n : Node) (type : List Char) : Node :=
  { n with assignedType := type }

/-- The method `Node::getAssignedType`. -/
def getAssignedType (n : Node) : List Char := n.assignedType

/-- The method `Node::addConnectedNode`: a `push_back`. -/
def addConnectedNode (n : Node) (nodeId : List Char) : Node :=
  { n with connectedNodes := n.connectedNodes ++ [nodeId] }

/-- The method `Node::assignInstructions`. -/
def assignInstructions (n : Node) (instructions : List Instruction) : Node :=
  { n with assignedInstructions := instructions }

/-- The loop of `Node::executeInstruction`: the first instruction with the
given order is executed, and the method returns. -/
def executeLoop (nodeId : List Char) (globalOrder : Int) : List Instruction → List Event
  | [] => []
  | instruction :: rest =>
    if instruction.globalOrder = globalOrder then [Event.executed nodeId instruction]
    else executeLoop nodeId globalOrder rest

/-- The method `Node::executeInstruction`: the node afterwards, and what was
executed. -/
def executeInstruction (n : Node) (globalOrder : Int) : Node × List Event :=
  (n, executeLoop n.nodeId globalOrder n.assignedInstructions)

/-- The method `Node::hasInstructionAtOrder`. -/
def hasInstructionAtOrder (n : Node) (globalOrder : Int) : Bool :=
  n.assignedInstructions.any (fun inst => inst.globalOrder = globalOrder)

/-- The method `Node::disconnect`. -/
def disconnect (n : Node) : Node := { n with isActive := false }

/-- The method `Node::isNodeActive`. -/
def isNodeActive (n : Node) : Bool := n.isActive

/-- The method `Node::getConnectedNodes`. -/
def getConnectedNodes (n : Node) : List (List Char) := n.connectedNodes

/-- A node as its constructor leaves it, whether or not it was then made the
coordinator: active, with no type, no instructions and no connections. -/
def Fresh (n : Node) : Prop :=
  n.assignedType = [] ∧ n.connectedNodes = [] ∧ n.assignedInstructions = [] ∧ n.isActive = true

instance (n : Node) : Decidable n.Fresh := by
  unfold Fresh; infer_instance

end Node

/-! ## Protocol -/

/-- The state of a `Protocol` object: the map `nodes`. The nodes are held by
`shared_ptr`; a node is stored under its own immutable id, so no node is
reachable under two keys and the map can hold the node states themselves. -/
structure Protocol where
  nodes : List (List Char × Node) := []
deriving DecidableEq, Repr

namespace Protocol

/-- The method `Protocol::registerNode`. -/
def registerNode (p : Protocol) (node : Node) : Protocol :=
  { nodes := mapInsert node.getId node p.nodes }

/-- The method `Protocol::discoverNodes`: the keys, in the order of the map. -/
def discoverNodes (p : Protocol) : List (List Char) := p.nodes.map Prod.fst

/-- The method `Protocol::getNode`; `none` is the null pointer. -/
def getNode (p : Protocol) (nodeId : List Char) : Option Node := mapFind nodeId p.nodes

/-- The method `Protocol::establishConnection`. -/
def establishConnection (p : Protocol) (fromNodeId toNodeId : List Char) : Bool × Protocol :=
  if (mapFind fromNodeId p.nodes).isNone || (mapFind toNodeId p.nodes).isNone then (false, p)
  else
    let nodes1 := mapModify fromNodeId (fun n => n.addConnectedNode toNodeId) p.nodes
    let nodes2 := mapModify toNodeId (fun n => n.addConnectedNode fromNodeId) nodes1
    (true, { nodes := nodes2 })

/-- The extraction `iss >> type` into an empty string: the first token
delimited by white space, or nothing. -/
def firstToken (s : List Char) : List Char := (wsTokens s).headD []

/-- The method `Protocol::processMessage`; `std::stoi` may throw. -/
def processMessage (p : Protocol) (message : Message) : Except Error (Protocol × List Event) :=
  match mapFind message.receiverId p.nodes with
  | none => .ok (p, [])
  | some receiver =>
    if message.type = MessageType.TASK_ASSIGNMENT then
      .ok ({ nodes := mapModify message.receiverId
              (fun n => n.assignInstructionType (firstToken message.payload)) p.nodes }, [])
    else if message.type = MessageType.INSTRUCTION_EXECUTE then
      match stoi message.payload with
      | .error e => .error e
      | .ok globalOrder =>
        .ok ({ nodes := mapModify message.receiverId
                (fun n => (n.executeInstruction globalOrder).1) p.nodes },
             (receiver.executeInstruction globalOrder).2)
    else if message.type = MessageType.DISCONNECT then
      .ok ({ nodes := mapModify message.receiverId (fun n => n.disconnect) p.nodes }, [])
    else .ok (p, [])

/-- The method `Protocol::sendMessage`. -/
def sendMessage (p : Protocol) (message : Message) : Except Error (Protocol × List Event) :=
  if (mapFind message.receiverId p.nodes).isSome then
    match processMessage p message with
    | .error e => .error e
    | .ok (p', events) => .ok (p', Event.messageSent message :: events)
  else .ok (p, [])

/-- The invariant of the map `nodes`: the keys are strictly ascending, and
every node is stored under its own id. -/
def WF (p : Protocol) : Prop :=
  (p.nodes.map Prod.fst).Pairwise (fun a b => strLt a b = true) ∧
    ∀ kn ∈ p.nodes, kn.2.nodeId = kn.1

/-- The node `a` is registered and `b` occurs in its connection list. -/
def Connected (p : Protocol) (a b : List Char) : Prop :=
  ∃ n, p.getNode a = some n ∧ b ∈ n.connectedNodes

instance (p : Protocol) (a b : List Char) : Decidable (p.Connected a b) :=
  match h : p.getNode a with
  | none => isFalse (by rintro ⟨n, hn, _⟩; rw [h] at hn; exact Option.noConfusion hn)
  | some n =>
    if hb : b ∈ n.connectedNodes then isTrue ⟨n, h, hb⟩
    else isFalse (by
      rintro ⟨m, hm, hmb⟩
      rw [h] at hm
      exact hb (by rw [Option.some.inj hm]; exact hmb))

instance (p : Protocol) : Decidable p.WF := by
  unfold WF; infer_instance

end Protocol

/-! ## TaskManager -/

/-- The state of a `TaskManager` object. The `Protocol` it points to is shared
with the application, which registers nodes after the manager is built, so
the methods below take and return the state of the protocol. Of the
coordinator node only the null test and the immutable id are used. -/
structure TaskManager where
  instructions : List Instruction := []
  instructionsByType : List (List Char × List Instruction) := []
  coordinatorNode : Option Node
deriving DecidableEq, Repr

namespace TaskManager

/-- The constructor `TaskManager(p, coordinator)`. -/
def new (coordinator : Option Node) : TaskManager := { coordinatorNode := coordinator }

/-- The loop `while (iss >> instruction)` of `TaskManager::loadInstructions`,
with the value of `order`. `std::stoi` may throw, and `order++` at `INT_MAX`
is undefined. -/
def loadLoop : List (List Char) → Int → TaskManager → Except Error TaskManager
  | [], _, tm => .ok tm
  | instruction :: rest, order, tm =>
    if 2 ≤ instruction.length then
      let type := instruction.take 1
      match stoi (instruction.drop 1) with
      | .error e => .error e
      | .ok id =>
        if order = INT_MAX then .error .int_overflow
        else
          let inst : Instruction := ⟨type, id, order⟩
          loadLoop rest (order + 1)
            { tm with
              instructions := tm.instructions ++ [inst]
              instructionsByType :=
                mapInsert type ((mapFind type tm.instructionsByType).getD [] ++ [inst])
                  tm.instructionsByType }
    else loadLoop rest order tm

/-- The method `TaskManager::loadInstructions` from `std::getline(file, line)`
on: `line` is the first line of the file, `none` when there is none. -/
def loadInstructions (tm : TaskManager) (line : Option (List Char)) :
    Except Error (Bool × TaskManager) :=
  match line with
  | none => .ok (false, tm)
  | some l =>
    match loadLoop (wsTokens l) 0 tm with
    | .error e => .error e
    | .ok tm' => .ok (true, tm')

/-- The method `TaskManager::getRequiredInstructionTypes`. -/
def getRequiredInstructionTypes (tm : TaskManager) : List (List Char) :=
  tm.instructionsByType.map Prod.fst

/-- The inner loop of `TaskManager::assignTasksToNodes`, over the discovered
nodes: `nodeId` is connected to every other one. -/
def connectLoop (nodeId : List Char) : List (List Char) → Protocol → Protocol
  | [], p => p
  | otherNodeId :: rest, p =>
    if otherNodeId ≠ nodeId then connectLoop nodeId rest (p.establishConnection nodeId otherNodeId).2
    else connectLoop nodeId rest p

/-- One turn, for the index `i`, of the outer loop of
`TaskManager::assignTasksToNodes`. The key `type` is in `instructionsByType`,
so that `instructionsByType[type]` creates no entry. -/
def assignStep (tm : TaskManager) (types discoveredNodes : List (List Char))
    (p : Protocol) (i : Nat) : Protocol :=
  let nodeId := discoveredNodes.getD i []
  let type := types.getD i []
  match p.getNode nodeId with
  | none => p
  | some _ =>
    let p1 : Protocol := { nodes := mapModify nodeId (fun n => n.assignInstructionType type) p.nodes }
    let p2 : Protocol :=
      { nodes := mapModify nodeId
          (fun n => n.assignInstructions ((mapFind type tm.instructionsByType).getD [])) p1.nodes }
    connectLoop nodeId discoveredNodes p2

/-- The method `TaskManager::assignTasksToNodes`. -/
def assignTasksToNodes (tm : TaskManager) (p : Protocol) : Bool × Protocol :=
  match tm.coordinatorNode with
  | none => (false, p)
  | some _ =>
    let types := tm.getRequiredInstructionTypes
    let discoveredNodes := p.discoverNodes
    if discoveredNodes.length < types.length then (false, p)
    else (true, (List.range types.length).foldl (assignStep tm types discoveredNodes) p)

/-- The inner loop of `TaskManager::executeInstructions`, over the discovered
nodes: the first node of the type of `instruction` that has its order is sent
the message, and the loop is left. The coordinator is dereferenced to build
the message. -/
def dispatchLoop (tm : TaskManager) (instruction : Instruction) :
    List (List Char) → Protocol → Except Error (Protocol × List Event)
  | [], p => .ok (p, [])
  | nodeId :: rest, p =>
    match p.getNode nodeId with
    | none => dispatchLoop tm instruction rest p
    | some node =>
      if node.getAssignedType = instruction.type then
        if node.hasInstructionAtOrder instruction.globalOrder then
          match tm.coordinatorNode with
          | none => .error .null_dereference
          | some coordinator =>
            p.sendMessage ⟨MessageType.INSTRUCTION_EXECUTE, coordinator.getId, nodeId,
              to_string instruction.globalOrder, 0⟩
        else dispatchLoop tm instruction rest p
      else dispatchLoop tm instruction rest p

/-- The outer loop of `TaskManager::executeInstructions`. -/
def executeLoop (tm : TaskManager) :
    List Instruction → Protocol → Except Error (Protocol × List Event)
  | [], p => .ok (p, [])
  | instruction :: rest, p =>
    match dispatchLoop tm instruction p.discoverNodes p with
    | .error e => .error e
    | .ok (p1, events1) =>
      match executeLoop tm rest p1 with
      | .error e => .error e
      | .ok (p2, events2) => .ok (p2, events1 ++ events2)

/-- The method `TaskManager::executeInstructions`. -/
def executeInstructions (tm : TaskManager) (p : Protocol) : Except Error (Protocol × List Event) :=
  executeLoop tm tm.instructions p

/-- The loop of `TaskManager::cleanup`. -/
def cleanupLoop (tm : TaskManager) :
    List (List Char) → Protocol → Except Error (Protocol × List Event)
  | [], p => .ok (p, [])
  | nodeId :: rest, p =>
    match tm.coordinatorNode with
    | none => .error .null_dereference
    | some coordinator =>
      match p.sendMessage ⟨MessageType.DISCONNECT, coordinator.getId, nodeId, [], 0⟩ with
      | .error e => .error e
      | .ok (p1, events1) =>
        match cleanupLoop tm rest p1 with
        | .error e => .error e
        | .ok (p2, events2) => .ok (p2, events1 ++ events2)

/-- The method `TaskManager::cleanup`. -/
def cleanup (tm : TaskManager) (p : Protocol) : Except Error (Protocol × List Event) :=
  cleanupLoop tm p.discoverNodes p

end TaskManager

/-! ## DistributedApplication -/

/-- The state of a `DistributedApplication` object. -/
structure DistributedApplication where
  protocol : Protocol := {}
  taskManager : Option TaskManager := none
  nodes : List Node := []
deriving DecidableEq, Repr

namespace DistributedApplication

/-- One turn, for the index `i`, of the loop of the method `initialize` of
`DistributedApplication`. -/
def initStep (app : DistributedApplication) (i : Nat) : DistributedApplication :=
  let nodeId := ['N', 'o', 'd', 'e'] ++ to_string ((i : Int) + 1)
  let node := Node.new nodeId
  let node := if i = 0 then node.setCoordinator true else node
  { protocol := app.protocol.registerNode node
    taskManager := if i = 0 then some (TaskManager.new (some node)) else app.taskManager
    nodes := app.nodes ++ [node] }

/-- The method `initialize` of `DistributedApplication`. -/
def init (app : DistributedApplication) (numNodes : Int) : DistributedApplication :=
  (List.range numNodes.toNat).foldl initStep app

end DistributedApplication

/-! ## Vocabulary of the statements -/

/-- The messages delivered during a run, in order. -/
def sentMessages : List Event → List Message
  | [] => []
  | Event.messageSent m :: rest => m :: sentMessages rest
  | Event.executed _ _ :: rest => sentMessages rest

/-- The instructions executed by the node `nodeId` during a run, in order. -/
def executedBy (nodeId : List Char) : List Event → List Instruction
  | [] => []
  | Event.messageSent _ :: rest => executedBy nodeId rest
  | Event.executed k inst :: rest =>
    if k = nodeId then inst :: executedBy nodeId rest else executedBy nodeId rest

/-- The instructions executed during a run, by any node, in order. -/
def executedAll : List Event → List Instruction
  | [] => []
  | Event.messageSent _ :: rest => executedAll rest
  | Event.executed _ inst :: rest => inst :: executedAll rest

/-- The distinct types of a sequence of instructions. -/
def distinctTypes (items : List Instruction) : List (List Char) :=
  (items.map (fun i => i.type)).dedup

/-- The node `n` after its connection list has grown by `extra` and its type
and instructions have been set to `type` and `items`; nothing else differs. -/
def Node.updated (n : Node) (extra : List (List Char)) (type : List Char)
    (items : List Instruction) : Node :=
  { n with
    connectedNodes := n.connectedNodes ++ extra
    assignedType := type
    assignedInstructions := items }

/-- Every node of `p` is a node of `q`, where its connection list may have
grown and its type and instructions may differ; nothing else differs. -/
def Protocol.Extends (p q : Protocol) : Prop :=
  q.discoverNodes = p.discoverNodes ∧
    ∀ x n, p.getNode x = some n → ∃ ex ty its, q.getNode x = some (n.updated ex ty its)

/-- The test of the inner loop of `executeInstructions` on the id `nodeId`:
the node is registered, its type is the type of `inst`, and it has an
instruction at the order of `inst`. -/
def Protocol.isOwner (p : Protocol) (inst : Instruction) (nodeId : List Char) : Bool :=
  match p.getNode nodeId with
  | none => false
  | some node =>
    decide (node.assignedType = inst.type) && node.hasInstructionAtOrder inst.globalOrder

/-- The message that `executeInstructions` sends to `nodeId` for `inst`, with
`c` the coordinator. -/
def executeMsg (c : Node) (nodeId : List Char) (inst : Instruction) : Message :=
  ⟨MessageType.INSTRUCTION_EXECUTE, c.nodeId, nodeId, to_string inst.globalOrder, 0⟩

/-- What one turn of the outer loop of `executeInstructions` is to produce for
`inst`: nothing without an owner, and otherwise the message to the first owner
among the discovered ids, followed by what that node executes. -/
def itemEvents (c : Node) (p : Protocol) (inst : Instruction) : List Event :=
  match p.discoverNodes.find? (p.isOwner inst) with
  | none => []
  | some k =>
    match p.getNode k with
    | none => []
    | some node =>
      Event.messageSent (executeMsg c k inst) :: (node.executeInstruction inst.globalOrder).2

/-- The instructions of type `t` in a sequence, in the order of the sequence. -/
def itemsOfType (t : List Char) (items : List Instruction) : List Instruction :=
  items.filter (fun i => decide (i.type = t))

/-- The map `instructionsByType` is the partition of `instructions` by type:
ascending keys, and under each type the instructions of that type, in
order, with no entry for a type that does not occur. -/
def TaskManager.Partitioned (tm : TaskManager) : Prop :=
  (tm.instructionsByType.map Prod.fst).Pairwise (fun a b => strLt a b = true) ∧
    ∀ t, mapFind t tm.instructionsByType =
      if itemsOfType t tm.instructions = [] then none
      else some (itemsOfType t tm.instructions)

/-- The orders of `items` are `order`, `order + 1`, ... in sequence. -/
def ordersFrom : Int → List Instruction → Prop
  | _, [] => True
  | order, i :: rest => i.globalOrder = order ∧ ordersFrom (order + 1) rest

/-- The `TaskManager` built with coordinator `c` after it has loaded `line`
(the new `TaskManager` itself if loading throws). -/
def TaskManager.ofLine (c : Node) (line : List Char) : TaskManager :=
  match (TaskManager.new (some c)).loadInstructions (some line) with
  | .ok (_, tm) => tm
  | .error _ => TaskManager.new (some c)

/-- The coordinator made by the method `initialize`: the node `Node1`. -/
def sampleCoordinator : Node := (Node.new "Node1".toList).setCoordinator true

/-- The registry made by `initialize(n)`: the nodes `Node1`, ..., as created. -/
def sampleProtocol (n : Int) : Protocol := (DistributedApplication.init {} n).protocol

/-- The sample input written by `TaskManager::loadInstructions`. -/
def sampleLine : List Char := "a1 a2 c1 b1 c2 a3 b2 b3 a4 c3 b4".toList

/-- Every node of `p` is a node of `q` with the same id and the same
connection list, and inactive if it was inactive; the ids are the same. -/
def Protocol.Frame (p q : Protocol) : Prop :=
  q.discoverNodes = p.discoverNodes ∧
    ∀ x n, p.getNode x = some n → ∃ n', q.getNode x = some n' ∧
      n'.connectedNodes = n.connectedNodes ∧ n'.nodeId = n.nodeId ∧
      (n.isActive = false → n'.isActive = false)

/-- The `DISCONNECT` message that `cleanup` sends to `nodeId`, with `c` the
coordinator. -/
def disconnectMsg (c : Node) (nodeId : List Char) : Message :=
  ⟨MessageType.DISCONNECT, c.nodeId, nodeId, [], 0⟩

/-- The registry after the nodes of `ns` have been registered, in order, in an
empty `Protocol`. -/
def registerAll (ns : List Node) : Protocol := ns.foldl Protocol.registerNode {}

/-- The items that the specification reads from a line: the white-space
separated tokens of at least two characters, in input order; the type of an
item is the first character of its token, its id is the decimal value of the
rest, and its order is its position, from 0, among these items. -/
def parsedItems (line : List Char) : List Instruction :=
  (((wsTokens line).filter (fun tok => decide (2 ≤ tok.length))).enumFrom 0).map
    (fun ktok => ⟨ktok.2.take 1, (digitsVal (ktok.2.drop 1) : Int), (ktok.1 : Int)⟩)

/-- A token is one character followed by decimal digits only, whose value is
a value of `int`. -/
def IsItemToken (tok : List Char) : Prop :=
  (tok.drop 1).all isdigit = true ∧ (digitsVal (tok.drop 1) : Int) ≤ INT_MAX

instance (tok : List Char) : Decidable (IsItemToken tok) := by
  unfold IsItemToken; infer_instance

/-- The operations on the registry that the connection graph is exposed to:
registering a newly created node (made the coordinator or not), a call of
`establishConnection`, a message passed to `sendMessage`, and a call of
`assignTasksToNodes` by some `TaskManager`. -/
inductive Op where
  | register (id : List Char) (coordinator : Bool)
  | connect (a b : List Char)
  | route (m : Message)
  | assign (tm : TaskManager)

/-- The registry after one operation; a message on which `sendMessage` throws
leaves it as it was. -/
def Protocol.apply (p : Protocol) : Op → Protocol
  | Op.register id coordinator => p.registerNode ((Node.new id).setCoordinator coordinator)
  | Op.connect a b => (p.establishConnection a b).2
  | Op.route m =>
    match p.sendMessage m with
    | .ok (p', _) => p'
    | .error _ => p
  | Op.assign tm => (tm.assignTasksToNodes p).2

/-- The registry reached from the empty one by a sequence of operations. -/
def Protocol.run (ops : List Op) : Protocol := ops.foldl Protocol.apply {}

/-- The ids under which a sequence of operations registers nodes, in order. -/
def Op.registered : List Op → List (List Char)
  | [] => []
  | Op.register id _ :: rest => id :: Op.registered rest
  | _ :: rest => Op.registered rest

/-- The connection lists mention registered ids only, and are symmetric. -/
def Protocol.SymmetricGraph (p : Protocol) : Prop :=
  (∀ a b, p.Connected a b → b ∈ p.discoverNodes) ∧
    (∀ a b, p.Connected a b → p.Connected b a)

/-- What one turn of the outer loop of `assignTasksToNodes`, for the node
`a`, appends to the connection list of the node `x`, with `ids` the discovered
ids: every other id, for `a` itself; and `a`, once for each time `x` is
discovered, for another node. -/
def turnExtra (ids : List (List Char)) (x a : List Char) : List (List Char) :=
  if x = a then ids.filter (fun b => decide (b ≠ a)) else List.replicate (ids.count x) a

/-! # Theorems -/

/-! ## Decimal numerals -/

theorem digitChar_facts : ∀ d < 10, isdigit (digitChar d) = true ∧ digitVal (digitChar d) = d ∧
    digitChar d ≠ '|' ∧ digitChar d ≠ '-' ∧ digitChar d ≠ '+' ∧ isspace (digitChar d) = false := by
  decide

theorem IsDigitChar.isdigit {c : Char} (h : IsDigitChar c) : isdigit c = true := by
  obtain ⟨d, hd, rfl⟩ := h; exact (digitChar_facts d hd).1

theorem IsDigitChar.ne_pipe {c : Char} (h : IsDigitChar c) : c ≠ '|' := by
  obtain ⟨d, hd, rfl⟩ := h; exact (digitChar_facts d hd).2.2.1

theorem IsDigitChar.ne_minus {c : Char} (h : IsDigitChar c) : c ≠ '-' := by
  obtain ⟨d, hd, rfl⟩ := h; exact (digitChar_facts d hd).2.2.2.1

theorem IsDigitChar.ne_plus {c : Char} (h : IsDigitChar c) : c ≠ '+' := by
  obtain ⟨d, hd, rfl⟩ := h; exact (digitChar_facts d hd).2.2.2.2.1

theorem IsDigitChar.not_isspace {c : Char} (h : IsDigitChar c) : isspace c = false := by
  obtain ⟨d, hd, rfl⟩ := h; exact (digitChar_facts d hd).2.2.2.2.2

theorem digitsVal_append_singleton (ds : List Char) (c : Char) :
    digitsVal (ds ++ [c]) = digitsVal ds * 10 + digitVal c := by
  simp [digitsVal, List.foldl_append]

theorem natDigitsAux_spec : ∀ (fuel n : Nat) (acc : List Char), n < fuel →
    ∃ ds, natDigitsAux fuel n acc = ds ++ acc ∧ ds ≠ [] ∧ (∀ c ∈ ds, IsDigitChar c) ∧
      digitsVal ds = n := by
  intro fuel
  induction fuel with
  | zero => intro n acc h; omega
  | succ fuel ih =>
    intro n acc h
    have hd : n % 10 < 10 := Nat.mod_lt _ (by decide)
    by_cases h0 : n / 10 = 0
    · refine ⟨[digitChar (n % 10)], by simp [natDigitsAux, h0], by simp, ?_, ?_⟩
      · intro c hc
        simp only [List.mem_singleton] at hc
        exact ⟨n % 10, hd, hc⟩
      · have := (digitChar_facts _ hd).2.1
        simp only [digitsVal, List.foldl_cons, List.foldl_nil, this]
        omega
    · have hlt : n / 10 < fuel := by omega
      obtain ⟨ds, hds, _, hall, hval⟩ := ih (n / 10) (digitChar (n % 10) :: acc) hlt
      refine ⟨ds ++ [digitChar (n % 10)], by simp [natDigitsAux, h0, hds], by simp, ?_, ?_⟩
      · intro c hc
        rcases List.mem_append.1 hc with hc | hc
        · exact hall c hc
        · simp only [List.mem_singleton] at hc
          exact ⟨n % 10, hd, hc⟩
      · rw [digitsVal_append_singleton, hval, (digitChar_facts _ hd).2.1]
        omega

theorem natDigits_spec (n : Nat) :
    natDigits n ≠ [] ∧ (∀ c ∈ natDigits n, IsDigitChar c) ∧ digitsVal (natDigits n) = n := by
  obtain ⟨ds, hds, hne, hall, hval⟩ := natDigitsAux_spec (n + 1) n [] (Nat.lt_succ_self n)
  have : natDigits n = ds := by simpa [natDigits] using hds
  rw [this]
  exact ⟨hne, hall, hval⟩

theorem stoiDigits_natDigits (neg : Bool) (n : Nat)
    (h : InIntRange (if neg then -(n : Int) else (n : Int))) :
    stoiDigits neg (natDigits n) = .ok (if neg then -(n : Int) else (n : Int)) := by
  obtain ⟨hne, hall, hval⟩ := natDigits_spec n
  have htake : (natDigits n).takeWhile isdigit = natDigits n :=
    List.takeWhile_eq_self_iff.2 (fun c hc => (hall c hc).isdigit)
  simp only [stoiDigits, htake, hne, if_false, hval]
  rw [if_pos h]

/-- Reading back a numeral: `std::stoi(std::to_string(n))` is `n` for every `int`. -/
theorem stoi_to_string (n : Int) (h : InIntRange n) : stoi (to_string n) = .ok n := by
  obtain ⟨hne, hall, _⟩ := natDigits_spec n.natAbs
  by_cases hn : n < 0
  · have hval : (if true = true then -((n.natAbs : Nat) : Int) else (n.natAbs : Int)) = n := by
      simp only [if_true]; omega
    have := stoiDigits_natDigits true n.natAbs (by rw [hval]; exact h)
    rw [hval] at this
    have hsp : isspace '-' = false := by decide
    simp [to_string, hn, stoi, List.dropWhile_cons, hsp, this]
  · have hval : (if false = true then -((n.natAbs : Nat) : Int) else (n.natAbs : Int)) = n := by
      simp only [Bool.false_eq_true, if_false]; omega
    have := stoiDigits_natDigits false n.natAbs (by rw [hval]; exact h)
    rw [hval] at this
    cases hds : natDigits n.natAbs with
    | nil => exact absurd hds hne
    | cons c r =>
      have hc : IsDigitChar c := hall c (by rw [hds]; exact List.mem_cons_self _ _)
      rw [hds] at this
      simp [to_string, hn, hds, stoi, List.dropWhile_cons, hc.not_isspace, hc.ne_minus,
        hc.ne_plus, this]

theorem to_string_no_pipe (n : Int) : '|' ∉ to_string n := by
  obtain ⟨_, hall, _⟩ := natDigits_spec n.natAbs
  have hd : '|' ∉ natDigits n.natAbs := fun hm => (hall _ hm).ne_pipe rfl
  unfold to_string
  split
  · intro hm
    rcases List.mem_cons.1 hm with hm | hm
    · exact absurd hm (by decide)
    · exact hd hm
  · exact hd

theorem to_string_ne_nil (n : Int) : to_string n ≠ [] := by
  unfold to_string
  split
  · simp
  · exact (natDigits_spec n.natAbs).1

/-! ## Tokens -/

theorem getlineTokensAux_sep (d : Char) : ∀ (a rest cur : List Char), d ∉ a →
    getlineTokensAux d (a ++ d :: rest) cur = (cur.reverse ++ a) :: getlineTokensAux d rest [] := by
  intro a
  induction a with
  | nil => intro rest cur _; simp [getlineTokensAux]
  | cons c a ih =>
    intro rest cur h
    have hc : c ≠ d := fun e => h (by simp [e])
    have ha : d ∉ a := fun e => h (List.mem_cons_of_mem _ e)
    simp [getlineTokensAux, hc, ih rest (c :: cur) ha]

theorem getlineTokensAux_last (d : Char) : ∀ (a cur : List Char), d ∉ a →
    getlineTokensAux d a cur = if cur.reverse ++ a = [] then [] else [cur.reverse ++ a] := by
  intro a
  induction a with
  | nil => intro cur _; simp [getlineTokensAux]
  | cons c a ih =>
    intro cur h
    have hc : c ≠ d := fun e => h (by simp [e])
    have ha : d ∉ a := fun e => h (List.mem_cons_of_mem _ e)
    simp [getlineTokensAux, hc, ih (c :: cur) ha]

theorem getlineTokens_sep (d : Char) (a rest : List Char) (h : d ∉ a) :
    getlineTokens d (a ++ d :: rest) = a :: getlineTokens d rest := by
  simp [getlineTokens, getlineTokensAux_sep d a rest [] h]

theorem getlineTokens_last (d : Char) (a : List Char) (h : d ∉ a) (hne : a ≠ []) :
    getlineTokens d a = [a] := by
  simp [getlineTokens, getlineTokensAux_last d a [] h, hne]

/-- Every delimiter closes at most one token: there are at most one more
tokens than delimiters. -/
theorem getlineTokensAux_length_le (d : Char) : ∀ (s cur : List Char),
    (getlineTokensAux d s cur).length ≤ s.count d + 1 := by
  intro s
  induction s with
  | nil => intro cur; simp only [getlineTokensAux]; split <;> simp
  | cons c s ih =>
    intro cur
    by_cases hc : c = d
    · subst hc
      have := ih []
      simp only [getlineTokensAux, if_true, List.length_cons, List.count_cons_self]
      omega
    · have := ih (c :: cur)
      simp only [getlineTokensAux, hc, if_false]
      rw [List.count_cons_of_ne (Ne.symm hc)]
      exact this

/-! ## Claims on `Message` -/

theorem serialize_tokens (e : Message) (hs : '|' ∉ e.senderId) (hr : '|' ∉ e.receiverId)
    (hp : '|' ∉ e.payload) :
    getlineTokens '|' e.serialize =
      [to_string e.type.toInt, e.senderId, e.receiverId, e.payload,
        to_string e.sequenceNumber] := by
  simp only [Message.serialize, List.append_assoc, List.cons_append]
  rw [getlineTokens_sep _ _ _ (to_string_no_pipe _), getlineTokens_sep _ _ _ hs,
    getlineTokens_sep _ _ _ hr, getlineTokens_sep _ _ _ hp,
    getlineTokens_last _ _ (to_string_no_pipe _) (to_string_ne_nil _)]

/-- C5 (as stated, refuted): an envelope with a `|`-free payload whose sender
id contains `|` is not decoded back: `0|a|b|c|7|0` is read as the envelope
with sender `a`, receiver `b`, payload `c` and sequence number `7`. -/
theorem C5_counterexample :
    (⟨MessageType.DISCOVERY_REQUEST, ['a', '|', 'b'], ['c'], ['7'], 0⟩ : Message).InRange ∧
    '|' ∉ (⟨MessageType.DISCOVERY_REQUEST, ['a', '|', 'b'], ['c'], ['7'], 0⟩ : Message).payload ∧
    Message.deserialize
        (⟨MessageType.DISCOVERY_REQUEST, ['a', '|', 'b'], ['c'], ['7'], 0⟩ : Message).serialize
      = .ok ⟨MessageType.DISCOVERY_REQUEST, ['a'], ['b'], ['c'], 7⟩ ∧
    Message.deserialize
        (⟨MessageType.DISCOVERY_REQUEST, ['a', '|', 'b'], ['c'], ['7'], 0⟩ : Message).serialize
      ≠ .ok ⟨MessageType.DISCOVERY_REQUEST, ['a', '|', 'b'], ['c'], ['7'], 0⟩ := by
  decide

/-- C5 (amended): for every envelope whose sender id, receiver id and payload
contain no `|` (any kind tag and any sequence number of type `int`),
`Message::deserialize(e.serialize())` returns `e`, field by field. -/
theorem C5_deserialize_serialize (e : Message) (hrange : e.InRange)
    (hs : '|' ∉ e.senderId) (hr : '|' ∉ e.receiverId) (hp : '|' ∉ e.payload) :
    Message.deserialize e.serialize = .ok e := by
  simp only [Message.deserialize, serialize_tokens e hs hr hp]
  simp [stoi_to_string _ hrange.1, stoi_to_string _ hrange.2]

theorem C5_deserialize_serialize_witness :
    Message.deserialize
        (⟨MessageType.INSTRUCTION_EXECUTE, "Node1".toList, "Node2".toList, "10".toList, -3⟩ :
          Message).serialize
      = .ok ⟨MessageType.INSTRUCTION_EXECUTE, "Node1".toList, "Node2".toList, "10".toList, -3⟩ :=
  C5_deserialize_serialize _ (by decide) (by decide) (by decide) (by decide)

/-- C6: a text that `Message::deserialize` splits into fewer than 5 tokens
(the empty text included) is decoded, without error, to the default envelope:
kind `DISCOVERY_REQUEST`, empty sender, receiver and payload, sequence
number 0. -/
theorem C6_deserialize_short (data : List Char)
    (h : (getlineTokens '|' data).length < 5) :
    Message.deserialize data = .ok ⟨MessageType.DISCOVERY_REQUEST, [], [], [], 0⟩ := by
  simp only [Message.deserialize]
  rw [if_neg (by omega)]

theorem C6_deserialize_short_witness :
    Message.deserialize [] = .ok ⟨MessageType.DISCOVERY_REQUEST, [], [], [], 0⟩ ∧
    Message.deserialize "8|Node1|Node2|5".toList
      = .ok ⟨MessageType.DISCOVERY_REQUEST, [], [], [], 0⟩ :=
  ⟨C6_deserialize_short [] (by decide), C6_deserialize_short _ (by decide)⟩

/-- A text with fewer than four `|` characters has fewer than 5 tokens, and is
therefore decoded to the default envelope. -/
theorem deserialize_of_few_pipes (data : List Char) (h : data.count '|' < 4) :
    Message.deserialize data = .ok ⟨MessageType.DISCOVERY_REQUEST, [], [], [], 0⟩ := by
  have := getlineTokensAux_length_le '|' data []
  simp only [Message.deserialize, getlineTokens]
  rw [if_neg (by omega)]

/-! ## The order of `std::string` -/

theorem strLt_irrefl (a : List Char) : strLt a a = false := by
  induction a with
  | nil => rfl
  | cons c a ih => simp [strLt, ih]

theorem strLt_trans : ∀ (a b c : List Char), strLt a b = true → strLt b c = true →
    strLt a c = true := by
  intro a
  induction a with
  | nil =>
    intro b c hab hbc
    cases b with
    | nil => simp [strLt] at hab
    | cons y b =>
      cases c with
      | nil => simp [strLt] at hbc
      | cons z c => simp [strLt]
  | cons x a ih =>
    intro b c hab hbc
    cases b with
    | nil => simp [strLt] at hab
    | cons y b =>
      cases c with
      | nil => simp [strLt] at hbc
      | cons z c =>
        simp only [strLt] at hab hbc ⊢
        by_cases hxy : x < y
        · by_cases hyz : y < z
          · simp [lt_trans hxy hyz]
          · by_cases hzy : z < y
            · simp [hyz, hzy] at hbc
            · have : y = z := le_antisymm (not_lt.1 hzy) (not_lt.1 hyz)
              subst this
              simp [hxy]
        · by_cases hyx : y < x
          · simp [hxy, hyx] at hab
          · have : x = y := le_antisymm (not_lt.1 hyx) (not_lt.1 hxy)
            subst this
            simp only [hxy, if_false] at hab
            by_cases hxz : x < z
            · simp [hxz]
            · by_cases hzx : z < x
              · simp [hxz, hzx] at hbc
              · simp only [hxz, hzx, if_false] at hbc ⊢
                exact ih b c hab hbc

theorem strLt_total : ∀ (a b : List Char), strLt a b = false → a ≠ b → strLt b a = true := by
  intro a
  induction a with
  | nil =>
    intro b hab hne
    cases b with
    | nil => exact absurd rfl hne
    | cons y b => simp [strLt] at hab
  | cons x a ih =>
    intro b hab hne
    cases b with
    | nil => simp [strLt]
    | cons y b =>
      simp only [strLt] at hab ⊢
      by_cases hxy : x < y
      · simp [hxy] at hab
      · by_cases hyx : y < x
        · simp [hyx]
        · have : x = y := le_antisymm (not_lt.1 hyx) (not_lt.1 hxy)
          subst this
          simp only [hxy, if_false] at hab ⊢
          exact ih b hab (fun e => hne (by rw [e]))

theorem strLt_asymm (a b : List Char) (h : strLt a b = true) : strLt b a = false := by
  cases hba : strLt b a with
  | false => rfl
  | true =>
    have := strLt_trans a b a h hba
    rw [strLt_irrefl] at this
    exact absurd this (by decide)

theorem strLt_ne (a b : List Char) (h : strLt a b = true) : a ≠ b := by
  intro e
  rw [e, strLt_irrefl] at h
  exact absurd h (by decide)

theorem pairwise_strLt_nodup (l : List (List Char))
    (h : l.Pairwise (fun a b => strLt a b = true)) : l.Nodup :=
  h.imp (fun hab => strLt_ne _ _ hab)

/-! ## Ordered maps -/

section Maps

variable {V : Type}

theorem mapFind_mapModify_self (k : List Char) (f : V → V) (l : List (List Char × V)) :
    mapFind k (mapModify k f l) = (mapFind k l).map f := by
  induction l with
  | nil => rfl
  | cons kv l ih =>
    obtain ⟨k', v⟩ := kv
    by_cases h : k' = k
    · simp [mapFind, mapModify, h]
    · simp [mapFind, mapModify, h, ih]

theorem mapFind_mapModify_ne (k k' : List Char) (f : V → V) (l : List (List Char × V))
    (hne : k' ≠ k) : mapFind k' (mapModify k f l) = mapFind k' l := by
  induction l with
  | nil => rfl
  | cons kv l ih =>
    obtain ⟨k'', v⟩ := kv
    by_cases h : k'' = k
    · subst h
      simp [mapFind, mapModify, Ne.symm hne]
    · by_cases h' : k'' = k'
      · subst h'
        simp [mapFind, mapModify, h]
      · simp [mapFind, mapModify, h, h', ih]

theorem keys_mapModify (k : List Char) (f : V → V) (l : List (List Char × V)) :
    (mapModify k f l).map Prod.fst = l.map Prod.fst := by
  induction l with
  | nil => rfl
  | cons kv l ih =>
    obtain ⟨k', v⟩ := kv
    by_cases h : k' = k
    · simp [mapModify, h]
    · simp [mapModify, h, ih]

theorem mapModify_id (k : List Char) (f : V → V) (l : List (List Char × V))
    (hf : ∀ v, f v = v) : mapModify k f l = l := by
  induction l with
  | nil => rfl
  | cons kv l ih =>
    obtain ⟨k', v⟩ := kv
    by_cases h : k' = k
    · simp [mapModify, h, hf]
    · simp [mapModify, h, ih]

theorem mapFind_eq_none_iff (k : List Char) (l : List (List Char × V)) :
    mapFind k l = none ↔ k ∉ l.map Prod.fst := by
  induction l with
  | nil => simp [mapFind]
  | cons kv l ih =>
    obtain ⟨k', v⟩ := kv
    by_cases h : k' = k
    · subst h
      simp only [mapFind, if_true, List.map_cons, List.mem_cons, true_or, not_true_eq_false,
        iff_false]
      exact Option.some_ne_none _
    · simp only [mapFind, h, if_false, ih, List.map_cons, List.mem_cons, not_or]
      exact ⟨fun hh => ⟨Ne.symm h, hh⟩, fun hh => hh.2⟩

theorem mapFind_isSome_iff (k : List Char) (l : List (List Char × V)) :
    (mapFind k l).isSome = true ↔ k ∈ l.map Prod.fst := by
  rw [← not_iff_not, ← mapFind_eq_none_iff]
  cases mapFind k l <;> simp

theorem mapFind_mem (k : List Char) (v : V) (l : List (List Char × V))
    (h : mapFind k l = some v) : (k, v) ∈ l := by
  induction l with
  | nil => simp [mapFind] at h
  | cons kv l ih =>
    obtain ⟨k', v'⟩ := kv
    by_cases hk : k' = k
    · simp only [mapFind, hk, if_true, Option.some.injEq] at h
      simp [hk, h]
    · simp only [mapFind, hk, if_false] at h
      exact List.mem_cons_of_mem _ (ih h)

theorem mapFind_of_mem (k : List Char) (v : V) (l : List (List Char × V))
    (hnd : (l.map Prod.fst).Nodup) (h : (k, v) ∈ l) : mapFind k l = some v := by
  induction l with
  | nil => simp at h
  | cons kv l ih =>
    obtain ⟨k', v'⟩ := kv
    simp only [List.map_cons, List.nodup_cons] at hnd
    rcases List.mem_cons.1 h with h | h
    · simp only [Prod.mk.injEq] at h
      simp [mapFind, h.1, h.2]
    · have hk : k' ≠ k := by
        intro e
        apply hnd.1
        rw [e]
        exact List.mem_map.2 ⟨(k, v), h, rfl⟩
      simp only [mapFind, hk, if_false]
      exact ih hnd.2 h

theorem mapFind_mapInsert_self (k : List Char) (v : V) (l : List (List Char × V)) :
    mapFind k (mapInsert k v l) = some v := by
  induction l with
  | nil => simp [mapInsert, mapFind]
  | cons kv l ih =>
    obtain ⟨k', v'⟩ := kv
    by_cases h1 : strLt k k' = true
    · simp [mapInsert, h1, mapFind]
    · by_cases h2 : k' = k
      · subst h2
        simp [mapInsert, h1, mapFind]
      · simp [mapInsert, h1, h2, mapFind, ih]

theorem mapFind_mapInsert_ne (k k' : List Char) (v : V) (l : List (List Char × V))
    (hne : k' ≠ k) : mapFind k' (mapInsert k v l) = mapFind k' l := by
  induction l with
  | nil => simp [mapInsert, mapFind, Ne.symm hne]
  | cons kv l ih =>
    obtain ⟨k'', v'⟩ := kv
    by_cases h1 : strLt k k'' = true
    · simp [mapInsert, h1, mapFind, Ne.symm hne]
    · by_cases h2 : k'' = k
      · subst h2
        simp [mapInsert, h1, mapFind, Ne.symm hne]
      · by_cases h3 : k'' = k'
        · subst h3
          simp [mapInsert, h1, h2, mapFind]
        · simp [mapInsert, h1, h2, mapFind, h3, ih]

theorem mem_keys_mapInsert (k x : List Char) (v : V) (l : List (List Char × V)) :
    x ∈ (mapInsert k v l).map Prod.fst ↔ x = k ∨ x ∈ l.map Prod.fst := by
  rw [← mapFind_isSome_iff, ← mapFind_isSome_iff]
  by_cases h : x = k
  · subst h
    simp [mapFind_mapInsert_self]
  · simp [mapFind_mapInsert_ne k x v l h, h]

theorem pairwise_keys_mapInsert (k : List Char) (v : V) (l : List (List Char × V))
    (h : (l.map Prod.fst).Pairwise (fun a b => strLt a b = true)) :
    ((mapInsert k v l).map Prod.fst).Pairwise (fun a b => strLt a b = true) := by
  induction l with
  | nil => simp [mapInsert]
  | cons kv l ih =>
    obtain ⟨k', v'⟩ := kv
    simp only [List.map_cons, List.pairwise_cons] at h
    by_cases h1 : strLt k k' = true
    · simp only [mapInsert, h1, if_true, List.map_cons, List.pairwise_cons]
      refine ⟨?_, h.1, h.2⟩
      intro x hx
      rcases List.mem_cons.1 hx with hx | hx
      · rw [hx]; exact h1
      · exact strLt_trans _ _ _ h1 (h.1 x hx)
    · have h1' : strLt k k' = false := by simpa using h1
      by_cases h2 : k' = k
      · subst h2
        simp only [mapInsert, h1', Bool.false_eq_true, if_false, if_true, List.map_cons,
          List.pairwise_cons]
        exact ⟨h.1, h.2⟩
      · simp only [mapInsert, h1', Bool.false_eq_true, h2, if_false, List.map_cons,
          List.pairwise_cons]
        refine ⟨?_, ih h.2⟩
        intro x hx
        rcases (mem_keys_mapInsert k x v l).1 hx with hx | hx
        · rw [hx]
          exact strLt_total k k' (by simpa using h1) (Ne.symm h2)
        · exact h.1 x hx

theorem mem_mapInsert (k : List Char) (v : V) (l : List (List Char × V)) :
    ∀ kv ∈ mapInsert k v l, kv = (k, v) ∨ kv ∈ l := by
  induction l with
  | nil => intro kv h; simpa [mapInsert] using h
  | cons kv' l ih =>
    obtain ⟨k', v'⟩ := kv'
    intro kv h
    by_cases h1 : strLt k k' = true
    · simp only [mapInsert, h1, if_true] at h
      simpa using h
    · have h1' : strLt k k' = false := by simpa using h1
      by_cases h2 : k' = k
      · subst h2
        simp only [mapInsert, h1', Bool.false_eq_true, if_true, if_false] at h
        rcases List.mem_cons.1 h with h | h
        · exact Or.inl h
        · exact Or.inr (List.mem_cons_of_mem _ h)
      · simp only [mapInsert, h1', Bool.false_eq_true, h2, if_false] at h
        rcases List.mem_cons.1 h with h | h
        · exact Or.inr (by rw [h]; exact List.mem_cons_self _ _)
        · rcases ih kv h with h | h
          · exact Or.inl h
          · exact Or.inr (List.mem_cons_of_mem _ h)

end Maps

/-! ## Node -/

theorem Node.executeLoop_eq (k : List Char) (g : Int) (l : List Instruction) :
    Node.executeLoop k g l =
      match l.find? (fun i => decide (i.globalOrder = g)) with
      | some i => [Event.executed k i]
      | none => [] := by
  induction l with
  | nil => rfl
  | cons i l ih =>
    by_cases h : i.globalOrder = g
    · simp [Node.executeLoop, h, List.find?_cons]
    · simp [Node.executeLoop, h, List.find?_cons, ih]

theorem Node.hasInstructionAtOrder_iff (n : Node) (g : Int) :
    n.hasInstructionAtOrder g = true ↔ ∃ i ∈ n.assignedInstructions, i.globalOrder = g := by
  simp [Node.hasInstructionAtOrder, List.any_eq_true]

theorem Node.executeInstruction_of_owns (n : Node) (g : Int)
    (h : n.hasInstructionAtOrder g = true) :
    ∃ i ∈ n.assignedInstructions, i.globalOrder = g ∧
      (n.executeInstruction g).2 = [Event.executed n.nodeId i] := by
  obtain ⟨j, hj, hjg⟩ := (Node.hasInstructionAtOrder_iff n g).1 h
  simp only [Node.executeInstruction, Node.executeLoop_eq]
  cases hf : n.assignedInstructions.find? (fun i => decide (i.globalOrder = g)) with
  | none =>
    have := List.find?_eq_none.1 hf j hj
    simp [hjg] at this
  | some i =>
    refine ⟨i, List.mem_of_find?_eq_some hf, ?_, rfl⟩
    simpa using List.find?_some hf

theorem Node.executeInstruction_of_not_owns (n : Node) (g : Int)
    (h : n.hasInstructionAtOrder g = false) : (n.executeInstruction g).2 = [] := by
  simp only [Node.executeInstruction, Node.executeLoop_eq]
  cases hf : n.assignedInstructions.find? (fun i => decide (i.globalOrder = g)) with
  | none => rfl
  | some i =>
    have h1 := List.mem_of_find?_eq_some hf
    have h2 : i.globalOrder = g := by simpa using List.find?_some hf
    have : n.hasInstructionAtOrder g = true := (Node.hasInstructionAtOrder_iff n g).2 ⟨i, h1, h2⟩
    rw [h] at this
    exact absurd this (by decide)

/-- C9: `Node::hasInstructionAtOrder(order)` is true iff some assigned
instruction has that order; `Node::executeInstruction(order)` executes
something iff the node has the order, what it executes is one assigned
instruction of that order, with nothing of that order it does nothing, and in
every case the node is left as it was. -/
theorem C9_owns_and_execute (n : Node) (g : Int) :
    (n.hasInstructionAtOrder g = true ↔ ∃ i ∈ n.assignedInstructions, i.globalOrder = g) ∧
    ((n.executeInstruction g).2 ≠ [] ↔ n.hasInstructionAtOrder g = true) ∧
    (n.hasInstructionAtOrder g = true →
      ∃ i ∈ n.assignedInstructions, i.globalOrder = g ∧
        (n.executeInstruction g).2 = [Event.executed n.nodeId i]) ∧
    (∀ e ∈ (n.executeInstruction g).2,
      ∃ i ∈ n.assignedInstructions, i.globalOrder = g ∧ e = Event.executed n.nodeId i) ∧
    (n.hasInstructionAtOrder g = false → (n.executeInstruction g).2 = []) ∧
    (n.executeInstruction g).1 = n := by
  refine ⟨Node.hasInstructionAtOrder_iff n g, ?_, Node.executeInstruction_of_owns n g, ?_,
    Node.executeInstruction_of_not_owns n g, rfl⟩
  · cases h : n.hasInstructionAtOrder g with
    | true =>
      obtain ⟨i, _, _, hi⟩ := Node.executeInstruction_of_owns n g h
      simp [hi]
    | false => simp [Node.executeInstruction_of_not_owns n g h]
  · intro e he
    cases h : n.hasInstructionAtOrder g with
    | true =>
      obtain ⟨i, hi1, hi2, hi⟩ := Node.executeInstruction_of_owns n g h
      rw [hi, List.mem_singleton] at he
      exact ⟨i, hi1, hi2, he⟩
    | false =>
      rw [Node.executeInstruction_of_not_owns n g h] at he
      simp at he

/-! ## Protocol -/

theorem Protocol.getNode_eq_none_iff (p : Protocol) (k : List Char) :
    p.getNode k = none ↔ k ∉ p.discoverNodes :=
  mapFind_eq_none_iff k p.nodes

theorem Protocol.getNode_isSome_iff (p : Protocol) (k : List Char) :
    (∃ n, p.getNode k = some n) ↔ k ∈ p.discoverNodes := by
  rw [← not_iff_not, ← Protocol.getNode_eq_none_iff]
  cases p.getNode k <;> simp

/-- The empty registry satisfies the invariant of the map. -/
theorem Protocol.wf_empty : Protocol.WF {} := by
  refine ⟨List.Pairwise.nil, ?_⟩
  intro kn h
  cases h

/-- The method `registerNode` keeps the invariant of the map. -/
theorem Protocol.wf_registerNode (p : Protocol) (node : Node) (h : p.WF) :
    (p.registerNode node).WF := by
  refine ⟨pairwise_keys_mapInsert _ _ _ h.1, ?_⟩
  intro kn hkn
  rcases mem_mapInsert _ _ _ kn hkn with e | hm
  · rw [e]; rfl
  · exact h.2 kn hm

theorem Protocol.establishConnection_fst (p : Protocol) (a b : List Char) :
    (p.establishConnection a b).1 = true ↔ a ∈ p.discoverNodes ∧ b ∈ p.discoverNodes := by
  rw [← Protocol.getNode_isSome_iff, ← Protocol.getNode_isSome_iff]
  unfold Protocol.establishConnection Protocol.getNode
  cases mapFind a p.nodes <;> cases mapFind b p.nodes <;> simp

theorem Protocol.establishConnection_of_unregistered (p : Protocol) (a b : List Char)
    (h : (p.establishConnection a b).1 = false) : (p.establishConnection a b).2 = p := by
  unfold Protocol.establishConnection at h ⊢
  split
  · rfl
  · rename_i hc
    simp [hc] at h

theorem Protocol.establishConnection_discoverNodes (p : Protocol) (a b : List Char) :
    (p.establishConnection a b).2.discoverNodes = p.discoverNodes := by
  unfold Protocol.establishConnection
  split
  · rfl
  · simp [Protocol.discoverNodes, keys_mapModify]

/-- The state of every node after a successful `establishConnection(a, b)`:
`b` is appended to the list of `a`, then `a` to the list of `b`. -/
theorem Protocol.establishConnection_getNode (p : Protocol) (a b x : List Char)
    (h : (p.establishConnection a b).1 = true) :
    (p.establishConnection a b).2.getNode x =
      (p.getNode x).map (fun n =>
        { n with connectedNodes :=
            n.connectedNodes ++ (if x = a then [b] else []) ++ (if x = b then [a] else []) }) := by
  unfold Protocol.establishConnection at h ⊢
  split
  · rename_i hc
    simp [hc] at h
  · simp only [Protocol.getNode]
    by_cases hb : x = b
    · subst hb
      rw [mapFind_mapModify_self]
      by_cases ha : x = a
      · subst ha
        rw [mapFind_mapModify_self]
        cases mapFind x p.nodes <;> simp [Node.addConnectedNode]
      · rw [mapFind_mapModify_ne _ _ _ _ ha]
        cases mapFind x p.nodes <;> simp [Node.addConnectedNode, ha]
    · rw [mapFind_mapModify_ne _ _ _ _ hb]
      by_cases ha : x = a
      · subst ha
        rw [mapFind_mapModify_self]
        cases mapFind x p.nodes <;> simp [Node.addConnectedNode, hb]
      · rw [mapFind_mapModify_ne _ _ _ _ ha]
        cases mapFind x p.nodes <;> simp [ha, hb]

theorem Protocol.establishConnection_connected (p : Protocol) (a b : List Char)
    (h : (p.establishConnection a b).1 = true) :
    (p.establishConnection a b).2.Connected a b ∧
      (p.establishConnection a b).2.Connected b a := by
  have hreg := (Protocol.establishConnection_fst p a b).1 h
  obtain ⟨na, hna⟩ := (Protocol.getNode_isSome_iff p a).2 hreg.1
  obtain ⟨nb, hnb⟩ := (Protocol.getNode_isSome_iff p b).2 hreg.2
  constructor
  · refine ⟨_, by rw [Protocol.establishConnection_getNode p a b a h, hna]; rfl, ?_⟩
    simp
  · refine ⟨_, by rw [Protocol.establishConnection_getNode p a b b h, hnb]; rfl, ?_⟩
    simp

/-- C8: `Protocol::establishConnection(a, b)` returns false iff `a` or `b` is
not registered, and then the protocol is unchanged; when it returns true, the
list of `a` contains `b` and the list of `b` contains `a` afterwards, the set
of registered ids is the same, and every other node is unchanged. -/
theorem C8_establishConnection (p : Protocol) (a b : List Char) :
    ((p.establishConnection a b).1 = false ↔ (a ∉ p.discoverNodes ∨ b ∉ p.discoverNodes)) ∧
    ((p.establishConnection a b).1 = false → (p.establishConnection a b).2 = p) ∧
    ((p.establishConnection a b).1 = true →
      (p.establishConnection a b).2.Connected a b ∧
      (p.establishConnection a b).2.Connected b a ∧
      (p.establishConnection a b).2.discoverNodes = p.discoverNodes ∧
      ∀ x, x ≠ a → x ≠ b → (p.establishConnection a b).2.getNode x = p.getNode x) := by
  refine ⟨?_, Protocol.establishConnection_of_unregistered p a b, ?_⟩
  · rw [← not_and_or, ← Protocol.establishConnection_fst]
    simp
  · intro h
    have hc := Protocol.establishConnection_connected p a b h
    refine ⟨hc.1, hc.2, Protocol.establishConnection_discoverNodes p a b, ?_⟩
    · intro x hxa hxb
      rw [Protocol.establishConnection_getNode p a b x h]
      cases p.getNode x <;> simp [hxa, hxb]

/-! ## Loading -/

theorem stoiDigits_inRange (neg : Bool) (s : List Char) (v : Int)
    (h : stoiDigits neg s = .ok v) : InIntRange v := by
  unfold stoiDigits at h
  by_cases hds : s.takeWhile isdigit = []
  · simp [hds] at h
  · simp only [hds, if_false] at h
    cases neg with
    | true =>
      simp only [if_true] at h
      by_cases hr : InIntRange (-(digitsVal (s.takeWhile isdigit) : Int))
      · simp only [hr, if_true, Except.ok.injEq] at h
        rw [← h]; exact hr
      · simp [hr] at h
    | false =>
      simp only [Bool.false_eq_true, if_false] at h
      by_cases hr : InIntRange (digitsVal (s.takeWhile isdigit) : Int)
      · simp only [hr, if_true, Except.ok.injEq] at h
        rw [← h]; exact hr
      · simp [hr] at h

theorem stoi_inRange (s : List Char) (v : Int) (h : stoi s = .ok v) : InIntRange v := by
  unfold stoi at h
  split at h
  · simp at h
  · split at h
    · exact stoiDigits_inRange _ _ _ h
    · split at h
      · exact stoiDigits_inRange _ _ _ h
      · exact stoiDigits_inRange _ _ _ h

theorem itemsOfType_append (t : List Char) (l₁ l₂ : List Instruction) :
    itemsOfType t (l₁ ++ l₂) = itemsOfType t l₁ ++ itemsOfType t l₂ := by
  simp [itemsOfType]

theorem TaskManager.partitioned_new (c : Option Node) : (TaskManager.new c).Partitioned := by
  refine ⟨by simp [TaskManager.new], ?_⟩
  intro t
  simp [TaskManager.new, itemsOfType, mapFind]

theorem TaskManager.partitioned_push (tm : TaskManager) (inst : Instruction)
    (h : tm.Partitioned) :
    TaskManager.Partitioned
      { tm with
        instructions := tm.instructions ++ [inst]
        instructionsByType :=
          mapInsert inst.type ((mapFind inst.type tm.instructionsByType).getD [] ++ [inst])
            tm.instructionsByType } := by
  refine ⟨pairwise_keys_mapInsert _ _ _ h.1, ?_⟩
  intro t
  simp only [itemsOfType_append]
  by_cases ht : t = inst.type
  · subst ht
    rw [mapFind_mapInsert_self, h.2 inst.type]
    have : itemsOfType inst.type [inst] = [inst] := by simp [itemsOfType]
    rw [this]
    by_cases he : itemsOfType inst.type tm.instructions = []
    · simp [he]
    · simp [he]
  · rw [mapFind_mapInsert_ne _ _ _ _ ht, h.2 t]
    have : itemsOfType t [inst] = [] := by simp [itemsOfType, Ne.symm ht]
    rw [this, List.append_nil]

theorem TaskManager.loadLoop_spec : ∀ (toks : List (List Char)) (order : Int)
    (tm tm' : TaskManager), TaskManager.loadLoop toks order tm = .ok tm' →
    0 ≤ order → order ≤ INT_MAX → tm.Partitioned →
    tm'.coordinatorNode = tm.coordinatorNode ∧ tm'.Partitioned ∧
      ∃ new, tm'.instructions = tm.instructions ++ new ∧ ordersFrom order new ∧
        order + new.length ≤ INT_MAX ∧
        ∀ i ∈ new, i.type.length = 1 ∧ InIntRange i.id := by
  intro toks
  induction toks with
  | nil =>
    intro order tm tm' h _ hmax hP
    simp only [TaskManager.loadLoop, Except.ok.injEq] at h
    subst h
    exact ⟨rfl, hP, [], by simp, trivial, by simpa using hmax, by simp⟩
  | cons tok toks ih =>
    intro order tm tm' h h0 hmax hP
    simp only [TaskManager.loadLoop] at h
    split at h
    · rename_i hlen
      split at h
      · simp at h
      · rename_i id hid
        split at h
        · simp at h
        · rename_i hne
          have hlt : order + 1 ≤ INT_MAX := by
            have : order ≠ INT_MAX := hne
            unfold INT_MAX at *
            omega
          obtain ⟨hc, hP', new, hnew, hord, hbound, hall⟩ :=
            ih (order + 1) _ tm' h (by omega) hlt
              (TaskManager.partitioned_push tm ⟨tok.take 1, id, order⟩ hP)
          refine ⟨hc, hP', ⟨tok.take 1, id, order⟩ :: new, ?_, ⟨rfl, hord⟩, ?_, ?_⟩
          · rw [hnew]; simp
          · simp only [List.length_cons, Nat.cast_add, Nat.cast_one]
            omega
          · intro i hi
            rcases List.mem_cons.1 hi with hi | hi
            · subst hi
              refine ⟨?_, stoi_inRange _ _ hid⟩
              simp only [List.length_take]
              omega
            · exact hall i hi
    · exact ih order tm tm' h h0 hmax hP

theorem ordersFrom_spec : ∀ (items : List Instruction) (order : Int), ordersFrom order items →
    (items.map (fun i => i.globalOrder)).Pairwise (· < ·) ∧
      ∀ i ∈ items, order ≤ i.globalOrder ∧ i.globalOrder < order + items.length := by
  intro items
  induction items with
  | nil => intro order _; simp
  | cons j items ih =>
    intro order h
    obtain ⟨hj, hrest⟩ := h
    obtain ⟨hpw, hb⟩ := ih (order + 1) hrest
    refine ⟨?_, ?_⟩
    · simp only [List.map_cons, List.pairwise_cons, List.mem_map, forall_exists_index, and_imp,
        forall_apply_eq_imp_iff₂]
      refine ⟨?_, hpw⟩
      intro i hi
      have := (hb i hi).1
      omega
    · intro i hi
      simp only [List.length_cons, Nat.cast_add, Nat.cast_one]
      rcases List.mem_cons.1 hi with hi | hi
      · subst hi; omega
      · have := hb i hi
        omega

theorem ordersFrom_map : ∀ (items : List Instruction) (order : Int), ordersFrom order items →
    items.map (fun i => i.globalOrder) = (List.range items.length).map (fun (k : Nat) => order + (k : Int)) := by
  intro items
  induction items with
  | nil => intro order _; simp
  | cons j items ih =>
    intro order h
    obtain ⟨hj, hrest⟩ := h
    rw [List.length_cons, List.range_succ_eq_map, List.map_cons, List.map_cons, List.map_map,
      ih (order + 1) hrest, hj]
    simp only [Nat.cast_zero, add_zero, List.cons.injEq, true_and]
    apply List.map_congr_left
    intro k _
    simp only [Function.comp, Nat.cast_succ]
    omega

/-- What a successful `loadInstructions` on a new `TaskManager` produces: the
coordinator is kept, the orders are 0, 1, 2, ... in sequence and are values of
`int`, every type is one character, every id is a value of `int`, and
`instructionsByType` is the partition of the sequence by type. -/
theorem TaskManager.loadInstructions_spec (c : Option Node) (line : Option (List Char))
    (b : Bool) (tm : TaskManager)
    (h : (TaskManager.new c).loadInstructions line = .ok (b, tm)) :
    tm.coordinatorNode = c ∧ tm.Partitioned ∧ ordersFrom 0 tm.instructions ∧
      (tm.instructions.length : Int) ≤ INT_MAX ∧
      ∀ i ∈ tm.instructions, i.type.length = 1 ∧ InIntRange i.id ∧ InIntRange i.globalOrder := by
  unfold TaskManager.loadInstructions at h
  split at h
  · simp only [Except.ok.injEq, Prod.mk.injEq] at h
    rw [← h.2]
    refine ⟨rfl, TaskManager.partitioned_new c, trivial, ?_, ?_⟩
    · simp [TaskManager.new, INT_MAX]
    · simp [TaskManager.new]
  · split at h
    · simp at h
    · rename_i l tm' hl
      simp only [Except.ok.injEq, Prod.mk.injEq] at h
      rw [← h.2]
      obtain ⟨hc, hP, new, hnew, hord, hbound, hall⟩ :=
        TaskManager.loadLoop_spec _ 0 _ tm' hl (le_refl 0) (by decide)
          (TaskManager.partitioned_new c)
      have hi : tm'.instructions = new := by simpa [TaskManager.new] using hnew
      rw [hi]
      refine ⟨hc, hP, hord, by simpa using hbound, ?_⟩
      intro i him
      have hb := (ordersFrom_spec new 0 hord).2 i him
      refine ⟨(hall i him).1, (hall i him).2, ?_⟩
      unfold InIntRange INT_MIN
      unfold INT_MAX at hbound ⊢
      omega

/-! ## Assignment -/

theorem Node.updated_self (n : Node) : n.updated [] n.assignedType n.assignedInstructions = n := by
  simp [Node.updated]

theorem Node.updated_updated (n : Node) (e₁ e₂ : List (List Char)) (t₁ t₂ : List Char)
    (i₁ i₂ : List Instruction) :
    (n.updated e₁ t₁ i₁).updated e₂ t₂ i₂ = n.updated (e₁ ++ e₂) t₂ i₂ := by
  simp [Node.updated]

theorem Protocol.Extends.refl (p : Protocol) : p.Extends p :=
  ⟨rfl, fun _ n h => ⟨[], n.assignedType, n.assignedInstructions, by rw [n.updated_self]; exact h⟩⟩

theorem Protocol.Extends.trans {p q r : Protocol} (h₁ : p.Extends q) (h₂ : q.Extends r) :
    p.Extends r := by
  refine ⟨h₂.1.trans h₁.1, ?_⟩
  intro x n hn
  obtain ⟨e₁, t₁, i₁, hq⟩ := h₁.2 x n hn
  obtain ⟨e₂, t₂, i₂, hr⟩ := h₂.2 x _ hq
  exact ⟨e₁ ++ e₂, t₂, i₂, by rw [hr, Node.updated_updated]⟩

theorem Protocol.Extends.connected {p q : Protocol} (h : p.Extends q) {a b : List Char}
    (hc : p.Connected a b) : q.Connected a b := by
  obtain ⟨n, hn, hb⟩ := hc
  obtain ⟨ex, ty, its, hq⟩ := h.2 a n hn
  exact ⟨_, hq, by simp [Node.updated, hb]⟩

theorem Protocol.Extends.wf {p q : Protocol} (h : p.Extends q) (hwf : p.WF) : q.WF := by
  have hkeys : q.nodes.map Prod.fst = p.nodes.map Prod.fst := h.1
  refine ⟨by rw [hkeys]; exact hwf.1, ?_⟩
  intro kn hkn
  have hnd : (q.nodes.map Prod.fst).Nodup := by
    rw [hkeys]; exact pairwise_strLt_nodup _ hwf.1
  have hq : q.getNode kn.1 = some kn.2 := mapFind_of_mem kn.1 kn.2 q.nodes hnd hkn
  have hmem : kn.1 ∈ p.discoverNodes := by
    rw [← h.1]
    exact List.mem_map.2 ⟨kn, hkn, rfl⟩
  obtain ⟨n, hn⟩ := (Protocol.getNode_isSome_iff p kn.1).2 hmem
  obtain ⟨ex, ty, its, hq'⟩ := h.2 kn.1 n hn
  rw [hq] at hq'
  have hn2 : kn.2 = n.updated ex ty its := by simpa using hq'
  have := hwf.2 (kn.1, n) (mapFind_mem _ _ _ hn)
  rw [hn2]
  simpa [Node.updated] using this

theorem TaskManager.connectLoop_spec (nodeId : List Char) : ∀ (l : List (List Char))
    (p : Protocol), nodeId ∈ p.discoverNodes → (∀ b ∈ l, b ∈ p.discoverNodes) →
    (TaskManager.connectLoop nodeId l p).discoverNodes = p.discoverNodes ∧
    (∀ x n, p.getNode x = some n → ∃ ex,
      (TaskManager.connectLoop nodeId l p).getNode x =
        some (n.updated ex n.assignedType n.assignedInstructions)) ∧
    (∀ b ∈ l, b ≠ nodeId → (TaskManager.connectLoop nodeId l p).Connected nodeId b ∧
      (TaskManager.connectLoop nodeId l p).Connected b nodeId) := by
  intro l
  induction l with
  | nil =>
    intro p _ _
    refine ⟨rfl, ?_, by simp⟩
    intro x n hn
    exact ⟨[], by rw [n.updated_self]; exact hn⟩
  | cons other rest ih =>
    intro p hid hl
    by_cases hne : other = nodeId
    · simp only [TaskManager.connectLoop, hne, ne_eq, not_true_eq_false, if_false]
      obtain ⟨h1, h2, h3⟩ := ih p hid (fun b hb => hl b (List.mem_cons_of_mem _ hb))
      refine ⟨h1, h2, ?_⟩
      intro b hb hbn
      rcases List.mem_cons.1 hb with hb | hb
      · exact absurd (by simpa [hne] using hb) hbn
      · exact h3 b hb hbn
    · simp only [TaskManager.connectLoop, ne_eq, hne, not_false_eq_true, if_true]
      have hother : other ∈ p.discoverNodes := hl other (List.mem_cons_self _ _)
      have hok : (p.establishConnection nodeId other).1 = true :=
        (Protocol.establishConnection_fst p nodeId other).2 ⟨hid, hother⟩
      have hdisc := Protocol.establishConnection_discoverNodes p nodeId other
      obtain ⟨h1, h2, h3⟩ := ih (p.establishConnection nodeId other).2 (by rw [hdisc]; exact hid)
        (fun b hb => by rw [hdisc]; exact hl b (List.mem_cons_of_mem _ hb))
      have hstep : ∀ x n, p.getNode x = some n → ∃ ex,
          (p.establishConnection nodeId other).2.getNode x =
            some (n.updated ex n.assignedType n.assignedInstructions) := by
        intro x n hn
        refine ⟨(if x = nodeId then [other] else []) ++ (if x = other then [nodeId] else []), ?_⟩
        rw [Protocol.establishConnection_getNode p nodeId other x hok, hn]
        simp [Node.updated]
      have hall : ∀ x n, p.getNode x = some n → ∃ ex,
          (TaskManager.connectLoop nodeId rest (p.establishConnection nodeId other).2).getNode x =
            some (n.updated ex n.assignedType n.assignedInstructions) := by
        intro x n hn
        obtain ⟨e₁, he₁⟩ := hstep x n hn
        obtain ⟨e₂, he₂⟩ := h2 x _ he₁
        exact ⟨e₁ ++ e₂, by rw [he₂, Node.updated_updated]; rfl⟩
      refine ⟨h1.trans hdisc, hall, ?_⟩
      intro b hb hbn
      rcases List.mem_cons.1 hb with hb | hb
      · subst hb
        have hext : (p.establishConnection nodeId b).2.Extends
            (TaskManager.connectLoop nodeId rest (p.establishConnection nodeId b).2) :=
          ⟨h1, fun x n hn => by
            obtain ⟨ex, hex⟩ := h2 x n hn
            exact ⟨ex, _, _, hex⟩⟩
        have hc := Protocol.establishConnection_connected p nodeId b hok
        exact ⟨hext.connected hc.1, hext.connected hc.2⟩
      · exact h3 b hb hbn

theorem nodup_getElem?_inj {α : Type} (l : List α) (hnd : l.Nodup) (i j : Nat) (x : α)
    (hi : l[i]? = some x) (hj : l[j]? = some x) : i = j := by
  obtain ⟨hi', ei⟩ := List.getElem?_eq_some.1 hi
  obtain ⟨hj', ej⟩ := List.getElem?_eq_some.1 hj
  exact (hnd.getElem_inj_iff).1 (ei.trans ej.symm)

theorem TaskManager.assignStep_spec (tm : TaskManager) (types ids : List (List Char))
    (p : Protocol) (i : Nat) (hid : ids.getD i [] ∈ p.discoverNodes)
    (hids : ∀ b ∈ ids, b ∈ p.discoverNodes) :
    (tm.assignStep types ids p i).discoverNodes = p.discoverNodes ∧
    (∀ x n, p.getNode x = some n → ∃ ex,
      (tm.assignStep types ids p i).getNode x =
        some (n.updated ex
          (if x = ids.getD i [] then types.getD i [] else n.assignedType)
          (if x = ids.getD i [] then (mapFind (types.getD i []) tm.instructionsByType).getD []
            else n.assignedInstructions))) ∧
    (∀ b ∈ ids, b ≠ ids.getD i [] → (tm.assignStep types ids p i).Connected (ids.getD i []) b ∧
      (tm.assignStep types ids p i).Connected b (ids.getD i [])) := by
  obtain ⟨n0, hn0⟩ := (Protocol.getNode_isSome_iff p _).2 hid
  have hdisc2 : ∀ (f g : Node → Node),
      (Protocol.mk (mapModify (ids.getD i []) g
        (Protocol.mk (mapModify (ids.getD i []) f p.nodes)).nodes)).discoverNodes
        = p.discoverNodes := by
    intro f g
    simp [Protocol.discoverNodes, keys_mapModify]
  unfold TaskManager.assignStep
  simp only [hn0]
  obtain ⟨h1, h2, h3⟩ := TaskManager.connectLoop_spec (ids.getD i []) ids
    (Protocol.mk (mapModify (ids.getD i [])
      (fun n => n.assignInstructions ((mapFind (types.getD i []) tm.instructionsByType).getD []))
      (Protocol.mk (mapModify (ids.getD i [])
        (fun n => n.assignInstructionType (types.getD i [])) p.nodes)).nodes))
    (by rw [hdisc2]; exact hid) (fun b hb => by rw [hdisc2]; exact hids b hb)
  refine ⟨h1.trans (hdisc2 _ _), ?_, h3⟩
  intro x n hn
  by_cases hx : x = ids.getD i []
  · have hp2 : (Protocol.mk (mapModify (ids.getD i [])
        (fun n => n.assignInstructions ((mapFind (types.getD i []) tm.instructionsByType).getD []))
        (Protocol.mk (mapModify (ids.getD i [])
          (fun n => n.assignInstructionType (types.getD i [])) p.nodes)).nodes)).getNode x
        = some (n.updated [] (types.getD i [])
            ((mapFind (types.getD i []) tm.instructionsByType).getD [])) := by
      have hn' : mapFind (ids.getD i []) p.nodes = some n := by rw [← hx]; exact hn
      simp only [Protocol.getNode, hx, mapFind_mapModify_self, hn', Option.map_some']
      simp [Node.updated, Node.assignInstructions, Node.assignInstructionType]
    obtain ⟨ex, hex⟩ := h2 x _ hp2
    refine ⟨ex, ?_⟩
    rw [hex, Node.updated_updated]
    simp [hx, Node.updated]
  · have hp2 : (Protocol.mk (mapModify (ids.getD i [])
        (fun n => n.assignInstructions ((mapFind (types.getD i []) tm.instructionsByType).getD []))
        (Protocol.mk (mapModify (ids.getD i [])
          (fun n => n.assignInstructionType (types.getD i [])) p.nodes)).nodes)).getNode x
        = some n := by
      simp only [Protocol.getNode, mapFind_mapModify_ne _ _ _ _ hx]
      exact hn
    obtain ⟨ex, hex⟩ := h2 x _ hp2
    refine ⟨ex, ?_⟩
    rw [hex, if_neg hx, if_neg hx]

/-- The invariant of the outer loop of `assignTasksToNodes` after `n` turns,
over a map with distinct keys: the keys are the same; every node is as before
save that its connection list may have grown and, for the node at an index
below `n`, that it holds the type at that index and the instructions of that
type; and each node at an index below `n` is connected both ways with every
other discovered node. -/
theorem TaskManager.assignLoop_inv (tm : TaskManager) (types : List (List Char))
    (p : Protocol) (hnd : p.discoverNodes.Nodup) : ∀ n, n ≤ p.discoverNodes.length →
    ((List.range n).foldl (tm.assignStep types p.discoverNodes) p).discoverNodes
      = p.discoverNodes ∧
    (∀ x n0, p.getNode x = some n0 → ∃ ex ty its,
      ((List.range n).foldl (tm.assignStep types p.discoverNodes) p).getNode x
        = some (n0.updated ex ty its) ∧
      (∀ i, i < n → p.discoverNodes[i]? = some x →
        ty = types.getD i [] ∧
          its = (mapFind (types.getD i []) tm.instructionsByType).getD []) ∧
      ((∀ i, i < n → p.discoverNodes[i]? ≠ some x) →
        ty = n0.assignedType ∧ its = n0.assignedInstructions)) ∧
    (∀ i x, i < n → p.discoverNodes[i]? = some x → ∀ b ∈ p.discoverNodes, b ≠ x →
      ((List.range n).foldl (tm.assignStep types p.discoverNodes) p).Connected x b ∧
      ((List.range n).foldl (tm.assignStep types p.discoverNodes) p).Connected b x) := by
  intro n
  induction n with
  | zero =>
    intro _
    refine ⟨rfl, ?_, ?_⟩
    · intro x n0 hn0
      refine ⟨[], n0.assignedType, n0.assignedInstructions, ?_, ?_, fun _ => ⟨rfl, rfl⟩⟩
      · rw [n0.updated_self]; exact hn0
      · intro i hi; omega
    · intro i x hi; omega
  | succ n ih =>
    intro hlen
    obtain ⟨hd, hst, hcn⟩ := ih (by omega)
    rw [List.range_succ, List.foldl_append]
    simp only [List.foldl_cons, List.foldl_nil]
    have hn : n < p.discoverNodes.length := by omega
    have hgetD : p.discoverNodes.getD n [] = p.discoverNodes[n] :=
      List.getD_eq_getElem _ _ hn
    have hidx : p.discoverNodes[n]? = some (p.discoverNodes.getD n []) := by
      rw [hgetD]; exact List.getElem?_eq_getElem hn
    have hmem : p.discoverNodes.getD n [] ∈ p.discoverNodes := List.getElem?_mem hidx
    obtain ⟨s1, s2, s3⟩ := TaskManager.assignStep_spec tm types p.discoverNodes
      ((List.range n).foldl (tm.assignStep types p.discoverNodes) p) n
      (by rw [hd]; exact hmem) (fun b hb => by rw [hd]; exact hb)
    refine ⟨s1.trans hd, ?_, ?_⟩
    · intro x n0 hn0
      obtain ⟨ex, ty, its, hq, hty, hkeep⟩ := hst x n0 hn0
      obtain ⟨ex', hq'⟩ := s2 x _ hq
      rw [Node.updated_updated] at hq'
      refine ⟨_, _, _, hq', ?_, ?_⟩
      · intro i hi hix
        by_cases hin : i = n
        · subst hin
          have hx : x = p.discoverNodes.getD i [] := by
            rw [hidx] at hix
            exact (Option.some.inj hix).symm
          simp [hx, Node.updated]
        · have hx : x ≠ p.discoverNodes.getD n [] := by
            intro hx
            rw [← hx] at hidx
            exact hin (nodup_getElem?_inj _ hnd i n x hix hidx)
          have := hty i (by omega) hix
          simp only [hx, if_false, Node.updated]
          exact this
      · intro hno
        have hx : x ≠ p.discoverNodes.getD n [] := by
          intro hx
          rw [← hx] at hidx
          exact hno n (Nat.lt_succ_self n) hidx
        have := hkeep (fun i hi => hno i (by omega))
        simp only [hx, if_false, Node.updated]
        exact this
    · intro i x hi hix b hb hbx
      have hext : ((List.range n).foldl (tm.assignStep types p.discoverNodes) p).Extends
          (tm.assignStep types p.discoverNodes
            ((List.range n).foldl (tm.assignStep types p.discoverNodes) p) n) :=
        ⟨s1, fun y m hm => by
          obtain ⟨e, he⟩ := s2 y m hm
          exact ⟨e, _, _, he⟩⟩
      by_cases hin : i = n
      · subst hin
        have hx : x = p.discoverNodes.getD i [] := by
          rw [hidx] at hix
          exact (Option.some.inj hix).symm
        rw [hx]
        exact s3 b hb (by rw [← hx]; exact hbx)
      · obtain ⟨c1, c2⟩ := hcn i x (by omega) hix b hb hbx
        exact ⟨hext.connected c1, hext.connected c2⟩

theorem TaskManager.Partitioned.mem_types {tm : TaskManager} (h : tm.Partitioned)
    (t : List Char) :
    t ∈ tm.getRequiredInstructionTypes ↔ ∃ i ∈ tm.instructions, i.type = t := by
  unfold TaskManager.getRequiredInstructionTypes
  rw [← mapFind_isSome_iff, h.2 t]
  by_cases he : itemsOfType t tm.instructions = []
  · simp only [he, if_true, Option.isSome_none, Bool.false_eq_true, false_iff, not_exists, not_and]
    intro i hi hit
    have : i ∈ itemsOfType t tm.instructions := by
      simp [itemsOfType, hi, hit]
    rw [he] at this
    simp at this
  · simp only [he, if_false, Option.isSome_some, true_iff]
    obtain ⟨i, hi⟩ := List.exists_mem_of_ne_nil _ he
    simp only [itemsOfType, List.mem_filter, decide_eq_true_eq] at hi
    exact ⟨i, hi.1, hi.2⟩

theorem TaskManager.Partitioned.group {tm : TaskManager} (h : tm.Partitioned) (t : List Char) :
    (mapFind t tm.instructionsByType).getD [] = itemsOfType t tm.instructions := by
  rw [h.2 t]
  by_cases he : itemsOfType t tm.instructions = []
  · simp [he]
  · simp [he]

theorem TaskManager.Partitioned.types_length {tm : TaskManager} (h : tm.Partitioned) :
    tm.getRequiredInstructionTypes.length = (distinctTypes tm.instructions).length := by
  apply List.Perm.length_eq
  apply (List.perm_ext_iff_of_nodup (pairwise_strLt_nodup _ h.1) (List.nodup_dedup _)).2
  intro t
  have := h.mem_types t
  unfold TaskManager.getRequiredInstructionTypes at this
  rw [this]
  simp [distinctTypes]

theorem TaskManager.assign_true (tm : TaskManager) (p p' : Protocol)
    (h : tm.assignTasksToNodes p = (true, p')) :
    (∃ c, tm.coordinatorNode = some c) ∧
      tm.getRequiredInstructionTypes.length ≤ p.discoverNodes.length ∧
      p' = (List.range tm.getRequiredInstructionTypes.length).foldl
        (tm.assignStep tm.getRequiredInstructionTypes p.discoverNodes) p := by
  unfold TaskManager.assignTasksToNodes at h
  cases hc : tm.coordinatorNode with
  | none => simp [hc] at h
  | some c =>
    simp only [hc] at h
    by_cases hlt : p.discoverNodes.length < tm.getRequiredInstructionTypes.length
    · simp [hlt] at h
    · simp only [hlt, if_false, Prod.mk.injEq, true_and] at h
      exact ⟨⟨c, rfl⟩, by omega, h.symm⟩

/-- The state after a successful `assignTasksToNodes` over a map with distinct
keys: the node at index `i` of the discovered ids holds the type at index `i`
and the instructions stored under it when there is such a type, and keeps its
type and instructions otherwise; its connection list may have grown; and each
node that received a type is connected both ways with every other node. -/
theorem TaskManager.assign_result (tm : TaskManager) (p p' : Protocol)
    (hnd : p.discoverNodes.Nodup) (h : tm.assignTasksToNodes p = (true, p')) :
    tm.getRequiredInstructionTypes.length ≤ p.discoverNodes.length ∧
    p'.discoverNodes = p.discoverNodes ∧
    (∀ (i : Nat) (x : List Char) (n0 : Node),
      p.discoverNodes[i]? = some x → p.getNode x = some n0 → ∃ ex,
      p'.getNode x = some (n0.updated ex
        (match tm.getRequiredInstructionTypes[i]? with
          | some t => t
          | none => n0.assignedType)
        (match tm.getRequiredInstructionTypes[i]? with
          | some t => (mapFind t tm.instructionsByType).getD []
          | none => n0.assignedInstructions))) ∧
    (∀ i x, i < tm.getRequiredInstructionTypes.length → p.discoverNodes[i]? = some x →
      ∀ b ∈ p.discoverNodes, b ≠ x → p'.Connected x b ∧ p'.Connected b x) := by
  obtain ⟨_, hlen, hp'⟩ := TaskManager.assign_true tm p p' h
  obtain ⟨h1, h2, h3⟩ := TaskManager.assignLoop_inv tm tm.getRequiredInstructionTypes p hnd
    tm.getRequiredInstructionTypes.length hlen
  rw [← hp'] at h1 h2 h3
  refine ⟨hlen, h1, ?_, h3⟩
  intro i x n0 hix hn0
  obtain ⟨ex, ty, its, hq, hty, hkeep⟩ := h2 x n0 hn0
  refine ⟨ex, ?_⟩
  rw [hq]
  by_cases hi : i < tm.getRequiredInstructionTypes.length
  · obtain ⟨e1, e2⟩ := hty i hi hix
    have hg : tm.getRequiredInstructionTypes.getD i [] = tm.getRequiredInstructionTypes[i] :=
      List.getD_eq_getElem _ _ hi
    rw [hg] at e1 e2
    rw [List.getElem?_eq_getElem hi, e1, e2]
  · have hnone : tm.getRequiredInstructionTypes[i]? = none :=
      List.getElem?_eq_none (by omega)
    obtain ⟨e1, e2⟩ := hkeep (fun j hj hjx => by
      have := nodup_getElem?_inj _ hnd i j x hix hjx
      omega)
    rw [hnone, e1, e2]

theorem TaskManager.assignTasksToNodes_fst (tm : TaskManager) (c : Node)
    (hc : tm.coordinatorNode = some c) (p : Protocol) :
    ((tm.assignTasksToNodes p).1 = false ↔
      p.discoverNodes.length < tm.getRequiredInstructionTypes.length) ∧
    ((tm.assignTasksToNodes p).1 = false → (tm.assignTasksToNodes p).2 = p) := by
  unfold TaskManager.assignTasksToNodes
  simp only [hc]
  by_cases hlt : p.discoverNodes.length < tm.getRequiredInstructionTypes.length
  · simp [hlt]
  · simp [hlt]

theorem TaskManager.assign_extends (tm : TaskManager) (p p' : Protocol)
    (hnd : p.discoverNodes.Nodup) (h : tm.assignTasksToNodes p = (true, p')) :
    p.Extends p' := by
  obtain ⟨_, hdisc, hnode, _⟩ := TaskManager.assign_result tm p p' hnd h
  refine ⟨hdisc, ?_⟩
  intro x n hn
  obtain ⟨i, hi⟩ := List.mem_iff_getElem?.1 ((Protocol.getNode_isSome_iff p x).1 ⟨n, hn⟩)
  obtain ⟨ex, hex⟩ := hnode i x n hi hn
  exact ⟨ex, _, _, hex⟩

/-- After a successful `assignTasksToNodes` over nodes as created: the node at
index `j` holds the type at index `j` and the instructions of that type, or,
when there is no such type, no type and no instructions. -/
theorem TaskManager.assign_fresh (tm : TaskManager) (p p' : Protocol) (hP : tm.Partitioned)
    (hnd : p.discoverNodes.Nodup) (hfresh : ∀ kn ∈ p.nodes, kn.2.Fresh)
    (h : tm.assignTasksToNodes p = (true, p')) :
    ∀ (j : Nat) (y : List Char), p.discoverNodes[j]? = some y →
      ∃ m, p'.getNode y = some m ∧
        ((∃ t, tm.getRequiredInstructionTypes[j]? = some t ∧ m.assignedType = t ∧
            m.assignedInstructions = itemsOfType t tm.instructions) ∨
          (tm.getRequiredInstructionTypes[j]? = none ∧ m.assignedType = [] ∧
            m.assignedInstructions = [])) := by
  obtain ⟨_, _, hnode, _⟩ := TaskManager.assign_result tm p p' hnd h
  intro j y hjy
  obtain ⟨n0, hn0⟩ := (Protocol.getNode_isSome_iff p y).2 (List.getElem?_mem hjy)
  have hf : n0.Fresh := hfresh (y, n0) (mapFind_mem _ _ _ hn0)
  obtain ⟨ex, hex⟩ := hnode j y n0 hjy hn0
  refine ⟨_, hex, ?_⟩
  cases ht : tm.getRequiredInstructionTypes[j]? with
  | none => exact Or.inr ⟨rfl, by simp [Node.updated, hf.1], by simp [Node.updated, hf.2.2.1]⟩
  | some t => exact Or.inl ⟨t, rfl, by simp [Node.updated], by simp [Node.updated, hP.group]⟩

/-- After a successful `assignTasksToNodes` over nodes as created, two nodes
that hold the same type, not the empty one, are the same node. -/
theorem TaskManager.assign_no_share (tm : TaskManager) (p p' : Protocol) (hP : tm.Partitioned)
    (hnd : p.discoverNodes.Nodup) (hfresh : ∀ kn ∈ p.nodes, kn.2.Fresh)
    (h : tm.assignTasksToNodes p = (true, p')) :
    ∀ x y n m, p'.getNode x = some n → p'.getNode y = some m →
      n.assignedType = m.assignedType → n.assignedType ≠ [] → x = y := by
  have htnd : tm.getRequiredInstructionTypes.Nodup := pairwise_strLt_nodup _ hP.1
  have hat := TaskManager.assign_fresh tm p p' hP hnd hfresh h
  obtain ⟨_, hdisc, _, _⟩ := TaskManager.assign_result tm p p' hnd h
  have hidx : ∀ y m, p'.getNode y = some m → ∃ j : Nat, p.discoverNodes[j]? = some y := by
    intro y m hm
    have : y ∈ p'.discoverNodes := (Protocol.getNode_isSome_iff p' y).1 ⟨m, hm⟩
    rw [hdisc] at this
    exact List.mem_iff_getElem?.1 this
  intro x y n m hn hm hty hne
  obtain ⟨i, hi⟩ := hidx x n hn
  obtain ⟨j, hj⟩ := hidx y m hm
  obtain ⟨n', hn', hcase⟩ := hat i x hi
  obtain ⟨m', hm', hcase'⟩ := hat j y hj
  rw [hn] at hn'
  rw [hm] at hm'
  cases Option.some.inj hn'
  cases Option.some.inj hm'
  rcases hcase with ⟨t, ht, hnt, _⟩ | ⟨_, hnil, _⟩
  · rcases hcase' with ⟨t', ht', hmt, _⟩ | ⟨_, hnil', _⟩
    · have htt : t = t' := by rw [← hnt, ← hmt]; exact hty
      rw [← htt] at ht'
      have hij := nodup_getElem?_inj _ htnd i j t ht ht'
      rw [hij] at hi
      rw [hi] at hj
      exact Option.some.inj hj
    · exact absurd (hty.trans hnil') hne
  · exact absurd hnil hne

/-- C4: with a coordinator designated, `assignTasksToNodes` returns false
exactly when there are more distinct instruction types than registered nodes,
and then the protocol, hence every node, is unchanged. -/
theorem C4_assign_insufficient_nodes (c : Node) (line : List Char) (tm : TaskManager)
    (p : Protocol)
    (hload : (TaskManager.new (some c)).loadInstructions (some line) = .ok (true, tm)) :
    ((tm.assignTasksToNodes p).1 = false ↔
      p.discoverNodes.length < (distinctTypes tm.instructions).length) ∧
    ((tm.assignTasksToNodes p).1 = false → (tm.assignTasksToNodes p).2 = p) := by
  obtain ⟨hc, hP, _⟩ := TaskManager.loadInstructions_spec _ _ _ _ hload
  rw [← hP.types_length]
  exact TaskManager.assignTasksToNodes_fst tm c hc p

theorem C4_assign_insufficient_nodes_witness :
    ((TaskManager.ofLine sampleCoordinator "a1 b1 c1 d1".toList).assignTasksToNodes
        (sampleProtocol 3)).1 = false ∧
    ((TaskManager.ofLine sampleCoordinator "a1 b1 c1 d1".toList).assignTasksToNodes
        (sampleProtocol 3)).2 = sampleProtocol 3 :=
  have h := C4_assign_insufficient_nodes sampleCoordinator "a1 b1 c1 d1".toList
    (TaskManager.ofLine sampleCoordinator "a1 b1 c1 d1".toList) (sampleProtocol 3) (by decide)
  ⟨h.1.2 (by decide), h.2 (h.1.2 (by decide))⟩

/-- C3: after a successful `assignTasksToNodes` over nodes as created, with
`types` the distinct types in ascending order and `ids` the registered ids in
ascending order: the node at index `i` of `ids` holds the type at index `i` of
`types` and the instructions of that type; a node at an index from
`types.length` on has no type and no instructions; every type is held by
exactly one node; and no two nodes hold the same type. -/
theorem C3_assign_pairwise (c : Node) (line : List Char) (tm : TaskManager) (p p' : Protocol)
    (hload : (TaskManager.new (some c)).loadInstructions (some line) = .ok (true, tm))
    (hwf : p.WF) (hfresh : ∀ kn ∈ p.nodes, kn.2.Fresh)
    (hassign : tm.assignTasksToNodes p = (true, p')) :
    (tm.getRequiredInstructionTypes.Pairwise (fun a b => strLt a b = true) ∧
      ∀ t, t ∈ tm.getRequiredInstructionTypes ↔ ∃ i ∈ tm.instructions, i.type = t) ∧
    (p.discoverNodes.Pairwise (fun a b => strLt a b = true) ∧
      p'.discoverNodes = p.discoverNodes) ∧
    tm.getRequiredInstructionTypes.length ≤ p.discoverNodes.length ∧
    (∀ (i : Nat) (t x : List Char),
      tm.getRequiredInstructionTypes[i]? = some t → p.discoverNodes[i]? = some x →
      ∃ n, p'.getNode x = some n ∧ n.assignedType = t ∧
        n.assignedInstructions = itemsOfType t tm.instructions) ∧
    (∀ (i : Nat) (x : List Char),
      tm.getRequiredInstructionTypes.length ≤ i → p.discoverNodes[i]? = some x →
      ∃ n, p'.getNode x = some n ∧ n.assignedType = [] ∧ n.assignedInstructions = []) ∧
    (∀ t ∈ tm.getRequiredInstructionTypes,
      ∃! x, ∃ n, p'.getNode x = some n ∧ n.assignedType = t) ∧
    (∀ x y n m, p'.getNode x = some n → p'.getNode y = some m →
      n.assignedType = m.assignedType → n.assignedType ≠ [] → x = y) := by
  obtain ⟨_, hP, _, _, hitems⟩ := TaskManager.loadInstructions_spec _ _ _ _ hload
  have hnd : p.discoverNodes.Nodup := pairwise_strLt_nodup _ hwf.1
  obtain ⟨hlen, hdisc, _, _⟩ := TaskManager.assign_result tm p p' hnd hassign
  have htne : ∀ t ∈ tm.getRequiredInstructionTypes, t ≠ [] := by
    intro t ht e
    obtain ⟨i, hi, hit⟩ := (hP.mem_types t).1 ht
    have := (hitems i hi).1
    rw [hit, e] at this
    simp at this
  have hat := TaskManager.assign_fresh tm p p' hP hnd hfresh hassign
  have hshare := TaskManager.assign_no_share tm p p' hP hnd hfresh hassign
  refine ⟨⟨hP.1, hP.mem_types⟩, ⟨hwf.1, hdisc⟩, hlen, ?_, ?_, ?_, hshare⟩
  · intro i t x hit hix
    obtain ⟨m, hm, hcase⟩ := hat i x hix
    rcases hcase with ⟨t', ht', h1, h2⟩ | ⟨hnone, _⟩
    · rw [hit] at ht'
      cases Option.some.inj ht'
      exact ⟨m, hm, h1, h2⟩
    · rw [hit] at hnone
      exact absurd hnone (by simp)
  · intro i x hi hix
    obtain ⟨m, hm, hcase⟩ := hat i x hix
    rcases hcase with ⟨t', ht', _⟩ | ⟨_, h1, h2⟩
    · have : tm.getRequiredInstructionTypes[i]? = none := List.getElem?_eq_none (by omega)
      rw [this] at ht'
      exact absurd ht' (by simp)
    · exact ⟨m, hm, h1, h2⟩
  · intro t ht
    obtain ⟨i, hit⟩ := List.mem_iff_getElem?.1 ht
    have hi : i < p.discoverNodes.length := by
      have := (List.getElem?_eq_some.1 hit).1
      omega
    obtain ⟨m, hm, hcase⟩ := hat i _ (List.getElem?_eq_getElem hi)
    have hmt : m.assignedType = t := by
      rcases hcase with ⟨t', ht', h1, _⟩ | ⟨hnone, _⟩
      · rw [hit] at ht'
        rw [h1]; exact (Option.some.inj ht').symm
      · rw [hit] at hnone
        exact absurd hnone (by simp)
    refine ⟨p.discoverNodes[i], ⟨m, hm, hmt⟩, ?_⟩
    rintro y ⟨m', hm', hmt'⟩
    exact hshare y _ m' m hm' hm (hmt'.trans hmt.symm) (by rw [hmt']; exact htne t ht)

theorem C3_assign_pairwise_witness :
    ∃ n, ((TaskManager.ofLine sampleCoordinator "b7 a1 b2".toList).assignTasksToNodes
        (sampleProtocol 3)).2.getNode "Node3".toList = some n ∧
      n.assignedType = [] ∧ n.assignedInstructions = [] :=
  (C3_assign_pairwise sampleCoordinator "b7 a1 b2".toList
    (TaskManager.ofLine sampleCoordinator "b7 a1 b2".toList) (sampleProtocol 3)
    ((TaskManager.ofLine sampleCoordinator "b7 a1 b2".toList).assignTasksToNodes
      (sampleProtocol 3)).2
    (by decide) (by decide) (by decide) (by decide)).2.2.2.2.1 2 "Node3".toList
    (by decide) (by decide)

/-- C7 (as stated, refuted): with one type and three nodes `assignTasksToNodes`
succeeds and connects `Node1` with `Node2` and with `Node3`, but `Node2` and
`Node3`, which received no type, are not connected to each other. -/
theorem C7_counterexample :
    ((TaskManager.ofLine sampleCoordinator "a1".toList).assignTasksToNodes
      (sampleProtocol 3)).1 = true ∧
    "Node2".toList ∈ (sampleProtocol 3).discoverNodes ∧
    "Node3".toList ∈ (sampleProtocol 3).discoverNodes ∧
    (((TaskManager.ofLine sampleCoordinator "a1".toList).assignTasksToNodes
      (sampleProtocol 3)).2.getNode "Node2".toList).map (fun n => n.connectedNodes)
        = some ["Node1".toList] ∧
    ¬ ((TaskManager.ofLine sampleCoordinator "a1".toList).assignTasksToNodes
      (sampleProtocol 3)).2.Connected "Node2".toList "Node3".toList ∧
    ¬ ((TaskManager.ofLine sampleCoordinator "a1".toList).assignTasksToNodes
      (sampleProtocol 3)).2.Connected "Node3".toList "Node2".toList := by
  decide

/-- C7 (amended): after a successful `assignTasksToNodes` over a registry with
distinct ids, every node that received a type (one at an index below the
number of types) is connected both ways with every other discovered node; so
when at most one node is left without a type, any two distinct discovered
nodes are connected to each other. -/
theorem C7_assign_connects (tm : TaskManager) (p p' : Protocol) (hwf : p.WF)
    (hassign : tm.assignTasksToNodes p = (true, p')) :
    (∀ (i : Nat) (a : List Char), i < tm.getRequiredInstructionTypes.length →
      p.discoverNodes[i]? = some a → ∀ b ∈ p.discoverNodes, b ≠ a →
      p'.Connected a b ∧ p'.Connected b a) ∧
    (p.discoverNodes.length ≤ tm.getRequiredInstructionTypes.length + 1 →
      ∀ a ∈ p.discoverNodes, ∀ b ∈ p.discoverNodes, a ≠ b →
      p'.Connected a b ∧ p'.Connected b a) := by
  have hnd : p.discoverNodes.Nodup := pairwise_strLt_nodup _ hwf.1
  obtain ⟨_, _, _, hconn⟩ := TaskManager.assign_result tm p p' hnd hassign
  refine ⟨hconn, ?_⟩
  intro hlen a ha b hb hab
  obtain ⟨i, hi⟩ := List.mem_iff_getElem?.1 ha
  obtain ⟨j, hj⟩ := List.mem_iff_getElem?.1 hb
  have hi' := (List.getElem?_eq_some.1 hi).1
  have hj' := (List.getElem?_eq_some.1 hj).1
  have hij : i ≠ j := by
    intro e
    rw [e, hj] at hi
    exact hab (Option.some.inj hi).symm
  by_cases hik : i < tm.getRequiredInstructionTypes.length
  · exact hconn i a hik hi b hb (Ne.symm hab)
  · have hjk : j < tm.getRequiredInstructionTypes.length := by omega
    obtain ⟨c1, c2⟩ := hconn j b hjk hj a ha hab
    exact ⟨c2, c1⟩

theorem C7_assign_connects_witness :
    ((TaskManager.ofLine sampleCoordinator "a1".toList).assignTasksToNodes
      (sampleProtocol 3)).2.Connected "Node1".toList "Node3".toList ∧
    ((TaskManager.ofLine sampleCoordinator "a1".toList).assignTasksToNodes
      (sampleProtocol 3)).2.Connected "Node3".toList "Node1".toList :=
  (C7_assign_connects (TaskManager.ofLine sampleCoordinator "a1".toList) (sampleProtocol 3)
    ((TaskManager.ofLine sampleCoordinator "a1".toList).assignTasksToNodes (sampleProtocol 3)).2
    (by decide) (by decide)).1 0 "Node1".toList (by decide) (by decide) "Node3".toList
    (by decide) (by decide)

/-! ## Execution -/

theorem Protocol.sendMessage_execute (p : Protocol) (sender k : List Char) (node : Node)
    (g : Int) (hk : p.getNode k = some node) (hg : InIntRange g) :
    p.sendMessage ⟨MessageType.INSTRUCTION_EXECUTE, sender, k, to_string g, 0⟩ =
      .ok (p, Event.messageSent ⟨MessageType.INSTRUCTION_EXECUTE, sender, k, to_string g, 0⟩ ::
        (node.executeInstruction g).2) := by
  have hk' : mapFind k p.nodes = some node := hk
  have hne : MessageType.INSTRUCTION_EXECUTE ≠ MessageType.TASK_ASSIGNMENT := by decide
  have hid : mapModify k (fun n => (n.executeInstruction g).1) p.nodes = p.nodes :=
    mapModify_id _ _ _ (fun _ => rfl)
  simp only [Protocol.sendMessage, Protocol.processMessage, hk', Option.isSome_some, if_true,
    hne, if_false, stoi_to_string g hg, hid]

theorem TaskManager.dispatchLoop_eq (tm : TaskManager) (c : Node)
    (hc : tm.coordinatorNode = some c) (inst : Instruction) (hg : InIntRange inst.globalOrder)
    (p : Protocol) : ∀ (ids : List (List Char)),
    tm.dispatchLoop inst ids p =
      .ok (p, match ids.find? (p.isOwner inst) with
        | none => []
        | some k =>
          match p.getNode k with
          | none => []
          | some node =>
            Event.messageSent (executeMsg c k inst) ::
              (node.executeInstruction inst.globalOrder).2) := by
  intro ids
  induction ids with
  | nil => rfl
  | cons k ids ih =>
    cases hk : p.getNode k with
    | none =>
      have ho : p.isOwner inst k = false := by simp [Protocol.isOwner, hk]
      simp only [TaskManager.dispatchLoop, hk, List.find?_cons, ho, ih]
    | some node =>
      by_cases ht : node.assignedType = inst.type
      · cases hh : node.hasInstructionAtOrder inst.globalOrder with
        | false =>
          have ho : p.isOwner inst k = false := by simp [Protocol.isOwner, hk, hh]
          simp only [TaskManager.dispatchLoop, hk, Node.getAssignedType, ht, if_true, hh,
            Bool.false_eq_true, if_false, List.find?_cons, ho, ih]
        | true =>
          have ho : p.isOwner inst k = true := by simp [Protocol.isOwner, hk, hh, ht]
          simp only [TaskManager.dispatchLoop, hk, Node.getAssignedType, ht, if_true, hh, hc,
            Node.getId, List.find?_cons, ho, executeMsg]
          exact Protocol.sendMessage_execute p c.nodeId k node inst.globalOrder hk hg
      · have ho : p.isOwner inst k = false := by simp [Protocol.isOwner, hk, ht]
        simp only [TaskManager.dispatchLoop, hk, Node.getAssignedType, ht, if_false,
          List.find?_cons, ho, ih]

theorem TaskManager.executeLoop_flatMap (tm : TaskManager) (c : Node)
    (hc : tm.coordinatorNode = some c) (p : Protocol) : ∀ (items : List Instruction),
    (∀ i ∈ items, InIntRange i.globalOrder) →
    tm.executeLoop items p = .ok (p, items.flatMap (itemEvents c p)) := by
  intro items
  induction items with
  | nil => intro _; rfl
  | cons inst items ih =>
    intro h
    have h1 := TaskManager.dispatchLoop_eq tm c hc inst (h inst (List.mem_cons_self _ _)) p
      p.discoverNodes
    have h2 := ih (fun i hi => h i (List.mem_cons_of_mem _ hi))
    simp only [TaskManager.executeLoop, h1, h2, List.flatMap_cons, itemEvents]

/-- A run of `executeInstructions` returns, leaves the protocol as it was, and
produces for each instruction in turn the events of `itemEvents`. -/
theorem TaskManager.executeInstructions_eq (tm : TaskManager) (c : Node)
    (hc : tm.coordinatorNode = some c) (p : Protocol)
    (h : ∀ i ∈ tm.instructions, InIntRange i.globalOrder) :
    tm.executeInstructions p = .ok (p, tm.instructions.flatMap (itemEvents c p)) :=
  TaskManager.executeLoop_flatMap tm c hc p tm.instructions h

theorem itemEvents_of_no_owner (c : Node) (p : Protocol) (inst : Instruction)
    (h : ∀ k n, p.getNode k = some n → n.assignedType = inst.type →
      n.hasInstructionAtOrder inst.globalOrder = false) : itemEvents c p inst = [] := by
  have : p.discoverNodes.find? (p.isOwner inst) = none := by
    rw [List.find?_eq_none]
    intro k _
    unfold Protocol.isOwner
    cases hk : p.getNode k with
    | none => simp
    | some n =>
      by_cases ht : n.assignedType = inst.type
      · simp [ht, h k n hk ht]
      · simp [ht]
  simp [itemEvents, this]

theorem Protocol.isOwner_iff (p : Protocol) (inst : Instruction) (k : List Char) :
    p.isOwner inst k = true ↔ ∃ n, p.getNode k = some n ∧ n.assignedType = inst.type ∧
      n.hasInstructionAtOrder inst.globalOrder = true := by
  unfold Protocol.isOwner
  cases p.getNode k with
  | none => simp
  | some n => simp

/-- With an owner, the events of an instruction are the message to the first
owner among the discovered ids and the execution, by that node, of one of its
instructions of the same order. -/
theorem itemEvents_of_owner (c : Node) (p : Protocol) (inst : Instruction) (k : List Char)
    (hk : p.isOwner inst k = true) :
    ∃ k0 n0 j pre post, p.discoverNodes = pre ++ k0 :: post ∧
      (∀ a ∈ pre, p.isOwner inst a = false) ∧
      p.getNode k0 = some n0 ∧ n0.assignedType = inst.type ∧
      j ∈ n0.assignedInstructions ∧ j.globalOrder = inst.globalOrder ∧
      itemEvents c p inst =
        [Event.messageSent (executeMsg c k0 inst), Event.executed n0.nodeId j] := by
  have hmem : k ∈ p.discoverNodes := by
    obtain ⟨n, hn, _⟩ := (Protocol.isOwner_iff p inst k).1 hk
    exact (Protocol.getNode_isSome_iff p k).1 ⟨n, hn⟩
  cases hf : p.discoverNodes.find? (p.isOwner inst) with
  | none =>
    have := List.find?_eq_none.1 hf k hmem
    exact absurd hk this
  | some k0 =>
    obtain ⟨hk0, pre, post, hsplit, hpre⟩ := List.find?_eq_some.1 hf
    obtain ⟨n0, hn0, ht0, ho0⟩ := (Protocol.isOwner_iff p inst k0).1 hk0
    obtain ⟨j, hj, hjg, hex⟩ := Node.executeInstruction_of_owns n0 inst.globalOrder ho0
    refine ⟨k0, n0, j, pre, post, hsplit, ?_, hn0, ht0, hj, hjg, ?_⟩
    · intro a ha
      simpa using hpre a ha
    · simp only [itemEvents, hf, hn0, hex]

theorem sentMessages_append (l₁ l₂ : List Event) :
    sentMessages (l₁ ++ l₂) = sentMessages l₁ ++ sentMessages l₂ := by
  induction l₁ with
  | nil => rfl
  | cons e l₁ ih => cases e <;> simp [sentMessages, ih]

theorem executedAll_append (l₁ l₂ : List Event) :
    executedAll (l₁ ++ l₂) = executedAll l₁ ++ executedAll l₂ := by
  induction l₁ with
  | nil => rfl
  | cons e l₁ ih => cases e <;> simp [executedAll, ih]

theorem executedBy_append (k : List Char) (l₁ l₂ : List Event) :
    executedBy k (l₁ ++ l₂) = executedBy k l₁ ++ executedBy k l₂ := by
  induction l₁ with
  | nil => rfl
  | cons e l₁ ih =>
    cases e with
    | messageSent m => simp [executedBy, ih]
    | executed k' i =>
      by_cases h : k' = k
      · simp [executedBy, h, ih]
      · simp [executedBy, h, ih]

/-- The messages of a run, matched with the instructions they are sent for. -/
theorem sentMessages_flatMap_itemEvents (c : Node) (p : Protocol) :
    ∀ (items : List Instruction), (∀ i ∈ items, InIntRange i.globalOrder) →
    ∃ sent, sent.Sublist items ∧
      List.Forall₂
        (fun (m : Message) (it : Instruction) =>
          m.type = MessageType.INSTRUCTION_EXECUTE ∧ m.senderId = c.nodeId ∧
          m.payload = to_string it.globalOrder ∧ stoi m.payload = .ok it.globalOrder ∧
          ∃ n, p.getNode m.receiverId = some n ∧ n.assignedType = it.type ∧
            n.hasInstructionAtOrder it.globalOrder = true)
        (sentMessages (items.flatMap (itemEvents c p))) sent := by
  intro items
  induction items with
  | nil => intro _; exact ⟨[], List.Sublist.refl _, List.Forall₂.nil⟩
  | cons it items ih =>
    intro h
    obtain ⟨sent, hsub, hall⟩ := ih (fun i hi => h i (List.mem_cons_of_mem _ hi))
    rw [List.flatMap_cons, sentMessages_append]
    cases hf : p.discoverNodes.find? (p.isOwner it) with
    | none =>
      have : itemEvents c p it = [] := by simp [itemEvents, hf]
      rw [this]
      exact ⟨sent, hsub.cons _, hall⟩
    | some k =>
      obtain ⟨k0, n0, j, _, _, _, _, hn0, ht0, hj, hjg, hev⟩ :=
        itemEvents_of_owner c p it k (List.find?_some hf)
      rw [hev]
      refine ⟨it :: sent, hsub.cons₂ _, ?_⟩
      simp only [sentMessages, List.cons_append, List.nil_append]
      refine List.Forall₂.cons ⟨rfl, rfl, rfl, ?_, n0, hn0, ht0, ?_⟩ hall
      · exact stoi_to_string _ (h it (List.mem_cons_self _ _))
      · exact (Node.hasInstructionAtOrder_iff n0 it.globalOrder).2 ⟨j, hj, hjg⟩

/-- C1: for the instructions loaded from a line and any registry,
`executeInstructions` returns, and the messages it sends are, in order,
`INSTRUCTION_EXECUTE` messages for a subsequence of the loaded instructions:
each carries the order of its instruction as payload, the orders are strictly
ascending, and the receiver is a registered node whose assigned type is the
type of the instruction. -/
theorem C1_dispatch_ascending (c : Node) (line : List Char) (tm : TaskManager) (p : Protocol)
    (hload : (TaskManager.new (some c)).loadInstructions (some line) = .ok (true, tm)) :
    ∃ log sent, tm.executeInstructions p = .ok (p, log) ∧
      sent.Sublist tm.instructions ∧
      (sent.map (fun it => it.globalOrder)).Pairwise (· < ·) ∧
      List.Forall₂
        (fun (m : Message) (it : Instruction) =>
          m.type = MessageType.INSTRUCTION_EXECUTE ∧ m.senderId = c.nodeId ∧
          m.payload = to_string it.globalOrder ∧ stoi m.payload = .ok it.globalOrder ∧
          ∃ n, p.getNode m.receiverId = some n ∧ n.assignedType = it.type ∧
            n.hasInstructionAtOrder it.globalOrder = true)
        (sentMessages log) sent := by
  obtain ⟨hc, _, hord, _, hitems⟩ := TaskManager.loadInstructions_spec _ _ _ _ hload
  have hrange : ∀ i ∈ tm.instructions, InIntRange i.globalOrder := fun i hi => (hitems i hi).2.2
  obtain ⟨sent, hsub, hall⟩ := sentMessages_flatMap_itemEvents c p tm.instructions hrange
  refine ⟨_, sent, TaskManager.executeInstructions_eq tm c hc p hrange, hsub, ?_, hall⟩
  exact List.Pairwise.sublist (hsub.map _) (ordersFrom_spec _ 0 hord).1

theorem C1_dispatch_ascending_witness :
    ∃ log sent,
      (TaskManager.ofLine sampleCoordinator sampleLine).executeInstructions
        ((TaskManager.ofLine sampleCoordinator "a1 b1 a2".toList).assignTasksToNodes
          (sampleProtocol 3)).2 =
        .ok (((TaskManager.ofLine sampleCoordinator "a1 b1 a2".toList).assignTasksToNodes
          (sampleProtocol 3)).2, log) ∧
      sent.Sublist (TaskManager.ofLine sampleCoordinator sampleLine).instructions ∧
      (sent.map (fun it => it.globalOrder)).Pairwise (· < ·) ∧
      List.Forall₂
        (fun (m : Message) (it : Instruction) =>
          m.type = MessageType.INSTRUCTION_EXECUTE ∧ m.senderId = sampleCoordinator.nodeId ∧
          m.payload = to_string it.globalOrder ∧ stoi m.payload = .ok it.globalOrder ∧
          ∃ n, ((TaskManager.ofLine sampleCoordinator "a1 b1 a2".toList).assignTasksToNodes
              (sampleProtocol 3)).2.getNode m.receiverId = some n ∧
            n.assignedType = it.type ∧ n.hasInstructionAtOrder it.globalOrder = true)
        (sentMessages log) sent :=
  C1_dispatch_ascending sampleCoordinator sampleLine
    (TaskManager.ofLine sampleCoordinator sampleLine)
    ((TaskManager.ofLine sampleCoordinator "a1 b1 a2".toList).assignTasksToNodes
      (sampleProtocol 3)).2 (by decide)

/-- C10: for the instructions loaded from a line and any registry,
`executeInstructions` returns without error and leaves the registry as it was;
its events are, instruction by instruction in order, either nothing, when no
registered node has the type of the instruction and an instruction at its
order, or else one message, to the least id among such nodes, followed by the
execution by that node of one of its instructions of that order. -/
theorem C10_run_no_failure (c : Node) (line : List Char) (tm : TaskManager) (p : Protocol)
    (hload : (TaskManager.new (some c)).loadInstructions (some line) = .ok (true, tm))
    (hwf : p.WF) :
    ∃ f : Instruction → List Event,
      tm.executeInstructions p = .ok (p, tm.instructions.flatMap f) ∧
      ∀ it ∈ tm.instructions,
        ((∀ k n, p.getNode k = some n → n.assignedType = it.type →
            n.hasInstructionAtOrder it.globalOrder = false) → f it = []) ∧
        (∀ k n, p.getNode k = some n → n.assignedType = it.type →
            n.hasInstructionAtOrder it.globalOrder = true →
          ∃ k0 n0 j, p.getNode k0 = some n0 ∧ n0.assignedType = it.type ∧
            j ∈ n0.assignedInstructions ∧ j.globalOrder = it.globalOrder ∧
            (k0 = k ∨ strLt k0 k = true) ∧
            f it = [Event.messageSent
                      ⟨MessageType.INSTRUCTION_EXECUTE, c.nodeId, k0,
                        to_string it.globalOrder, 0⟩,
                    Event.executed k0 j]) := by
  obtain ⟨hc, _, _, _, hitems⟩ := TaskManager.loadInstructions_spec _ _ _ _ hload
  have hrange : ∀ i ∈ tm.instructions, InIntRange i.globalOrder := fun i hi => (hitems i hi).2.2
  refine ⟨itemEvents c p, TaskManager.executeInstructions_eq tm c hc p hrange, ?_⟩
  intro it _
  refine ⟨itemEvents_of_no_owner c p it, ?_⟩
  intro k n hk ht ho
  have hown : p.isOwner it k = true := (Protocol.isOwner_iff p it k).2 ⟨n, hk, ht, ho⟩
  obtain ⟨k0, n0, j, pre, post, hsplit, hpre, hn0, ht0, hj, hjg, hev⟩ :=
    itemEvents_of_owner c p it k hown
  have hid : n0.nodeId = k0 := hwf.2 (k0, n0) (mapFind_mem _ _ _ hn0)
  refine ⟨k0, n0, j, hn0, ht0, hj, hjg, ?_, by rw [hev, hid]; rfl⟩
  have hmem : k ∈ p.discoverNodes := (Protocol.getNode_isSome_iff p k).1 ⟨n, hk⟩
  have hsorted := hwf.1
  change (p.discoverNodes).Pairwise _ at hsorted
  rw [hsplit] at hmem hsorted
  rcases List.mem_append.1 hmem with hm | hm
  · have := hpre k hm
    rw [hown] at this
    exact absurd this (by decide)
  · rcases List.mem_cons.1 hm with hm | hm
    · exact Or.inl hm.symm
    · exact Or.inr ((List.pairwise_cons.1 (List.pairwise_append.1 hsorted).2.1).1 k hm)

theorem C10_run_no_failure_witness :
    ∃ f : Instruction → List Event,
      (TaskManager.ofLine sampleCoordinator "a1 b1 a2".toList).executeInstructions
        ((TaskManager.ofLine sampleCoordinator "a1 a2".toList).assignTasksToNodes
          (sampleProtocol 2)).2 =
        .ok (((TaskManager.ofLine sampleCoordinator "a1 a2".toList).assignTasksToNodes
          (sampleProtocol 2)).2,
          (TaskManager.ofLine sampleCoordinator "a1 b1 a2".toList).instructions.flatMap f) ∧
      ∀ it ∈ (TaskManager.ofLine sampleCoordinator "a1 b1 a2".toList).instructions,
        ((∀ k n, ((TaskManager.ofLine sampleCoordinator "a1 a2".toList).assignTasksToNodes
            (sampleProtocol 2)).2.getNode k = some n → n.assignedType = it.type →
            n.hasInstructionAtOrder it.globalOrder = false) → f it = []) ∧
        (∀ k n, ((TaskManager.ofLine sampleCoordinator "a1 a2".toList).assignTasksToNodes
            (sampleProtocol 2)).2.getNode k = some n → n.assignedType = it.type →
            n.hasInstructionAtOrder it.globalOrder = true →
          ∃ k0 n0 j, ((TaskManager.ofLine sampleCoordinator "a1 a2".toList).assignTasksToNodes
              (sampleProtocol 2)).2.getNode k0 = some n0 ∧ n0.assignedType = it.type ∧
            j ∈ n0.assignedInstructions ∧ j.globalOrder = it.globalOrder ∧
            (k0 = k ∨ strLt k0 k = true) ∧
            f it = [Event.messageSent
                      ⟨MessageType.INSTRUCTION_EXECUTE, sampleCoordinator.nodeId, k0,
                        to_string it.globalOrder, 0⟩,
                    Event.executed k0 j]) :=
  C10_run_no_failure sampleCoordinator "a1 b1 a2".toList
    (TaskManager.ofLine sampleCoordinator "a1 b1 a2".toList)
    ((TaskManager.ofLine sampleCoordinator "a1 a2".toList).assignTasksToNodes
      (sampleProtocol 2)).2 (by decide) (by decide)

/-! ## End to end -/

theorem ordersFrom_injective (items : List Instruction) (order : Int)
    (h : ordersFrom order items) :
    ∀ a ∈ items, ∀ b ∈ items, a.globalOrder = b.globalOrder → a = b := by
  have hpw : items.Pairwise (fun a b => a.globalOrder ≠ b.globalOrder) := by
    have := (ordersFrom_spec items order h).1
    rw [List.pairwise_map] at this
    exact this.imp (fun hab => ne_of_lt hab)
  intro a ha b hb hab
  by_contra hne
  exact hpw.forall (fun _ _ hxy => Ne.symm hxy) ha hb hne hab

theorem executedAll_flatMap (f : Instruction → List Event) : ∀ (l : List Instruction),
    (∀ it ∈ l, ∃ m x, f it = [Event.messageSent m, Event.executed x it]) →
    executedAll (l.flatMap f) = l := by
  intro l
  induction l with
  | nil => intro _; rfl
  | cons it l ih =>
    intro h
    obtain ⟨m, x, hf⟩ := h it (List.mem_cons_self _ _)
    rw [List.flatMap_cons, executedAll_append, hf, ih (fun j hj => h j (List.mem_cons_of_mem _ hj))]
    rfl

theorem executedBy_flatMap (f : Instruction → List Event) (k t : List Char) :
    ∀ (l : List Instruction),
    (∀ it ∈ l, ∃ m x, f it = [Event.messageSent m, Event.executed x it] ∧
      (x = k ↔ it.type = t)) →
    executedBy k (l.flatMap f) = itemsOfType t l := by
  intro l
  induction l with
  | nil => intro _; rfl
  | cons it l ih =>
    intro h
    obtain ⟨m, x, hf, hx⟩ := h it (List.mem_cons_self _ _)
    rw [List.flatMap_cons, executedBy_append, hf,
      ih (fun j hj => h j (List.mem_cons_of_mem _ hj))]
    by_cases hxk : x = k
    · have ht : it.type = t := hx.1 hxk
      simp [executedBy, hxk, itemsOfType, ht]
    · have ht : ¬ it.type = t := fun e => hxk (hx.2 e)
      simp [executedBy, hxk, itemsOfType, ht]

theorem sentMessages_flatMap (f : Instruction → List Event) (R : Message → Instruction → Prop) :
    ∀ (l : List Instruction),
    (∀ it ∈ l, ∃ m x, f it = [Event.messageSent m, Event.executed x it] ∧ R m it) →
    List.Forall₂ R (sentMessages (l.flatMap f)) l := by
  intro l
  induction l with
  | nil => intro _; exact List.Forall₂.nil
  | cons it l ih =>
    intro h
    obtain ⟨m, x, hf, hR⟩ := h it (List.mem_cons_self _ _)
    rw [List.flatMap_cons, sentMessages_append, hf]
    exact List.Forall₂.cons hR (ih (fun j hj => h j (List.mem_cons_of_mem _ hj)))

/-- After a successful assignment of loaded instructions over nodes as
created, the events of each instruction are the message to the node that holds
its type and the execution of that very instruction by that node. -/
theorem itemEvents_after_assign (c : Node) (line : List Char) (tm : TaskManager)
    (p p' : Protocol)
    (hload : (TaskManager.new (some c)).loadInstructions (some line) = .ok (true, tm))
    (hwf : p.WF) (hfresh : ∀ kn ∈ p.nodes, kn.2.Fresh)
    (hassign : tm.assignTasksToNodes p = (true, p')) :
    ∀ it ∈ tm.instructions, ∃ x n, p'.getNode x = some n ∧ n.assignedType = it.type ∧
      itemEvents c p' it = [Event.messageSent (executeMsg c x it), Event.executed x it] := by
  obtain ⟨_, hP, hord, _, hitems⟩ := TaskManager.loadInstructions_spec _ _ _ _ hload
  have hnd : p.discoverNodes.Nodup := pairwise_strLt_nodup _ hwf.1
  have hwf' : p'.WF := (TaskManager.assign_extends tm p p' hnd hassign).wf hwf
  have hat := TaskManager.assign_fresh tm p p' hP hnd hfresh hassign
  have hshare := TaskManager.assign_no_share tm p p' hP hnd hfresh hassign
  obtain ⟨hlen, _, _, _⟩ := TaskManager.assign_result tm p p' hnd hassign
  intro it hit
  have htne : it.type ≠ [] := by
    intro e
    have := (hitems it hit).1
    rw [e] at this
    simp at this
  -- the node that holds the type of the instruction
  obtain ⟨i, hi⟩ := List.mem_iff_getElem?.1 ((hP.mem_types it.type).2 ⟨it, hit, rfl⟩)
  have hi' : i < p.discoverNodes.length := by
    have := (List.getElem?_eq_some.1 hi).1
    omega
  obtain ⟨m, hm, hcase⟩ := hat i _ (List.getElem?_eq_getElem hi')
  have hmt : m.assignedType = it.type ∧
      m.assignedInstructions = itemsOfType it.type tm.instructions := by
    rcases hcase with ⟨t', ht', h1, h2⟩ | ⟨hnone, _⟩
    · rw [hi] at ht'
      cases Option.some.inj ht'
      exact ⟨h1, h2⟩
    · rw [hi] at hnone
      exact absurd hnone (by simp)
  have hown : p'.isOwner it p.discoverNodes[i] = true := by
    refine (Protocol.isOwner_iff p' it _).2 ⟨m, hm, hmt.1, ?_⟩
    refine (Node.hasInstructionAtOrder_iff m it.globalOrder).2 ⟨it, ?_, rfl⟩
    rw [hmt.2]
    simp [itemsOfType, hit]
  obtain ⟨k0, n0, j, _, _, _, _, hn0, ht0, hj, hjg, hev⟩ :=
    itemEvents_of_owner c p' it _ hown
  have hk0 : k0 = p.discoverNodes[i] :=
    hshare k0 _ n0 m hn0 hm (ht0.trans hmt.1.symm) (by rw [ht0]; exact htne)
  subst hk0
  rw [hm] at hn0
  cases Option.some.inj hn0
  have hjit : j = it := by
    rw [hmt.2] at hj
    simp only [itemsOfType, List.mem_filter] at hj
    exact ordersFrom_injective _ 0 hord j hj.1 it hit hjg
  have hid : m.nodeId = p.discoverNodes[i] := hwf'.2 (_, m) (mapFind_mem _ _ _ hm)
  refine ⟨_, m, hm, hmt.1, ?_⟩
  rw [hev, hjit, hid]

/-- C2: for the instructions loaded from a line and a registry of nodes as
created with at least as many nodes as distinct types, `assignTasksToNodes`
succeeds, and `executeInstructions` then returns having sent exactly one
message per instruction, in order and to a node holding the type of the
instruction, and having executed every instruction once, in the order of the
sequence, which is ascending order; each registered node has executed
exactly the instructions of its assigned type, in order. -/
theorem C2_end_to_end (c : Node) (line : List Char) (tm : TaskManager) (p : Protocol)
    (hload : (TaskManager.new (some c)).loadInstructions (some line) = .ok (true, tm))
    (hwf : p.WF) (hfresh : ∀ kn ∈ p.nodes, kn.2.Fresh)
    (hcount : (distinctTypes tm.instructions).length ≤ p.discoverNodes.length) :
    ∃ p' log, tm.assignTasksToNodes p = (true, p') ∧
      tm.executeInstructions p' = .ok (p', log) ∧
      List.Forall₂
        (fun (m : Message) (it : Instruction) =>
          m = executeMsg c m.receiverId it ∧
          ∃ n, p'.getNode m.receiverId = some n ∧ n.assignedType = it.type)
        (sentMessages log) tm.instructions ∧
      executedAll log = tm.instructions ∧
      (tm.instructions.map (fun it => it.globalOrder)).Pairwise (· < ·) ∧
      ∀ k n, p'.getNode k = some n →
        executedBy k log = itemsOfType n.assignedType tm.instructions := by
  obtain ⟨hc, hP, hord, _, hitems⟩ := TaskManager.loadInstructions_spec _ _ _ _ hload
  have hnd : p.discoverNodes.Nodup := pairwise_strLt_nodup _ hwf.1
  have hrange : ∀ i ∈ tm.instructions, InIntRange i.globalOrder := fun i hi => (hitems i hi).2.2
  have hfst : (tm.assignTasksToNodes p).1 = true := by
    cases hb : (tm.assignTasksToNodes p).1 with
    | true => rfl
    | false =>
      have := (TaskManager.assignTasksToNodes_fst tm c hc p).1.1 hb
      rw [hP.types_length] at this
      omega
  have hassign : tm.assignTasksToNodes p = (true, (tm.assignTasksToNodes p).2) := by
    rw [← hfst]
  have hev := itemEvents_after_assign c line tm p _ hload hwf hfresh hassign
  have hshare := TaskManager.assign_no_share tm p _ hP hnd hfresh hassign
  refine ⟨_, _, hassign, TaskManager.executeInstructions_eq tm c hc _ hrange, ?_, ?_,
    (ordersFrom_spec _ 0 hord).1, ?_⟩
  · apply sentMessages_flatMap
    intro it hit
    obtain ⟨x, n, hn, hnt, he⟩ := hev it hit
    exact ⟨_, x, he, rfl, n, hn, hnt⟩
  · apply executedAll_flatMap
    intro it hit
    obtain ⟨x, n, _, _, he⟩ := hev it hit
    exact ⟨_, x, he⟩
  · intro k n hk
    apply executedBy_flatMap
    intro it hit
    obtain ⟨x, nx, hnx, hnxt, he⟩ := hev it hit
    refine ⟨_, x, he, ?_, ?_⟩
    · intro hxk
      rw [hxk, hk] at hnx
      cases Option.some.inj hnx
      exact hnxt.symm
    · intro ht
      have htne : it.type ≠ [] := by
        intro e
        have := (hitems it hit).1
        rw [e] at this
        simp at this
      exact hshare x k nx n hnx hk (hnxt.trans ht) (by rw [hnxt]; exact htne)

/-- The run of the program: three nodes and the sample line. `Node1` holds `a`
and executes the orders 0, 1, 5, 8; `Node2` holds `b` and executes 3, 6, 7,
10; `Node3` holds `c` and executes 2, 4, 9. -/
theorem C2_end_to_end_witness :
    (∃ p' log,
      (TaskManager.ofLine sampleCoordinator sampleLine).assignTasksToNodes (sampleProtocol 3)
        = (true, p') ∧
      (TaskManager.ofLine sampleCoordinator sampleLine).executeInstructions p' = .ok (p', log) ∧
      List.Forall₂
        (fun (m : Message) (it : Instruction) =>
          m = executeMsg sampleCoordinator m.receiverId it ∧
          ∃ n, p'.getNode m.receiverId = some n ∧ n.assignedType = it.type)
        (sentMessages log) (TaskManager.ofLine sampleCoordinator sampleLine).instructions ∧
      executedAll log = (TaskManager.ofLine sampleCoordinator sampleLine).instructions ∧
      ((TaskManager.ofLine sampleCoordinator sampleLine).instructions.map
        (fun it => it.globalOrder)).Pairwise (· < ·) ∧
      ∀ k n, p'.getNode k = some n →
        executedBy k log =
          itemsOfType n.assignedType (TaskManager.ofLine sampleCoordinator sampleLine).instructions) ∧
    (((TaskManager.ofLine sampleCoordinator sampleLine).assignTasksToNodes
        (sampleProtocol 3)).2.nodes.map (fun kn => (kn.1, kn.2.assignedType))
      = [("Node1".toList, "a".toList), ("Node2".toList, "b".toList),
          ("Node3".toList, "c".toList)]) ∧
    (match (TaskManager.ofLine sampleCoordinator sampleLine).executeInstructions
        ((TaskManager.ofLine sampleCoordinator sampleLine).assignTasksToNodes
          (sampleProtocol 3)).2 with
      | .ok (_, log) =>
        [(executedBy "Node1".toList log).map (fun it => it.globalOrder),
          (executedBy "Node2".toList log).map (fun it => it.globalOrder),
          (executedBy "Node3".toList log).map (fun it => it.globalOrder),
          (executedAll log).map (fun it => it.globalOrder)]
      | .error _ => [])
      = [[0, 1, 5, 8], [3, 6, 7, 10], [2, 4, 9], [0, 1, 2, 3, 4, 5, 6, 7, 8, 9, 10]] :=
  ⟨C2_end_to_end sampleCoordinator sampleLine (TaskManager.ofLine sampleCoordinator sampleLine)
      (sampleProtocol 3) (by decide) (by decide) (by decide) (by decide),
    by decide, by decide⟩

/-! ## Wire format -/

theorem natDigitsAux_head : ∀ (fuel n : Nat) (acc : List Char), n < fuel → n ≠ 0 →
    (natDigitsAux fuel n acc).head? ≠ some '0' := by
  intro fuel
  induction fuel with
  | zero => intro n acc h; omega
  | succ fuel ih =>
    intro n acc h hn
    by_cases h0 : n / 10 = 0
    · have hlt : n < 10 := by omega
      have hmod : n % 10 = n := Nat.mod_eq_of_lt hlt
      have hd : ∀ d, d < 10 → d ≠ 0 → digitChar d ≠ '0' := by decide
      simp only [natDigitsAux, h0, if_true, hmod, List.head?_cons, ne_eq, Option.some.injEq]
      exact hd n hlt hn
    · simp only [natDigitsAux, h0, if_false]
      exact ih (n / 10) _ (by omega) h0

/-- The numeral written for an `int`: a `-` when negative, then the decimal
digits of the absolute value, with no leading zero except for zero itself. -/
theorem to_string_decimal (n : Int) :
    ∃ ds, to_string n = (if n < 0 then ['-'] else []) ++ ds ∧ ds ≠ [] ∧
      (∀ c ∈ ds, IsDigitChar c) ∧ digitsVal ds = n.natAbs ∧
      (ds.head? = some '0' → n = 0) := by
  obtain ⟨hne, hall, hval⟩ := natDigits_spec n.natAbs
  refine ⟨natDigits n.natAbs, ?_, hne, hall, hval, ?_⟩
  · unfold to_string
    split <;> simp
  · intro hhead
    by_contra hn
    have : n.natAbs ≠ 0 := by omega
    exact natDigitsAux_head (n.natAbs + 1) n.natAbs [] (Nat.lt_succ_self _) this hhead

/-- C17: `Message::serialize` returns the text
`<kind>|<sender>|<receiver>|<payload>|<sequenceNumber>`, where the kind is the
integer tag of the message type and both integers are written as decimal
numerals; the tags of the fourteen message types are 0 to 13 in the order of
their declaration. -/
theorem C17_wire_format (m : Message) :
    m.serialize =
      to_string m.type.toInt ++ ['|'] ++ m.senderId ++ ['|'] ++ m.receiverId ++ ['|'] ++
        m.payload ++ ['|'] ++ to_string m.sequenceNumber ∧
    (∀ n : Int, ∃ ds, to_string n = (if n < 0 then ['-'] else []) ++ ds ∧ ds ≠ [] ∧
      (∀ c ∈ ds, IsDigitChar c) ∧ digitsVal ds = n.natAbs ∧ (ds.head? = some '0' → n = 0)) ∧
    (MessageType.DISCOVERY_REQUEST.toInt = 0 ∧ MessageType.DISCOVERY_RESPONSE.toInt = 1 ∧
      MessageType.CONNECTION_REQUEST.toInt = 2 ∧ MessageType.CONNECTION_RESPONSE.toInt = 3 ∧
      MessageType.HANDSHAKE.toInt = 4 ∧ MessageType.HANDSHAKE_ACK.toInt = 5 ∧
      MessageType.TASK_ASSIGNMENT.toInt = 6 ∧ MessageType.TASK_ACK.toInt = 7 ∧
      MessageType.INSTRUCTION_EXECUTE.toInt = 8 ∧ MessageType.INSTRUCTION_COMPLETE.toInt = 9 ∧
      MessageType.SYNC_BARRIER.toInt = 10 ∧ MessageType.SYNC_BARRIER_ACK.toInt = 11 ∧
      MessageType.DISCONNECT.toInt = 12 ∧ MessageType.DISCONNECT_ACK.toInt = 13) ∧
    (⟨MessageType.INSTRUCTION_EXECUTE, "Node1".toList, "Node2".toList, "10".toList, 0⟩ :
        Message).serialize = "8|Node1|Node2|10|0".toList ∧
    (⟨MessageType.DISCONNECT_ACK, "Node3".toList, "Node1".toList, [], -27⟩ :
        Message).serialize = "13|Node3|Node1||-27".toList := by
  refine ⟨?_, to_string_decimal, by decide, by decide, by decide⟩
  simp [Message.serialize]

theorem getlineTokensAux_no_delim (d : Char) : ∀ (s cur : List Char), d ∉ cur →
    ∀ tok ∈ getlineTokensAux d s cur, d ∉ tok := by
  intro s
  induction s with
  | nil =>
    intro cur hcur tok htok
    simp only [getlineTokensAux] at htok
    split at htok
    · simp at htok
    · simp only [List.mem_singleton] at htok
      rw [htok]
      simpa using hcur
  | cons c s ih =>
    intro cur hcur tok htok
    by_cases hc : c = d
    · simp only [getlineTokensAux, hc, if_true] at htok
      rcases List.mem_cons.1 htok with h | h
      · rw [h]; simpa using hcur
      · exact ih [] (by simp) tok h
    · simp only [getlineTokensAux, hc, if_false] at htok
      refine ih (c :: cur) ?_ tok htok
      intro hm
      rcases List.mem_cons.1 hm with h | h
      · exact hc h.symm
      · exact hcur h

theorem getD_no_delim (d : Char) (s : List Char) (i : Nat) :
    d ∉ (getlineTokens d s).getD i [] := by
  by_cases hi : i < (getlineTokens d s).length
  · rw [List.getD_eq_getElem _ _ hi]
    exact getlineTokensAux_no_delim d s [] (by simp) _ (List.getElem_mem hi)
  · rw [List.getD_eq_default _ _ (by omega)]
    simp

/-- Whatever `Message::deserialize` returns has no `|` in its sender id,
receiver id or payload. -/
theorem deserialize_ok_no_pipe (data : List Char) (m : Message)
    (h : Message.deserialize data = .ok m) :
    '|' ∉ m.senderId ∧ '|' ∉ m.receiverId ∧ '|' ∉ m.payload := by
  unfold Message.deserialize at h
  simp only at h
  by_cases h5 : 5 ≤ (getlineTokens '|' data).length
  · simp only [h5, if_true] at h
    cases h0 : stoi ((getlineTokens '|' data).getD 0 []) with
    | error e =>
      simp only [h0] at h
      cases h
    | ok ty =>
      cases h4 : stoi ((getlineTokens '|' data).getD 4 []) with
      | error e =>
        simp only [h0, h4] at h
        cases h
      | ok seq =>
        simp only [h0, h4, Except.ok.injEq] at h
        rw [← h]
        exact ⟨getD_no_delim _ _ 1, getD_no_delim _ _ 2, getD_no_delim _ _ 3⟩
  · simp only [h5, if_false, Except.ok.injEq] at h
    rw [← h]
    simp

/-- C20: for every envelope (with kind tag and sequence number of type
`int`), `Message::deserialize(e.serialize())` returns `e` if and only if none
of the sender id, receiver id and payload of `e` contains `|`. -/
theorem C20_round_trip_scope (e : Message) (hrange : e.InRange) :
    Message.deserialize e.serialize = .ok e ↔
      ('|' ∉ e.senderId ∧ '|' ∉ e.receiverId ∧ '|' ∉ e.payload) := by
  constructor
  · exact deserialize_ok_no_pipe _ e
  · rintro ⟨hs, hr, hp⟩
    simp only [Message.deserialize, serialize_tokens e hs hr hp]
    simp [stoi_to_string _ hrange.1, stoi_to_string _ hrange.2]

theorem C20_round_trip_scope_witness :
    (Message.deserialize
        (⟨MessageType.TASK_ASSIGNMENT, "Node1".toList, "Node2".toList, "a".toList, 4⟩ :
          Message).serialize
      = .ok ⟨MessageType.TASK_ASSIGNMENT, "Node1".toList, "Node2".toList, "a".toList, 4⟩) ∧
    (Message.deserialize
        (⟨MessageType.TASK_ASSIGNMENT, "Node1".toList, "No|de2".toList, "a".toList, 4⟩ :
          Message).serialize
      ≠ .ok ⟨MessageType.TASK_ASSIGNMENT, "Node1".toList, "No|de2".toList, "a".toList, 4⟩) :=
  ⟨(C20_round_trip_scope _ (by decide)).2 (by decide),
    fun h => absurd ((C20_round_trip_scope _ (by decide)).1 h) (by decide)⟩

/-! ## Routing -/

theorem wsTokensAux_skip : ∀ (ws s : List Char), (∀ c ∈ ws, isspace c = true) →
    wsTokensAux (ws ++ s) [] = wsTokensAux s [] := by
  intro ws
  induction ws with
  | nil => intro s _; rfl
  | cons c ws ih =>
    intro s h
    have hc : isspace c = true := h c (List.mem_cons_self _ _)
    have := ih s (fun x hx => h x (List.mem_cons_of_mem _ hx))
    simp only [List.cons_append, wsTokensAux, hc, if_true]
    simpa using this

theorem wsTokensAux_token : ∀ (tok s cur : List Char), (∀ c ∈ tok, isspace c = false) →
    wsTokensAux (tok ++ s) cur = wsTokensAux s (tok.reverse ++ cur) := by
  intro tok
  induction tok with
  | nil => intro s cur _; rfl
  | cons c tok ih =>
    intro s cur h
    have hc : isspace c = false := h c (List.mem_cons_self _ _)
    have := ih s (c :: cur) (fun x hx => h x (List.mem_cons_of_mem _ hx))
    simp only [List.cons_append, wsTokensAux, hc, Bool.false_eq_true, if_false]
    simpa using this

/-- The token that `iss >> type` extracts: after leading white space, the
characters up to the next white space or the end of the text; nothing from
a text of white space only. -/
theorem firstToken_spec :
    (∀ ws tok rest : List Char, (∀ c ∈ ws, isspace c = true) → tok ≠ [] →
      (∀ c ∈ tok, isspace c = false) →
      (rest = [] ∨ ∃ c r, rest = c :: r ∧ isspace c = true) →
      Protocol.firstToken (ws ++ tok ++ rest) = tok) ∧
    (∀ ws : List Char, (∀ c ∈ ws, isspace c = true) → Protocol.firstToken ws = []) := by
  constructor
  · intro ws tok rest hws hne htok hrest
    have hcur : tok.reverse ++ [] ≠ [] := by simpa using hne
    unfold Protocol.firstToken wsTokens
    rw [List.append_assoc, wsTokensAux_skip ws _ hws, wsTokensAux_token tok rest [] htok]
    rcases hrest with hnil | ⟨c, r, hcr, hc⟩
    · subst hnil
      simp only [wsTokensAux, hcur, if_false]
      simp
    · subst hcr
      simp only [wsTokensAux, hc, if_true, hcur, if_false]
      simp
  · intro ws hws
    have := wsTokensAux_skip ws [] hws
    rw [List.append_nil] at this
    unfold Protocol.firstToken wsTokens
    rw [this]
    rfl

theorem Protocol.sendMessage_unregistered (p : Protocol) (m : Message)
    (h : p.getNode m.receiverId = none) : p.sendMessage m = .ok (p, []) := by
  have h' : mapFind m.receiverId p.nodes = none := h
  simp [Protocol.sendMessage, h']

/-- What `sendMessage` does with a message whose receiver is registered. -/
theorem Protocol.sendMessage_registered (p : Protocol) (m : Message) (r : Node)
    (h : p.getNode m.receiverId = some r) :
    p.sendMessage m =
      if m.type = MessageType.TASK_ASSIGNMENT then
        .ok ({ nodes := mapModify m.receiverId
                (fun n => n.assignInstructionType (Protocol.firstToken m.payload)) p.nodes },
             [Event.messageSent m])
      else if m.type = MessageType.INSTRUCTION_EXECUTE then
        match stoi m.payload with
        | .error e => .error e
        | .ok g => .ok (p, Event.messageSent m :: (r.executeInstruction g).2)
      else if m.type = MessageType.DISCONNECT then
        .ok ({ nodes := mapModify m.receiverId (fun n => n.disconnect) p.nodes },
             [Event.messageSent m])
      else .ok (p, [Event.messageSent m]) := by
  have h' : mapFind m.receiverId p.nodes = some r := h
  have hid : ∀ g, mapModify m.receiverId (fun n => (n.executeInstruction g).1) p.nodes
      = p.nodes := fun g => mapModify_id _ _ _ (fun _ => rfl)
  simp only [Protocol.sendMessage, Protocol.processMessage, h', Option.isSome_some, if_true]
  by_cases h1 : m.type = MessageType.TASK_ASSIGNMENT
  · simp only [h1, if_true]
  · simp only [h1, if_false]
    by_cases h2 : m.type = MessageType.INSTRUCTION_EXECUTE
    · simp only [h2, if_true]
      cases stoi m.payload with
      | error e => rfl
      | ok g => simp only [hid]
    · simp only [h2, if_false]
      by_cases h3 : m.type = MessageType.DISCONNECT
      · simp only [h3, if_true]
      · simp only [h3, if_false]

theorem Protocol.getNode_modify (p : Protocol) (k x : List Char) (f : Node → Node) :
    (Protocol.mk (mapModify k f p.nodes)).getNode x =
      if x = k then (p.getNode x).map f else p.getNode x := by
  by_cases hx : x = k
  · subst hx
    simp only [Protocol.getNode, mapFind_mapModify_self, if_true]
  · simp only [Protocol.getNode, mapFind_mapModify_ne _ _ _ _ hx, hx, if_false]

theorem Protocol.discoverNodes_modify (p : Protocol) (k : List Char) (f : Node → Node) :
    (Protocol.mk (mapModify k f p.nodes)).discoverNodes = p.discoverNodes := by
  simp [Protocol.discoverNodes, keys_mapModify]

/-- C11: `Protocol::sendMessage` changes nothing when the receiver is not
registered. For a registered receiver: a `TASK_ASSIGNMENT` sets the assigned
type of the receiver to the first token of the payload and nothing else; a
`DISCONNECT` clears the active flag of the receiver and nothing else; an
`INSTRUCTION_EXECUTE` either throws from `std::stoi` or leaves the protocol as
it was; every other kind leaves the protocol as it was; and in all cases
every node other than the receiver, and the set of ids, is unchanged. -/
theorem C11_route_frame (p : Protocol) (m : Message) :
    (p.getNode m.receiverId = none → p.sendMessage m = .ok (p, [])) ∧
    (∀ r, p.getNode m.receiverId = some r →
      (m.type = MessageType.TASK_ASSIGNMENT →
        ∃ p', p.sendMessage m = .ok (p', [Event.messageSent m]) ∧
          p'.getNode m.receiverId =
            some { r with assignedType := Protocol.firstToken m.payload } ∧
          p'.discoverNodes = p.discoverNodes ∧
          ∀ x, x ≠ m.receiverId → p'.getNode x = p.getNode x) ∧
      (m.type = MessageType.DISCONNECT →
        ∃ p', p.sendMessage m = .ok (p', [Event.messageSent m]) ∧
          p'.getNode m.receiverId = some { r with isActive := false } ∧
          p'.discoverNodes = p.discoverNodes ∧
          ∀ x, x ≠ m.receiverId → p'.getNode x = p.getNode x) ∧
      (m.type = MessageType.INSTRUCTION_EXECUTE →
        (∀ e, stoi m.payload = .error e → p.sendMessage m = .error e) ∧
        (∀ g, stoi m.payload = .ok g →
          p.sendMessage m = .ok (p, Event.messageSent m :: (r.executeInstruction g).2))) ∧
      (m.type ≠ MessageType.TASK_ASSIGNMENT → m.type ≠ MessageType.INSTRUCTION_EXECUTE →
        m.type ≠ MessageType.DISCONNECT → p.sendMessage m = .ok (p, [Event.messageSent m]))) ∧
    (∀ ws tok rest : List Char, (∀ c ∈ ws, isspace c = true) → tok ≠ [] →
      (∀ c ∈ tok, isspace c = false) →
      (rest = [] ∨ ∃ c r, rest = c :: r ∧ isspace c = true) →
      Protocol.firstToken (ws ++ tok ++ rest) = tok) := by
  refine ⟨Protocol.sendMessage_unregistered p m, ?_, firstToken_spec.1⟩
  intro r hr
  have heq := Protocol.sendMessage_registered p m r hr
  refine ⟨?_, ?_, ?_, ?_⟩
  · intro ht
    refine ⟨_, by rw [heq, if_pos ht], ?_, Protocol.discoverNodes_modify _ _ _, ?_⟩
    · rw [Protocol.getNode_modify, if_pos rfl, hr]
      rfl
    · intro x hx
      rw [Protocol.getNode_modify, if_neg hx]
  · intro ht
    have h1 : m.type ≠ MessageType.TASK_ASSIGNMENT := by rw [ht]; decide
    have h2 : m.type ≠ MessageType.INSTRUCTION_EXECUTE := by rw [ht]; decide
    refine ⟨_, by rw [heq, if_neg h1, if_neg h2, if_pos ht], ?_,
      Protocol.discoverNodes_modify _ _ _, ?_⟩
    · rw [Protocol.getNode_modify, if_pos rfl, hr]
      rfl
    · intro x hx
      rw [Protocol.getNode_modify, if_neg hx]
  · intro ht
    have h1 : m.type ≠ MessageType.TASK_ASSIGNMENT := by rw [ht]; decide
    rw [heq, if_neg h1, if_pos ht]
    constructor
    · intro e he
      rw [he]
    · intro g hg
      rw [hg]
  · intro h1 h2 h3
    rw [heq, if_neg h1, if_neg h2, if_neg h3]

/-- The frame of `sendMessage`: the ids are the same, and every node keeps
its id and its connection list, stays inactive if it was, and is untouched
unless it is the receiver. -/
theorem Protocol.sendMessage_frame (p p' : Protocol) (m : Message) (ev : List Event)
    (h : p.sendMessage m = .ok (p', ev)) :
    p'.discoverNodes = p.discoverNodes ∧
    ∀ x n, p.getNode x = some n → ∃ n', p'.getNode x = some n' ∧
      n'.connectedNodes = n.connectedNodes ∧ n'.nodeId = n.nodeId ∧
      (n.isActive = false → n'.isActive = false) ∧ (x ≠ m.receiverId → n' = n) := by
  have hsame : ∀ q : Protocol, q = p → q.discoverNodes = p.discoverNodes ∧
      ∀ x n, p.getNode x = some n → ∃ n', q.getNode x = some n' ∧
        n'.connectedNodes = n.connectedNodes ∧ n'.nodeId = n.nodeId ∧
        (n.isActive = false → n'.isActive = false) ∧ (x ≠ m.receiverId → n' = n) := by
    intro q hq
    subst hq
    exact ⟨rfl, fun x n hn => ⟨n, hn, rfl, rfl, fun h => h, fun _ => rfl⟩⟩
  have hmod : ∀ f : Node → Node,
      (∀ n, (f n).connectedNodes = n.connectedNodes ∧ (f n).nodeId = n.nodeId ∧
        (n.isActive = false → (f n).isActive = false)) →
      (Protocol.mk (mapModify m.receiverId f p.nodes)).discoverNodes = p.discoverNodes ∧
      ∀ x n, p.getNode x = some n →
        ∃ n', (Protocol.mk (mapModify m.receiverId f p.nodes)).getNode x = some n' ∧
          n'.connectedNodes = n.connectedNodes ∧ n'.nodeId = n.nodeId ∧
          (n.isActive = false → n'.isActive = false) ∧ (x ≠ m.receiverId → n' = n) := by
    intro f hf
    refine ⟨Protocol.discoverNodes_modify _ _ _, ?_⟩
    intro x n hn
    by_cases hx : x = m.receiverId
    · refine ⟨f n, ?_, (hf n).1, (hf n).2.1, (hf n).2.2, fun hne => absurd hx hne⟩
      rw [Protocol.getNode_modify, if_pos hx, hn]
      rfl
    · refine ⟨n, ?_, rfl, rfl, fun h => h, fun _ => rfl⟩
      rw [Protocol.getNode_modify, if_neg hx, hn]
  cases hr : p.getNode m.receiverId with
  | none =>
    rw [Protocol.sendMessage_unregistered p m hr] at h
    simp only [Except.ok.injEq, Prod.mk.injEq] at h
    exact hsame p' h.1.symm
  | some r =>
    rw [Protocol.sendMessage_registered p m r hr] at h
    by_cases h1 : m.type = MessageType.TASK_ASSIGNMENT
    · simp only [h1, if_true, Except.ok.injEq, Prod.mk.injEq] at h
      rw [← h.1]
      exact hmod _ (fun n => ⟨rfl, rfl, fun hn => hn⟩)
    · simp only [h1, if_false] at h
      by_cases h2 : m.type = MessageType.INSTRUCTION_EXECUTE
      · simp only [h2, if_true] at h
        cases hs : stoi m.payload with
        | error e =>
          rw [hs] at h
          cases h
        | ok g =>
          rw [hs] at h
          simp only [Except.ok.injEq, Prod.mk.injEq] at h
          exact hsame p' h.1.symm
      · simp only [h2, if_false] at h
        by_cases h3 : m.type = MessageType.DISCONNECT
        · simp only [h3, if_true, Except.ok.injEq, Prod.mk.injEq] at h
          rw [← h.1]
          exact hmod _ (fun n => ⟨rfl, rfl, fun _ => rfl⟩)
        · simp only [h3, if_false, Except.ok.injEq, Prod.mk.injEq] at h
          exact hsame p' h.1.symm

/-! ## The active flag and teardown -/

theorem Protocol.Frame.frame_refl (p : Protocol) : p.Frame p :=
  ⟨rfl, fun _ n h => ⟨n, h, rfl, rfl, fun hn => hn⟩⟩

theorem Protocol.Frame.frame_trans {p q r : Protocol} (h₁ : p.Frame q) (h₂ : q.Frame r) :
    p.Frame r := by
  refine ⟨h₂.1.trans h₁.1, ?_⟩
  intro x n hn
  obtain ⟨n₁, hq, c₁, i₁, a₁⟩ := h₁.2 x n hn
  obtain ⟨n₂, hr, c₂, i₂, a₂⟩ := h₂.2 x n₁ hq
  exact ⟨n₂, hr, c₂.trans c₁, i₂.trans i₁, fun ha => a₂ (a₁ ha)⟩

theorem Protocol.sendMessage_Frame (p p' : Protocol) (m : Message) (ev : List Event)
    (h : p.sendMessage m = .ok (p', ev)) : p.Frame p' := by
  obtain ⟨h1, h2⟩ := Protocol.sendMessage_frame p p' m ev h
  refine ⟨h1, ?_⟩
  intro x n hn
  obtain ⟨n', hn', hc, hi, ha, _⟩ := h2 x n hn
  exact ⟨n', hn', hc, hi, ha⟩

theorem Protocol.processMessage_Frame (p p' : Protocol) (m : Message) (ev : List Event)
    (h : p.processMessage m = .ok (p', ev)) : p.Frame p' := by
  cases hr : mapFind m.receiverId p.nodes with
  | none =>
    simp only [Protocol.processMessage, hr, Except.ok.injEq, Prod.mk.injEq] at h
    rw [← h.1]
    exact Protocol.Frame.frame_refl p
  | some r =>
    apply Protocol.sendMessage_Frame p p' m (Event.messageSent m :: ev)
    simp only [Protocol.sendMessage, hr, Option.isSome_some, if_true, h]

theorem Protocol.Extends.isActive {p q : Protocol} (h : p.Extends q) (x : List Char) (n : Node)
    (hn : p.getNode x = some n) :
    ∃ n', q.getNode x = some n' ∧ n'.isActive = n.isActive ∧ n'.nodeId = n.nodeId := by
  obtain ⟨ex, ty, its, hq⟩ := h.2 x n hn
  exact ⟨_, hq, rfl, rfl⟩

theorem Protocol.establishConnection_extends (p : Protocol) (a b : List Char) :
    p.Extends (p.establishConnection a b).2 := by
  cases hb : (p.establishConnection a b).1 with
  | false =>
    rw [Protocol.establishConnection_of_unregistered p a b hb]
    exact Protocol.Extends.refl p
  | true =>
    refine ⟨Protocol.establishConnection_discoverNodes p a b, ?_⟩
    intro x n hn
    refine ⟨(if x = a then [b] else []) ++ (if x = b then [a] else []), n.assignedType,
      n.assignedInstructions, ?_⟩
    rw [Protocol.establishConnection_getNode p a b x hb, hn]
    simp [Node.updated]

theorem TaskManager.assignLoop_extends (tm : TaskManager) (types : List (List Char))
    (p : Protocol) : ∀ n, n ≤ p.discoverNodes.length →
    p.Extends ((List.range n).foldl (tm.assignStep types p.discoverNodes) p) := by
  intro n
  induction n with
  | zero => intro _; exact Protocol.Extends.refl p
  | succ n ih =>
    intro hlen
    have hprev := ih (by omega)
    rw [List.range_succ, List.foldl_append]
    simp only [List.foldl_cons, List.foldl_nil]
    have hn : n < p.discoverNodes.length := by omega
    have hmem : p.discoverNodes.getD n [] ∈ p.discoverNodes := by
      rw [List.getD_eq_getElem _ _ hn]
      exact List.getElem_mem hn
    obtain ⟨s1, s2, _⟩ := TaskManager.assignStep_spec tm types p.discoverNodes
      ((List.range n).foldl (tm.assignStep types p.discoverNodes) p) n
      (by rw [hprev.1]; exact hmem) (fun b hb => by rw [hprev.1]; exact hb)
    refine hprev.trans ⟨s1, ?_⟩
    intro y m hm
    obtain ⟨e, he⟩ := s2 y m hm
    exact ⟨e, _, _, he⟩

/-- Whatever it returns, `assignTasksToNodes` only lets connection lists grow
and sets types and instructions. -/
theorem TaskManager.assignTasksToNodes_extends (tm : TaskManager) (p : Protocol) :
    p.Extends (tm.assignTasksToNodes p).2 := by
  cases hb : (tm.assignTasksToNodes p).1 with
  | false =>
    have : (tm.assignTasksToNodes p).2 = p := by
      unfold TaskManager.assignTasksToNodes at hb ⊢
      cases hc : tm.coordinatorNode with
      | none => rfl
      | some c =>
        simp only [hc] at hb ⊢
        by_cases hlt : p.discoverNodes.length < tm.getRequiredInstructionTypes.length
        · simp [hlt]
        · simp [hlt] at hb
    rw [this]
    exact Protocol.Extends.refl p
  | true =>
    have hassign : tm.assignTasksToNodes p = (true, (tm.assignTasksToNodes p).2) := by
      rw [← hb]
    obtain ⟨_, hlen, hp'⟩ := TaskManager.assign_true tm p _ hassign
    rw [hp']
    exact TaskManager.assignLoop_extends tm _ p _ hlen

theorem TaskManager.dispatchLoop_Frame (tm : TaskManager) (inst : Instruction) :
    ∀ (ids : List (List Char)) (p p' : Protocol) (ev : List Event),
    tm.dispatchLoop inst ids p = .ok (p', ev) → p.Frame p' := by
  intro ids
  induction ids with
  | nil =>
    intro p p' ev h
    simp only [TaskManager.dispatchLoop, Except.ok.injEq, Prod.mk.injEq] at h
    rw [← h.1]
    exact Protocol.Frame.frame_refl p
  | cons k ids ih =>
    intro p p' ev h
    simp only [TaskManager.dispatchLoop] at h
    cases hk : p.getNode k with
    | none =>
      simp only [hk] at h
      exact ih p p' ev h
    | some node =>
      simp only [hk] at h
      by_cases ht : node.getAssignedType = inst.type
      · simp only [ht, if_true] at h
        cases hh : node.hasInstructionAtOrder inst.globalOrder with
        | false =>
          simp only [hh, Bool.false_eq_true, if_false] at h
          exact ih p p' ev h
        | true =>
          simp only [hh, if_true] at h
          cases hc : tm.coordinatorNode with
          | none =>
            simp only [hc] at h
            cases h
          | some c =>
            simp only [hc] at h
            exact Protocol.sendMessage_Frame p p' _ ev h
      · simp only [ht, if_false] at h
        exact ih p p' ev h

theorem TaskManager.executeLoop_Frame (tm : TaskManager) :
    ∀ (items : List Instruction) (p p' : Protocol) (ev : List Event),
    tm.executeLoop items p = .ok (p', ev) → p.Frame p' := by
  intro items
  induction items with
  | nil =>
    intro p p' ev h
    simp only [TaskManager.executeLoop, Except.ok.injEq, Prod.mk.injEq] at h
    rw [← h.1]
    exact Protocol.Frame.frame_refl p
  | cons inst items ih =>
    intro p p' ev h
    simp only [TaskManager.executeLoop] at h
    cases h1 : tm.dispatchLoop inst p.discoverNodes p with
    | error e =>
      simp only [h1] at h
      cases h
    | ok r1 =>
      obtain ⟨p1, ev1⟩ := r1
      simp only [h1] at h
      cases h2 : tm.executeLoop items p1 with
      | error e =>
        simp only [h2] at h
        cases h
      | ok r2 =>
        obtain ⟨p2, ev2⟩ := r2
        simp only [h2, Except.ok.injEq, Prod.mk.injEq] at h
        rw [← h.1]
        exact (TaskManager.dispatchLoop_Frame tm inst _ p p1 ev1 h1).frame_trans (ih p1 p2 ev2 h2)

theorem TaskManager.cleanupLoop_Frame (tm : TaskManager) :
    ∀ (ids : List (List Char)) (p p' : Protocol) (ev : List Event),
    tm.cleanupLoop ids p = .ok (p', ev) → p.Frame p' := by
  intro ids
  induction ids with
  | nil =>
    intro p p' ev h
    simp only [TaskManager.cleanupLoop, Except.ok.injEq, Prod.mk.injEq] at h
    rw [← h.1]
    exact Protocol.Frame.frame_refl p
  | cons k ids ih =>
    intro p p' ev h
    simp only [TaskManager.cleanupLoop] at h
    cases hc : tm.coordinatorNode with
    | none =>
      simp only [hc] at h
      cases h
    | some c =>
      simp only [hc] at h
      cases h1 : p.sendMessage ⟨MessageType.DISCONNECT, c.getId, k, [], 0⟩ with
      | error e =>
        simp only [h1] at h
        cases h
      | ok r1 =>
        obtain ⟨p1, ev1⟩ := r1
        simp only [h1] at h
        cases h2 : tm.cleanupLoop ids p1 with
        | error e =>
          simp only [h2] at h
          cases h
        | ok r2 =>
          obtain ⟨p2, ev2⟩ := r2
          simp only [h2, Except.ok.injEq, Prod.mk.injEq] at h
          rw [← h.1]
          exact (Protocol.sendMessage_Frame p p1 _ ev1 h1).frame_trans (ih p1 p2 ev2 h2)

/-- C16: a node is created active and `disconnect` makes it inactive; a second
`disconnect` changes nothing; and an inactive node stays inactive under every
method of `Node` that writes its state (`hasInstructionAtOrder` writes
nothing), under every message routed by `sendMessage` or `processMessage`,
and under `establishConnection`, `assignTasksToNodes`, `executeInstructions`
and `cleanup`. -/
theorem C16_active_terminal :
    (∀ id, (Node.new id).isActive = true) ∧
    (∀ n : Node, n.disconnect.isActive = false) ∧
    (∀ n : Node, n.disconnect.disconnect = n.disconnect) ∧
    (∀ n : Node, n.isActive = false →
      (∀ t, (n.assignInstructionType t).isActive = false) ∧
      (∀ k, (n.addConnectedNode k).isActive = false) ∧
      (∀ its, (n.assignInstructions its).isActive = false) ∧
      (∀ g, (n.executeInstruction g).1.isActive = false) ∧
      (∀ b, (n.setCoordinator b).isActive = false) ∧
      n.disconnect.isActive = false) ∧
    (∀ (p p' : Protocol) (x : List Char) (n : Node),
      p.getNode x = some n → n.isActive = false →
      ((∃ m ev, p.sendMessage m = .ok (p', ev)) ∨ (∃ m ev, p.processMessage m = .ok (p', ev)) ∨
        (∃ a b, p' = (p.establishConnection a b).2) ∨
        (∃ tm : TaskManager, p' = (tm.assignTasksToNodes p).2) ∨
        (∃ (tm : TaskManager) (ev : List Event), tm.executeInstructions p = .ok (p', ev)) ∨
        (∃ (tm : TaskManager) (ev : List Event), tm.cleanup p = .ok (p', ev))) →
      ∃ n', p'.getNode x = some n' ∧ n'.isActive = false) := by
  refine ⟨fun _ => rfl, fun _ => rfl, fun _ => rfl, ?_, ?_⟩
  · intro n hn
    exact ⟨fun _ => hn, fun _ => hn, fun _ => hn, fun _ => hn, fun _ => hn, rfl⟩
  · intro p p' x n hx hn hop
    have hframe : ∀ q, p.Frame q → ∃ n', q.getNode x = some n' ∧ n'.isActive = false := by
      intro q hq
      obtain ⟨n', hn', _, _, ha⟩ := hq.2 x n hx
      exact ⟨n', hn', ha hn⟩
    have hext : ∀ q, p.Extends q → ∃ n', q.getNode x = some n' ∧ n'.isActive = false := by
      intro q hq
      obtain ⟨n', hn', ha, _⟩ := hq.isActive x n hx
      exact ⟨n', hn', ha.trans hn⟩
    rcases hop with ⟨m, ev, h⟩ | ⟨m, ev, h⟩ | ⟨a, b, h⟩ | ⟨tm, h⟩ | ⟨tm, ev, h⟩ | ⟨tm, ev, h⟩
    · exact hframe p' (Protocol.sendMessage_Frame p p' m ev h)
    · exact hframe p' (Protocol.processMessage_Frame p p' m ev h)
    · rw [h]; exact hext _ (Protocol.establishConnection_extends p a b)
    · rw [h]; exact hext _ (TaskManager.assignTasksToNodes_extends tm p)
    · exact hframe p' (TaskManager.executeLoop_Frame tm _ p p' ev h)
    · exact hframe p' (TaskManager.cleanupLoop_Frame tm _ p p' ev h)

theorem TaskManager.cleanupLoop_spec (tm : TaskManager) (c : Node)
    (hc : tm.coordinatorNode = some c) : ∀ (ids : List (List Char)) (p : Protocol),
    (∀ k ∈ ids, k ∈ p.discoverNodes) →
    ∃ p', tm.cleanupLoop ids p = .ok (p', ids.map (fun k => Event.messageSent (disconnectMsg c k))) ∧
      p'.discoverNodes = p.discoverNodes ∧
      ∀ x n, p.getNode x = some n →
        p'.getNode x = some (if x ∈ ids then { n with isActive := false } else n) := by
  intro ids
  induction ids with
  | nil =>
    intro p _
    exact ⟨p, rfl, rfl, fun x n hn => by simpa using hn⟩
  | cons k ids ih =>
    intro p hids
    obtain ⟨r, hr⟩ := (Protocol.getNode_isSome_iff p k).2 (hids k (List.mem_cons_self _ _))
    have hsend : p.sendMessage ⟨MessageType.DISCONNECT, c.getId, k, [], 0⟩ =
        .ok ({ nodes := mapModify k (fun n => n.disconnect) p.nodes },
          [Event.messageSent (disconnectMsg c k)]) := by
      rw [Protocol.sendMessage_registered p _ r hr]
      rfl
    have hd1 := Protocol.discoverNodes_modify p k (fun n => n.disconnect)
    obtain ⟨p', hp', hd', hnodes⟩ := ih { nodes := mapModify k (fun n => n.disconnect) p.nodes }
      (fun j hj => by rw [hd1]; exact hids j (List.mem_cons_of_mem _ hj))
    refine ⟨p', ?_, hd'.trans hd1, ?_⟩
    · simp only [TaskManager.cleanupLoop, hc, hsend, hp', List.map_cons, List.singleton_append]
    · intro x n hn
      by_cases hx : x = k
      · have h1 : (Protocol.mk (mapModify k (fun n => n.disconnect) p.nodes)).getNode x
            = some n.disconnect := by
          rw [Protocol.getNode_modify, if_pos hx, hn]; rfl
        have hmem : x ∈ k :: ids := by rw [hx]; exact List.mem_cons_self _ _
        rw [hnodes x _ h1, if_pos hmem]
        by_cases hm : x ∈ ids
        · rw [if_pos hm]; rfl
        · rw [if_neg hm]; rfl
      · have h1 : (Protocol.mk (mapModify k (fun n => n.disconnect) p.nodes)).getNode x
            = some n := by
          rw [Protocol.getNode_modify, if_neg hx, hn]
        rw [hnodes x _ h1]
        by_cases hm : x ∈ ids
        · have hmem : x ∈ k :: ids := List.mem_cons_of_mem _ hm
          rw [if_pos hm, if_pos hmem]
        · have hmem : ¬ x ∈ k :: ids := by
            intro hmem
            rcases List.mem_cons.1 hmem with e | e
            · exact hx e
            · exact hm e
          rw [if_neg hm, if_neg hmem]

/-- C15: with a coordinator designated, `cleanup` returns having sent one
`DISCONNECT` message to each registered id, in the ascending order of
`discoverNodes` and nothing else; afterwards the ids are the same, and every
registered node is inactive and otherwise exactly as before. -/
theorem C15_cleanup (tm : TaskManager) (c : Node) (p : Protocol)
    (hc : tm.coordinatorNode = some c) (hwf : p.WF) :
    ∃ p', tm.cleanup p =
        .ok (p', p.discoverNodes.map (fun k => Event.messageSent (disconnectMsg c k))) ∧
      p.discoverNodes.Pairwise (fun a b => strLt a b = true) ∧
      p'.discoverNodes = p.discoverNodes ∧
      ∀ x n, p.getNode x = some n → p'.getNode x = some { n with isActive := false } := by
  obtain ⟨p', h1, h2, h3⟩ := TaskManager.cleanupLoop_spec tm c hc p.discoverNodes p
    (fun _ hk => hk)
  refine ⟨p', h1, hwf.1, h2, ?_⟩
  intro x n hn
  rw [h3 x n hn, if_pos ((Protocol.getNode_isSome_iff p x).1 ⟨n, hn⟩)]

theorem C15_cleanup_witness :
    (∃ p', (TaskManager.ofLine sampleCoordinator sampleLine).cleanup
        ((TaskManager.ofLine sampleCoordinator sampleLine).assignTasksToNodes
          (sampleProtocol 3)).2 =
        .ok (p', ((TaskManager.ofLine sampleCoordinator sampleLine).assignTasksToNodes
          (sampleProtocol 3)).2.discoverNodes.map
            (fun k => Event.messageSent (disconnectMsg sampleCoordinator k))) ∧
      ((TaskManager.ofLine sampleCoordinator sampleLine).assignTasksToNodes
          (sampleProtocol 3)).2.discoverNodes.Pairwise (fun a b => strLt a b = true) ∧
      p'.discoverNodes = ((TaskManager.ofLine sampleCoordinator sampleLine).assignTasksToNodes
          (sampleProtocol 3)).2.discoverNodes ∧
      ∀ x n, ((TaskManager.ofLine sampleCoordinator sampleLine).assignTasksToNodes
          (sampleProtocol 3)).2.getNode x = some n →
        p'.getNode x = some { n with isActive := false }) ∧
    (match (TaskManager.ofLine sampleCoordinator sampleLine).cleanup
        ((TaskManager.ofLine sampleCoordinator sampleLine).assignTasksToNodes
          (sampleProtocol 3)).2 with
      | .ok (p', log) =>
        (p'.nodes.map (fun kn => (kn.1, kn.2.isActive, kn.2.assignedType)),
          (sentMessages log).map (fun m => (m.type, m.receiverId)))
      | .error _ => ([], []))
      = ([("Node1".toList, false, "a".toList), ("Node2".toList, false, "b".toList),
          ("Node3".toList, false, "c".toList)],
         [(MessageType.DISCONNECT, "Node1".toList), (MessageType.DISCONNECT, "Node2".toList),
          (MessageType.DISCONNECT, "Node3".toList)]) :=
  ⟨C15_cleanup (TaskManager.ofLine sampleCoordinator sampleLine) sampleCoordinator
    ((TaskManager.ofLine sampleCoordinator sampleLine).assignTasksToNodes (sampleProtocol 3)).2
    (by decide) (by decide), by decide⟩

/-! ## Registration and discovery -/

theorem sorted_keys_ext (l₁ l₂ : List (List Char))
    (h₁ : l₁.Pairwise (fun a b => strLt a b = true))
    (h₂ : l₂.Pairwise (fun a b => strLt a b = true))
    (hmem : ∀ x, x ∈ l₁ ↔ x ∈ l₂) : l₁ = l₂ := by
  haveI : IsAntisymm (List Char) (fun a b => strLt a b = true) :=
    ⟨fun a b hab hba => by
      have := strLt_asymm a b hab
      rw [hba] at this
      exact absurd this (by decide)⟩
  exact List.eq_of_perm_of_sorted
    ((List.perm_ext_iff_of_nodup (pairwise_strLt_nodup _ h₁) (pairwise_strLt_nodup _ h₂)).2 hmem)
    h₁ h₂

theorem Protocol.getNode_registerNode (p : Protocol) (node : Node) (x : List Char) :
    (p.registerNode node).getNode x = if x = node.nodeId then some node else p.getNode x := by
  by_cases hx : x = node.nodeId
  · subst hx
    simp only [Protocol.registerNode, Protocol.getNode, Node.getId, mapFind_mapInsert_self,
      if_true]
  · simp only [Protocol.registerNode, Protocol.getNode, Node.getId,
      mapFind_mapInsert_ne _ _ _ _ hx, hx, if_false]

theorem Protocol.mem_discoverNodes_registerNode (p : Protocol) (node : Node) (x : List Char) :
    x ∈ (p.registerNode node).discoverNodes ↔ x = node.nodeId ∨ x ∈ p.discoverNodes :=
  mem_keys_mapInsert node.nodeId x node p.nodes

theorem foldl_registerNode_spec : ∀ (ns : List Node) (p : Protocol), p.WF →
    (ns.foldl Protocol.registerNode p).WF ∧
    (∀ x, x ∈ (ns.foldl Protocol.registerNode p).discoverNodes ↔
      (x ∈ p.discoverNodes ∨ ∃ n ∈ ns, n.nodeId = x)) ∧
    (∀ x, (ns.foldl Protocol.registerNode p).getNode x =
      match ns.reverse.find? (fun n => decide (n.nodeId = x)) with
      | some n => some n
      | none => p.getNode x) := by
  intro ns
  induction ns with
  | nil => intro p h; exact ⟨h, by simp, by simp⟩
  | cons n ns ih =>
    intro p h
    obtain ⟨h1, h2, h3⟩ := ih (p.registerNode n) (Protocol.wf_registerNode p n h)
    refine ⟨h1, ?_, ?_⟩
    · intro x
      simp only [List.foldl_cons]
      rw [h2 x, Protocol.mem_discoverNodes_registerNode]
      constructor
      · rintro ((e | hm) | ⟨m, hm, hmx⟩)
        · exact Or.inr ⟨n, List.mem_cons_self _ _, e.symm⟩
        · exact Or.inl hm
        · exact Or.inr ⟨m, List.mem_cons_of_mem _ hm, hmx⟩
      · rintro (hm | ⟨m, hm, hmx⟩)
        · exact Or.inl (Or.inr hm)
        · rcases List.mem_cons.1 hm with e | hm
          · exact Or.inl (Or.inl (by rw [← hmx, e]))
          · exact Or.inr ⟨m, hm, hmx⟩
    · intro x
      simp only [List.foldl_cons, List.reverse_cons, List.find?_append]
      rw [h3 x, Protocol.getNode_registerNode]
      cases ns.reverse.find? (fun n => decide (n.nodeId = x)) with
      | some m => rfl
      | none =>
        by_cases hx : x = n.nodeId
        · simp [List.find?_cons, hx]
        · have hx' : ¬ n.nodeId = x := fun e => hx e.symm
          simp [List.find?_cons, hx, hx']

/-- C12: after any sequence of `registerNode` calls on an empty registry,
`discoverNodes` returns the ids of the registered nodes, each once, in
strictly ascending order, whatever the order of the calls; the node stored
under an id is the one registered last under it; and registering a node under
an id already present replaces that node and leaves the ids as they were. -/
theorem C12_discover_sorted (ns : List Node) :
    (registerAll ns).discoverNodes.Pairwise (fun a b => strLt a b = true) ∧
    (registerAll ns).discoverNodes.Nodup ∧
    (∀ x, x ∈ (registerAll ns).discoverNodes ↔ ∃ n ∈ ns, n.nodeId = x) ∧
    (∀ ns' : List Node, ns'.Perm ns →
      (registerAll ns').discoverNodes = (registerAll ns).discoverNodes) ∧
    (∀ x, (registerAll ns).getNode x = ns.reverse.find? (fun n => decide (n.nodeId = x))) ∧
    (∀ node : Node, node.nodeId ∈ (registerAll ns).discoverNodes →
      ((registerAll ns).registerNode node).discoverNodes = (registerAll ns).discoverNodes ∧
      ((registerAll ns).registerNode node).getNode node.nodeId = some node ∧
      ∀ x, x ≠ node.nodeId →
        ((registerAll ns).registerNode node).getNode x = (registerAll ns).getNode x) := by
  have hempty : ∀ x, x ∉ (Protocol.mk []).discoverNodes := by
    intro x h
    cases h
  have hspec : ∀ l : List Node, (registerAll l).WF ∧
      (∀ x, x ∈ (registerAll l).discoverNodes ↔ ∃ n ∈ l, n.nodeId = x) ∧
      (∀ x, (registerAll l).getNode x = l.reverse.find? (fun n => decide (n.nodeId = x))) := by
    intro l
    obtain ⟨hwf, hmem, hget⟩ := foldl_registerNode_spec l {} Protocol.wf_empty
    refine ⟨hwf, ?_, ?_⟩
    · intro x
      refine (hmem x).trans ⟨?_, fun h => Or.inr h⟩
      rintro (h | h)
      · exact absurd h (hempty x)
      · exact h
    · intro x
      refine (hget x).trans ?_
      cases l.reverse.find? (fun n => decide (n.nodeId = x)) with
      | some m => rfl
      | none => rfl
  obtain ⟨hwf, hmem, hget⟩ := hspec ns
  refine ⟨hwf.1, pairwise_strLt_nodup _ hwf.1, hmem, ?_, hget, ?_⟩
  · intro ns' hperm
    obtain ⟨hwf', hmem', _⟩ := hspec ns'
    refine sorted_keys_ext (registerAll ns').discoverNodes (registerAll ns).discoverNodes
      hwf'.1 hwf.1 ?_
    intro x
    rw [hmem' x, hmem x]
    constructor
    · rintro ⟨n, hn, hx⟩
      exact ⟨n, hperm.mem_iff.1 hn, hx⟩
    · rintro ⟨n, hn, hx⟩
      exact ⟨n, hperm.mem_iff.2 hn, hx⟩
  · intro node hnode
    have hwf2 := Protocol.wf_registerNode _ node hwf
    refine ⟨?_, ?_, ?_⟩
    · refine sorted_keys_ext ((registerAll ns).registerNode node).discoverNodes
        (registerAll ns).discoverNodes hwf2.1 hwf.1 ?_
      intro x
      rw [Protocol.mem_discoverNodes_registerNode]
      constructor
      · rintro (e | h)
        · rw [e]; exact hnode
        · exact h
      · exact fun h => Or.inr h
    · rw [Protocol.getNode_registerNode, if_pos rfl]
    · intro x hx
      rw [Protocol.getNode_registerNode, if_neg hx]

/-! ## Partition and parsing -/

/-- C13: after a load, the group stored in `instructionsByType` under a type
is the subsequence of `instructions` of that type, in the same order; the
stored groups are exactly these subsequences when not empty, so no group is
empty; every instruction is in exactly one group; and `instructions` is the
whole sequence, with the orders 0, 1, 2, ... -/
theorem C13_partition (c : Node) (line : List Char) (tm : TaskManager)
    (hload : (TaskManager.new (some c)).loadInstructions (some line) = .ok (true, tm)) :
    (∀ t, (mapFind t tm.instructionsByType).getD [] = itemsOfType t tm.instructions) ∧
    (∀ t, itemsOfType t tm.instructions = tm.instructions.filter (fun i => decide (i.type = t)) ∧
      (itemsOfType t tm.instructions).Sublist tm.instructions) ∧
    (∀ t g, (t, g) ∈ tm.instructionsByType ↔
      (g = itemsOfType t tm.instructions ∧ g ≠ [])) ∧
    (∀ i ∈ tm.instructions, ∃! tg, tg ∈ tm.instructionsByType ∧ i ∈ tg.2) ∧
    (∀ tg ∈ tm.instructionsByType, tg.2 ≠ []) ∧
    tm.instructions.map (fun i => i.globalOrder) =
      (List.range tm.instructions.length).map (fun (k : Nat) => (k : Int)) := by
  obtain ⟨_, hP, hord, _, _⟩ := TaskManager.loadInstructions_spec _ _ _ _ hload
  have hnd : (tm.instructionsByType.map Prod.fst).Nodup := pairwise_strLt_nodup _ hP.1
  have hgroup : ∀ t g, (t, g) ∈ tm.instructionsByType ↔
      (g = itemsOfType t tm.instructions ∧ g ≠ []) := by
    intro t g
    constructor
    · intro hm
      have hf := mapFind_of_mem t g _ hnd hm
      rw [hP.2 t] at hf
      by_cases he : itemsOfType t tm.instructions = []
      · rw [if_pos he] at hf
        cases hf
      · rw [if_neg he] at hf
        have := Option.some.inj hf
        exact ⟨this.symm, by rw [← this]; exact he⟩
    · rintro ⟨hg, hne⟩
      apply mapFind_mem
      rw [hP.2 t, if_neg (by rw [← hg]; exact hne), hg]
  refine ⟨fun t => hP.group t, fun t => ⟨rfl, List.filter_sublist _⟩, hgroup, ?_, ?_, ?_⟩
  · intro i hi
    have hmem : i ∈ itemsOfType i.type tm.instructions := by
      simp [itemsOfType, hi]
    refine ⟨(i.type, itemsOfType i.type tm.instructions),
      ⟨(hgroup _ _).2 ⟨rfl, List.ne_nil_of_mem hmem⟩, hmem⟩, ?_⟩
    rintro ⟨t, g⟩ ⟨htg, hig⟩
    obtain ⟨hg, _⟩ := (hgroup t g).1 htg
    have hit : i.type = t := by
      rw [hg] at hig
      simp only [itemsOfType, List.mem_filter, decide_eq_true_eq] at hig
      exact hig.2
    rw [hg, hit]
  · intro tg htg
    exact ((hgroup tg.1 tg.2).1 htg).2
  · have := ordersFrom_map _ 0 hord
    simpa using this

theorem C13_partition_witness :
    (TaskManager.ofLine sampleCoordinator sampleLine).instructionsByType.map
        (fun tg => (tg.1, tg.2.map (fun i => (i.id, i.globalOrder)))) =
      [("a".toList, [(1, 0), (2, 1), (3, 5), (4, 8)]),
        ("b".toList, [(1, 3), (2, 6), (3, 7), (4, 10)]),
        ("c".toList, [(1, 2), (2, 4), (3, 9)])] ∧
    ∀ tg ∈ (TaskManager.ofLine sampleCoordinator sampleLine).instructionsByType, tg.2 ≠ [] :=
  ⟨by decide, (C13_partition sampleCoordinator sampleLine
    (TaskManager.ofLine sampleCoordinator sampleLine) (by decide)).2.2.2.2.1⟩

theorem isdigit_isDigitChar (c : Char) (h : isdigit c = true) : IsDigitChar c := by
  simp only [isdigit, Bool.and_eq_true, decide_eq_true_eq] at h
  refine ⟨c.toNat - 48, by omega, ?_⟩
  have : 48 + (c.toNat - 48) = c.toNat := by omega
  rw [digitChar, this, Char.ofNat_toNat]

/-- For a text of decimal digits whose value is a value of `int`,
`std::stoi` returns that value. -/
theorem stoi_digits (ds : List Char) (hne : ds ≠ []) (hall : ds.all isdigit = true)
    (hr : (digitsVal ds : Int) ≤ INT_MAX) : stoi ds = .ok (digitsVal ds : Int) := by
  have hall' : ∀ c ∈ ds, isdigit c = true := by simpa using hall
  have hrange : InIntRange (digitsVal ds : Int) := by
    refine ⟨?_, hr⟩
    unfold INT_MIN
    omega
  have htake : ds.takeWhile isdigit = ds := List.takeWhile_eq_self_iff.2 hall'
  have hsd : stoiDigits false ds = .ok (digitsVal ds : Int) := by
    simp only [stoiDigits, htake, hne, if_false, Bool.false_eq_true]
    rw [if_pos hrange]
  cases ds with
  | nil => exact absurd rfl hne
  | cons c r =>
    have hc := isdigit_isDigitChar c (hall' c (List.mem_cons_self _ _))
    simp only [stoi, List.dropWhile_cons, hc.not_isspace, Bool.false_eq_true, if_false,
      hc.ne_minus, hc.ne_plus]
    exact hsd

theorem TaskManager.loadLoop_parsed : ∀ (toks : List (List Char)) (k : Nat)
    (tm : TaskManager),
    (∀ tok ∈ toks, 2 ≤ tok.length → IsItemToken tok) →
    ((k : Int) + ((toks.filter (fun tok => decide (2 ≤ tok.length))).length : Int) ≤ INT_MAX) →
    ∃ tm', TaskManager.loadLoop toks (k : Int) tm = .ok tm' ∧
      tm'.instructions = tm.instructions ++
        (((toks.filter (fun tok => decide (2 ≤ tok.length))).enumFrom k).map
          (fun ktok => (⟨ktok.2.take 1, (digitsVal (ktok.2.drop 1) : Int), (ktok.1 : Int)⟩ :
            Instruction))) := by
  intro toks
  induction toks with
  | nil =>
    intro k tm _ _
    exact ⟨tm, rfl, by simp⟩
  | cons tok toks ih =>
    intro k tm htok hcount
    by_cases hlen : 2 ≤ tok.length
    · have hfil : (tok :: toks).filter (fun tok => decide (2 ≤ tok.length)) =
          tok :: toks.filter (fun tok => decide (2 ≤ tok.length)) := by
        simp [hlen]
      rw [hfil] at hcount ⊢
      simp only [List.length_cons, Nat.cast_add, Nat.cast_one] at hcount
      obtain ⟨hdig, hval⟩ := htok tok (List.mem_cons_self _ _) hlen
      have hdne : tok.drop 1 ≠ [] := by
        intro e
        have := congrArg List.length e
        simp only [List.length_drop, List.length_nil] at this
        omega
      have hstoi := stoi_digits (tok.drop 1) hdne hdig hval
      have hk : ¬ ((k : Int) = INT_MAX) := by omega
      obtain ⟨tm', hl, hi⟩ := ih (k + 1)
        { tm with
          instructions := tm.instructions ++ [⟨tok.take 1, (digitsVal (tok.drop 1) : Int), k⟩]
          instructionsByType :=
            mapInsert (tok.take 1)
              ((mapFind (tok.take 1) tm.instructionsByType).getD [] ++
                [⟨tok.take 1, (digitsVal (tok.drop 1) : Int), k⟩])
              tm.instructionsByType }
        (fun t ht => htok t (List.mem_cons_of_mem _ ht))
        (by simp only [Nat.cast_add, Nat.cast_one]; omega)
      refine ⟨tm', ?_, ?_⟩
      · simp only [TaskManager.loadLoop, hlen, if_true, hstoi, hk, if_false]
        simpa using hl
      · rw [hi]
        simp
    · have hfil : (tok :: toks).filter (fun tok => decide (2 ≤ tok.length)) =
          toks.filter (fun tok => decide (2 ≤ tok.length)) := by
        simp [hlen]
      rw [hfil] at hcount ⊢
      obtain ⟨tm', hl, hi⟩ := ih k tm (fun t ht => htok t (List.mem_cons_of_mem _ ht)) hcount
      exact ⟨tm', by simp only [TaskManager.loadLoop, hlen, if_false]; exact hl, hi⟩

/-- C14 (as stated, refuted): the token `a99999999999` is a type character
followed by a decimal id, yet loading the line throws `std::out_of_range`
from `std::stoi` and no item is produced. -/
theorem C14_counterexample :
    wsTokens "a99999999999".toList = ["a99999999999".toList] ∧
    ("a99999999999".toList.drop 1).all isdigit = true ∧
    (TaskManager.new (some sampleCoordinator)).loadInstructions (some "a99999999999".toList)
      = .error Error.out_of_range := by
  decide

/-- C14 (amended): for every line whose tokens of at least two characters are
a type character followed by decimal digits with a value of type `int`, and
that has at most `INT_MAX` such tokens, loading succeeds and the items are
those tokens in input order, with type the first character, id the decimal
value of the rest, and order the position among the items, from 0: shorter
tokens are skipped and take no order. -/
theorem C14_loader (c : Option Node) (line : List Char)
    (htok : ∀ tok ∈ wsTokens line, 2 ≤ tok.length → IsItemToken tok)
    (hcount : (((wsTokens line).filter (fun tok => decide (2 ≤ tok.length))).length : Int)
      ≤ INT_MAX) :
    ∃ tm, (TaskManager.new c).loadInstructions (some line) = .ok (true, tm) ∧
      tm.instructions = parsedItems line ∧
      tm.instructions.length =
        ((wsTokens line).filter (fun tok => decide (2 ≤ tok.length))).length ∧
      tm.instructions.map (fun i => i.globalOrder) =
        (List.range tm.instructions.length).map (fun (k : Nat) => (k : Int)) := by
  obtain ⟨tm, hl, hi⟩ := TaskManager.loadLoop_parsed (wsTokens line) 0 (TaskManager.new c) htok
    (by simpa using hcount)
  have hl' : TaskManager.loadLoop (wsTokens line) 0 (TaskManager.new c) = .ok tm := by
    simpa using hl
  have hload : (TaskManager.new c).loadInstructions (some line) = .ok (true, tm) := by
    simp only [TaskManager.loadInstructions, hl']
  have hparsed : tm.instructions = parsedItems line := by
    rw [hi]
    simp [TaskManager.new, parsedItems]
  obtain ⟨_, _, hord, _, _⟩ := TaskManager.loadInstructions_spec _ _ _ _ hload
  refine ⟨tm, hload, hparsed, ?_, ?_⟩
  · rw [hparsed]
    simp [parsedItems]
  · have := ordersFrom_map _ 0 hord
    simpa using this

theorem C14_loader_witness :
    (∃ tm, (TaskManager.new (some sampleCoordinator)).loadInstructions (some sampleLine)
        = .ok (true, tm) ∧
      tm.instructions = parsedItems sampleLine ∧
      tm.instructions.length =
        ((wsTokens sampleLine).filter (fun tok => decide (2 ≤ tok.length))).length ∧
      tm.instructions.map (fun i => i.globalOrder) =
        (List.range tm.instructions.length).map (fun (k : Nat) => (k : Int))) ∧
    (parsedItems sampleLine).length = 11 ∧
    (parsedItems sampleLine).map (fun i => i.globalOrder) = [0, 1, 2, 3, 4, 5, 6, 7, 8, 9, 10] ∧
    (parsedItems sampleLine).map (fun i => (i.type, i.id)) =
      [("a".toList, 1), ("a".toList, 2), ("c".toList, 1), ("b".toList, 1), ("c".toList, 2),
        ("a".toList, 3), ("b".toList, 2), ("b".toList, 3), ("a".toList, 4), ("c".toList, 3),
        ("b".toList, 4)] ∧
    (itemsOfType "a".toList (parsedItems sampleLine)).length = 4 ∧
    (itemsOfType "b".toList (parsedItems sampleLine)).length = 4 ∧
    (itemsOfType "c".toList (parsedItems sampleLine)).length = 3 ∧
    parsedItems "a1 x b22  7 c3".toList =
      [⟨"a".toList, 1, 0⟩, ⟨"b".toList, 22, 1⟩, ⟨"c".toList, 3, 2⟩] :=
  ⟨C14_loader (some sampleCoordinator) sampleLine (by decide) (by decide),
    by decide, by decide, by decide, by decide, by decide, by decide, by decide⟩

/-! ## Symmetry of the connection graph -/

theorem Protocol.Frame.connected_iff {p q : Protocol} (h : p.Frame q) (x y : List Char) :
    q.Connected x y ↔ p.Connected x y := by
  constructor
  · rintro ⟨n', hn', hy⟩
    have hx : x ∈ p.discoverNodes := by
      rw [← h.1]
      exact (Protocol.getNode_isSome_iff q x).1 ⟨n', hn'⟩
    obtain ⟨n, hn⟩ := (Protocol.getNode_isSome_iff p x).2 hx
    obtain ⟨n'', hn'', hc, _, _⟩ := h.2 x n hn
    rw [hn'] at hn''
    cases Option.some.inj hn''
    exact ⟨n, hn, by rw [← hc]; exact hy⟩
  · rintro ⟨n, hn, hy⟩
    obtain ⟨n', hn', hc, _, _⟩ := h.2 x n hn
    exact ⟨n', hn', by rw [hc]; exact hy⟩

theorem Protocol.SymmetricGraph.of_frame {p q : Protocol} (hp : p.SymmetricGraph)
    (h : p.Frame q) : q.SymmetricGraph := by
  refine ⟨?_, ?_⟩
  · intro a b hab
    rw [h.1]
    exact hp.1 a b ((h.connected_iff a b).1 hab)
  · intro a b hab
    exact (h.connected_iff b a).2 (hp.2 a b ((h.connected_iff a b).1 hab))

theorem Protocol.modify_Frame (p : Protocol) (k : List Char) (f : Node → Node)
    (hf : ∀ n, (f n).connectedNodes = n.connectedNodes ∧ (f n).nodeId = n.nodeId ∧
      (n.isActive = false → (f n).isActive = false)) :
    p.Frame (Protocol.mk (mapModify k f p.nodes)) := by
  refine ⟨Protocol.discoverNodes_modify _ _ _, ?_⟩
  intro x n hn
  by_cases hx : x = k
  · refine ⟨f n, ?_, (hf n).1, (hf n).2.1, (hf n).2.2⟩
    rw [Protocol.getNode_modify, if_pos hx, hn]
    rfl
  · refine ⟨n, ?_, rfl, rfl, fun h => h⟩
    rw [Protocol.getNode_modify, if_neg hx, hn]

theorem Protocol.connected_establishConnection_iff (p : Protocol) (a b x y : List Char)
    (h : (p.establishConnection a b).1 = true) :
    (p.establishConnection a b).2.Connected x y ↔
      (p.Connected x y ∨ (x = a ∧ y = b) ∨ (x = b ∧ y = a)) := by
  have hreg := (Protocol.establishConnection_fst p a b).1 h
  have hget := Protocol.establishConnection_getNode p a b x h
  constructor
  · rintro ⟨n', hn', hy⟩
    rw [hget] at hn'
    cases hx : p.getNode x with
    | none => rw [hx] at hn'; cases hn'
    | some n =>
      rw [hx] at hn'
      simp only [Option.map_some', Option.some.injEq] at hn'
      rw [← hn'] at hy
      simp only [List.mem_append] at hy
      rcases hy with (hy | hy) | hy
      · exact Or.inl ⟨n, hx, hy⟩
      · by_cases hxa : x = a
        · rw [if_pos hxa] at hy
          exact Or.inr (Or.inl ⟨hxa, List.mem_singleton.1 hy⟩)
        · rw [if_neg hxa] at hy
          cases hy
      · by_cases hxb : x = b
        · rw [if_pos hxb] at hy
          exact Or.inr (Or.inr ⟨hxb, List.mem_singleton.1 hy⟩)
        · rw [if_neg hxb] at hy
          cases hy
  · rintro (⟨n, hn, hy⟩ | ⟨hxa, hyb⟩ | ⟨hxb, hya⟩)
    · refine ⟨_, by rw [hget, hn]; rfl, ?_⟩
      simp [hy]
    · subst hxa hyb
      exact (Protocol.establishConnection_connected p x y h).1
    · subst hxb hya
      exact (Protocol.establishConnection_connected p y x h).2

theorem Protocol.SymmetricGraph.establishConnection {p : Protocol} (hp : p.SymmetricGraph)
    (a b : List Char) : (p.establishConnection a b).2.SymmetricGraph := by
  cases hb : (p.establishConnection a b).1 with
  | false =>
    rw [Protocol.establishConnection_of_unregistered p a b hb]
    exact hp
  | true =>
    have hreg := (Protocol.establishConnection_fst p a b).1 hb
    have hd := Protocol.establishConnection_discoverNodes p a b
    refine ⟨?_, ?_⟩
    · intro x y hxy
      rw [hd]
      rcases (Protocol.connected_establishConnection_iff p a b x y hb).1 hxy with
        h | ⟨_, hy⟩ | ⟨_, hy⟩
      · exact hp.1 x y h
      · rw [hy]; exact hreg.2
      · rw [hy]; exact hreg.1
    · intro x y hxy
      apply (Protocol.connected_establishConnection_iff p a b y x hb).2
      rcases (Protocol.connected_establishConnection_iff p a b x y hb).1 hxy with
        h | ⟨hx, hy⟩ | ⟨hx, hy⟩
      · exact Or.inl (hp.2 x y h)
      · exact Or.inr (Or.inr ⟨hy, hx⟩)
      · exact Or.inr (Or.inl ⟨hy, hx⟩)

theorem Protocol.SymmetricGraph.connectLoop (nodeId : List Char) :
    ∀ (l : List (List Char)) (p : Protocol), p.SymmetricGraph →
    (TaskManager.connectLoop nodeId l p).SymmetricGraph := by
  intro l
  induction l with
  | nil => intro p hp; exact hp
  | cons other rest ih =>
    intro p hp
    by_cases hne : other = nodeId
    · simp only [TaskManager.connectLoop, hne, ne_eq, not_true_eq_false, if_false]
      exact ih p hp
    · simp only [TaskManager.connectLoop, ne_eq, hne, not_false_eq_true, if_true]
      exact ih _ (hp.establishConnection nodeId other)

theorem Protocol.SymmetricGraph.assignStep {p : Protocol} (hp : p.SymmetricGraph)
    (tm : TaskManager) (types ids : List (List Char)) (i : Nat) :
    (tm.assignStep types ids p i).SymmetricGraph := by
  unfold TaskManager.assignStep
  cases hk : p.getNode (ids.getD i []) with
  | none => simp only [hk]; exact hp
  | some n =>
    simp only [hk]
    apply Protocol.SymmetricGraph.connectLoop
    have h1 : p.Frame (Protocol.mk (mapModify (ids.getD i [])
        (fun n => n.assignInstructionType (types.getD i [])) p.nodes)) :=
      Protocol.modify_Frame p _ _ (fun n => ⟨rfl, rfl, fun h => h⟩)
    have h2 := Protocol.modify_Frame
      (Protocol.mk (mapModify (ids.getD i [])
        (fun n => n.assignInstructionType (types.getD i [])) p.nodes)) (ids.getD i [])
      (fun n => n.assignInstructions ((mapFind (types.getD i []) tm.instructionsByType).getD []))
      (fun n => ⟨rfl, rfl, fun h => h⟩)
    exact (hp.of_frame h1).of_frame h2

theorem Protocol.SymmetricGraph.assignTasksToNodes {p : Protocol} (hp : p.SymmetricGraph)
    (tm : TaskManager) : (tm.assignTasksToNodes p).2.SymmetricGraph := by
  have hfold : ∀ (l : List Nat) (q : Protocol), q.SymmetricGraph →
      (l.foldl (tm.assignStep tm.getRequiredInstructionTypes p.discoverNodes) q).SymmetricGraph := by
    intro l
    induction l with
    | nil => intro q hq; exact hq
    | cons i l ih => intro q hq; exact ih _ (hq.assignStep tm _ _ i)
  unfold TaskManager.assignTasksToNodes
  cases tm.coordinatorNode with
  | none => exact hp
  | some c =>
    simp only
    split
    · exact hp
    · exact hfold _ p hp

theorem Protocol.SymmetricGraph.registerNode {p : Protocol} (hp : p.SymmetricGraph)
    (id : List Char) (coordinator : Bool) (hnew : id ∉ p.discoverNodes) :
    (p.registerNode ((Node.new id).setCoordinator coordinator)).SymmetricGraph := by
  have hconn : ∀ x y, (p.registerNode ((Node.new id).setCoordinator coordinator)).Connected x y →
      x ≠ id ∧ p.Connected x y := by
    rintro x y ⟨n, hn, hy⟩
    rw [Protocol.getNode_registerNode] at hn
    by_cases hx : x = id
    · have hx' : x = ((Node.new id).setCoordinator coordinator).nodeId := hx
      rw [if_pos hx'] at hn
      rw [← Option.some.inj hn] at hy
      cases hy
    · have hx' : ¬ x = ((Node.new id).setCoordinator coordinator).nodeId := hx
      rw [if_neg hx'] at hn
      exact ⟨hx, n, hn, hy⟩
  refine ⟨?_, ?_⟩
  · intro x y hxy
    exact (Protocol.mem_discoverNodes_registerNode p _ y).2 (Or.inr (hp.1 x y (hconn x y hxy).2))
  · intro x y hxy
    obtain ⟨_, hxy'⟩ := hconn x y hxy
    obtain ⟨n, hn, hx⟩ := hp.2 x y hxy'
    have hy : y ≠ id := by
      intro e
      apply hnew
      rw [← e]
      exact hp.1 x y hxy'
    refine ⟨n, ?_, hx⟩
    rw [Protocol.getNode_registerNode]
    have hy' : ¬ y = ((Node.new id).setCoordinator coordinator).nodeId := hy
    rw [if_neg hy']
    exact hn

theorem Protocol.mem_discoverNodes_apply (p : Protocol) (op : Op) (x : List Char) :
    x ∈ (p.apply op).discoverNodes ↔
      (x ∈ p.discoverNodes ∨ x ∈ Op.registered [op]) := by
  cases op with
  | register id coordinator =>
    simp only [Protocol.apply, Op.registered, List.mem_singleton]
    rw [Protocol.mem_discoverNodes_registerNode]
    exact Or.comm
  | connect a b =>
    simp only [Protocol.apply, Op.registered, Protocol.establishConnection_discoverNodes]
    simp
  | route m =>
    simp only [Protocol.apply, Op.registered]
    cases hs : p.sendMessage m with
    | error e => simp
    | ok r =>
      obtain ⟨p', ev⟩ := r
      simp only
      rw [(Protocol.sendMessage_Frame p p' m ev hs).1]
      simp
  | assign tm =>
    simp only [Protocol.apply, Op.registered]
    rw [(TaskManager.assignTasksToNodes_extends tm p).1]
    simp

theorem Protocol.SymmetricGraph.foldl_apply : ∀ (ops : List Op) (p : Protocol),
    p.SymmetricGraph → (Op.registered ops).Nodup →
    (∀ x ∈ Op.registered ops, x ∉ p.discoverNodes) →
    (ops.foldl Protocol.apply p).SymmetricGraph := by
  intro ops
  induction ops with
  | nil => intro p hp _ _; exact hp
  | cons op ops ih =>
    intro p hp hnd hnew
    simp only [List.foldl_cons]
    cases op with
    | register id coordinator =>
      simp only [Op.registered, List.nodup_cons] at hnd
      apply ih _ (hp.registerNode id coordinator
        (hnew id (by simp [Op.registered]))) hnd.2
      intro x hx hmem
      rcases (Protocol.mem_discoverNodes_apply p (Op.register id coordinator) x).1 hmem with
        h | h
      · exact hnew x (by simp [Op.registered, hx]) h
      · simp only [Op.registered, List.mem_singleton] at h
        rw [h] at hx
        exact hnd.1 hx
    | connect a b =>
      apply ih _ (hp.establishConnection a b) (by simpa [Op.registered] using hnd)
      intro x hx hmem
      simp only [Protocol.apply, Protocol.establishConnection_discoverNodes] at hmem
      exact hnew x (by simpa [Op.registered] using hx) hmem
    | route m =>
      have hnd' : (Op.registered ops).Nodup := by simpa [Op.registered] using hnd
      have hnew' : ∀ x ∈ Op.registered ops, x ∉ p.discoverNodes :=
        fun x hx => hnew x (by simpa [Op.registered] using hx)
      cases hs : p.sendMessage m with
      | error e =>
        simp only [Protocol.apply, hs]
        exact ih p hp hnd' hnew'
      | ok r =>
        obtain ⟨p', ev⟩ := r
        simp only [Protocol.apply, hs]
        have hf := Protocol.sendMessage_Frame p p' m ev hs
        apply ih p' (hp.of_frame hf) hnd'
        intro x hx
        rw [hf.1]
        exact hnew' x hx
    | assign tm =>
      apply ih _ (hp.assignTasksToNodes tm) (by simpa [Op.registered] using hnd)
      intro x hx
      rw [(TaskManager.assignTasksToNodes_extends tm p).1]
      exact hnew x (by simpa [Op.registered] using hx)

/-- C18 (as stated, refuted): register `A`, register `B`, connect them, and
register a new node under the id `A`: the new node replaces the old one and
has no connections, so `A` is still in the list of `B` while `B` is not in the
list of `A`. -/
theorem C18_counterexample :
    "A".toList ∈ (Protocol.run [Op.register "A".toList false, Op.register "B".toList false,
      Op.connect "A".toList "B".toList, Op.register "A".toList false]).discoverNodes ∧
    "B".toList ∈ (Protocol.run [Op.register "A".toList false, Op.register "B".toList false,
      Op.connect "A".toList "B".toList, Op.register "A".toList false]).discoverNodes ∧
    (Protocol.run [Op.register "A".toList false, Op.register "B".toList false,
      Op.connect "A".toList "B".toList, Op.register "A".toList false]).Connected
        "B".toList "A".toList ∧
    ¬ (Protocol.run [Op.register "A".toList false, Op.register "B".toList false,
      Op.connect "A".toList "B".toList, Op.register "A".toList false]).Connected
        "A".toList "B".toList := by
  decide

/-- C18 (amended): in every state reached from the empty registry by a
sequence of registrations of newly created nodes, calls of
`establishConnection`, messages to `sendMessage` and calls of
`assignTasksToNodes`, in which no id is registered twice, every id in a
connection list is registered, and `b` is in the connection list of `a` if
and only if `a` is in the connection list of `b`. -/
theorem C18_symmetry (ops : List Op) (hnd : (Op.registered ops).Nodup) :
    (∀ a b, (Protocol.run ops).Connected a b → b ∈ (Protocol.run ops).discoverNodes) ∧
    (∀ a b na nb, (Protocol.run ops).getNode a = some na →
      (Protocol.run ops).getNode b = some nb →
      (b ∈ na.connectedNodes ↔ a ∈ nb.connectedNodes)) := by
  have hempty : (Protocol.mk []).SymmetricGraph := by
    refine ⟨?_, ?_⟩ <;>
    · rintro a b ⟨n, hn, _⟩
      cases hn
  have hrun : (Protocol.run ops).SymmetricGraph :=
    Protocol.SymmetricGraph.foldl_apply ops _ hempty hnd (fun x _ h => by cases h)
  refine ⟨hrun.1, ?_⟩
  intro a b na nb hna hnb
  constructor
  · intro h
    obtain ⟨n, hn, hmem⟩ := hrun.2 a b ⟨na, hna, h⟩
    rw [hnb] at hn
    cases Option.some.inj hn
    exact hmem
  · intro h
    obtain ⟨n, hn, hmem⟩ := hrun.2 b a ⟨nb, hnb, h⟩
    rw [hna] at hn
    cases Option.some.inj hn
    exact hmem

theorem C18_symmetry_witness :
    (Protocol.run [Op.register "B".toList false, Op.register "A".toList true,
      Op.connect "A".toList "B".toList, Op.register "C".toList false,
      Op.assign (TaskManager.ofLine sampleCoordinator "a1 b1".toList),
      Op.route (disconnectMsg sampleCoordinator "B".toList)]).Connected "C".toList "A".toList ∧
    ∀ a b na nb,
      (Protocol.run [Op.register "B".toList false, Op.register "A".toList true,
        Op.connect "A".toList "B".toList, Op.register "C".toList false,
        Op.assign (TaskManager.ofLine sampleCoordinator "a1 b1".toList),
        Op.route (disconnectMsg sampleCoordinator "B".toList)]).getNode a = some na →
      (Protocol.run [Op.register "B".toList false, Op.register "A".toList true,
        Op.connect "A".toList "B".toList, Op.register "C".toList false,
        Op.assign (TaskManager.ofLine sampleCoordinator "a1 b1".toList),
        Op.route (disconnectMsg sampleCoordinator "B".toList)]).getNode b = some nb →
      (b ∈ na.connectedNodes ↔ a ∈ nb.connectedNodes) :=
  ⟨by decide, (C18_symmetry _ (by decide)).2⟩

/-! ## Connection lists after assignment -/

theorem TaskManager.connectLoop_conn (a : List Char) : ∀ (l : List (List Char))
    (p : Protocol), a ∈ p.discoverNodes → (∀ b ∈ l, b ∈ p.discoverNodes) →
    ∀ x n, p.getNode x = some n →
      (TaskManager.connectLoop a l p).getNode x =
        some (n.updated (turnExtra l x a) n.assignedType n.assignedInstructions) := by
  intro l
  induction l with
  | nil =>
    intro p _ _ x n hn
    have : turnExtra [] x a = [] := by
      unfold turnExtra
      split <;> simp
    rw [this, n.updated_self]
    exact hn
  | cons b rest ih =>
    intro p ha hl x n hn
    by_cases hba : b = a
    · subst hba
      simp only [TaskManager.connectLoop, ne_eq, not_true_eq_false, if_false]
      rw [ih p ha (fun c hc => hl c (List.mem_cons_of_mem _ hc)) x n hn]
      have : turnExtra (b :: rest) x b = turnExtra rest x b := by
        unfold turnExtra
        by_cases hx : x = b
        · simp [hx]
        · have hx' : ¬ b = x := fun e => hx e.symm
          simp [hx, List.count_cons, hx']
      rw [this]
    · simp only [TaskManager.connectLoop, ne_eq, hba, not_false_eq_true, if_true]
      have hb : b ∈ p.discoverNodes := hl b (List.mem_cons_self _ _)
      have hok : (p.establishConnection a b).1 = true :=
        (Protocol.establishConnection_fst p a b).2 ⟨ha, hb⟩
      have hdisc := Protocol.establishConnection_discoverNodes p a b
      have h1 : (p.establishConnection a b).2.getNode x =
          some (n.updated ((if x = a then [b] else []) ++ (if x = b then [a] else []))
            n.assignedType n.assignedInstructions) := by
        rw [Protocol.establishConnection_getNode p a b x hok, hn]
        simp [Node.updated]
      rw [ih (p.establishConnection a b).2 (by rw [hdisc]; exact ha)
        (fun c hc => by rw [hdisc]; exact hl c (List.mem_cons_of_mem _ hc)) x _ h1,
        Node.updated_updated]
      have : ((if x = a then [b] else []) ++ (if x = b then [a] else [])) ++ turnExtra rest x a
          = turnExtra (b :: rest) x a := by
        unfold turnExtra
        by_cases hxa : x = a
        · have hab : ¬ a = b := fun e => hba e.symm
          simp [hxa, hba, hab]
        · by_cases hxb : x = b
          · subst hxb
            simp [hxa, List.replicate_succ]
          · have hbx : ¬ b = x := fun e => hxb e.symm
            simp [hxa, hxb, List.count_cons, hbx]
      rw [this]
      rfl

theorem TaskManager.assignStep_conn (tm : TaskManager) (types ids : List (List Char))
    (p : Protocol) (i : Nat) (hid : ids.getD i [] ∈ p.discoverNodes)
    (hids : ∀ b ∈ ids, b ∈ p.discoverNodes) :
    ∀ x n, p.getNode x = some n → ∃ n', (tm.assignStep types ids p i).getNode x = some n' ∧
      n'.connectedNodes = n.connectedNodes ++ turnExtra ids x (ids.getD i []) := by
  obtain ⟨n0, hn0⟩ := (Protocol.getNode_isSome_iff p _).2 hid
  intro x n hn
  have h1 : p.Frame (Protocol.mk (mapModify (ids.getD i [])
      (fun n => n.assignInstructionType (types.getD i [])) p.nodes)) :=
    Protocol.modify_Frame p _ _ (fun n => ⟨rfl, rfl, fun h => h⟩)
  have h2 := Protocol.modify_Frame
    (Protocol.mk (mapModify (ids.getD i [])
      (fun n => n.assignInstructionType (types.getD i [])) p.nodes)) (ids.getD i [])
    (fun n => n.assignInstructions ((mapFind (types.getD i []) tm.instructionsByType).getD []))
    (fun n => ⟨rfl, rfl, fun h => h⟩)
  have h12 := h1.frame_trans h2
  obtain ⟨n2, hn2, hc2, _, _⟩ := h12.2 x n hn
  have hloop := TaskManager.connectLoop_conn (ids.getD i []) ids _
    (by rw [h12.1]; exact hid) (fun b hb => by rw [h12.1]; exact hids b hb) x n2 hn2
  refine ⟨n2.updated (turnExtra ids x (ids.getD i [])) n2.assignedType n2.assignedInstructions,
    ?_, ?_⟩
  · unfold TaskManager.assignStep
    simp only [hn0]
    exact hloop
  · simp only [Node.updated, hc2]

theorem TaskManager.assignLoop_conn (tm : TaskManager) (types : List (List Char))
    (p : Protocol) : ∀ k, k ≤ p.discoverNodes.length →
    ∀ x n, p.getNode x = some n →
      ∃ n', ((List.range k).foldl (tm.assignStep types p.discoverNodes) p).getNode x = some n' ∧
        n'.connectedNodes = n.connectedNodes ++
          (p.discoverNodes.take k).flatMap (turnExtra p.discoverNodes x) := by
  intro k
  induction k with
  | zero =>
    intro _ x n hn
    exact ⟨n, hn, by simp⟩
  | succ k ih =>
    intro hlen x n hn
    obtain ⟨n1, hn1, hc1⟩ := ih (by omega) x n hn
    have hext := TaskManager.assignLoop_extends tm types p k (by omega)
    have hk : k < p.discoverNodes.length := by omega
    have hmem : p.discoverNodes.getD k [] ∈ p.discoverNodes := by
      rw [List.getD_eq_getElem _ _ hk]
      exact List.getElem_mem hk
    obtain ⟨n2, hn2, hc2⟩ := TaskManager.assignStep_conn tm types p.discoverNodes
      ((List.range k).foldl (tm.assignStep types p.discoverNodes) p) k
      (by rw [hext.1]; exact hmem) (fun b hb => by rw [hext.1]; exact hb) x n1 hn1
    refine ⟨n2, ?_, ?_⟩
    · rw [List.range_succ, List.foldl_append]
      exact hn2
    · rw [hc2, hc1, List.take_succ, List.getElem?_eq_getElem hk, List.flatMap_append,
        List.getD_eq_getElem _ _ hk]
      simp

theorem count_eq_one_of_nodup (l : List (List Char)) (hnd : l.Nodup) (y : List Char)
    (hy : y ∈ l) : l.count y = 1 := by
  induction l with
  | nil => cases hy
  | cons a l ih =>
    obtain ⟨ha, hl⟩ := List.nodup_cons.1 hnd
    by_cases hya : y = a
    · subst hya
      rw [List.count_cons_self, List.count_eq_zero_of_not_mem ha]
    · have hy' : y ∈ l := by
        rcases List.mem_cons.1 hy with e | h
        · exact absurd e hya
        · exact h
      rw [List.count_cons_of_ne hya, ih hl hy']

theorem flatMap_turnExtra_of_ne (ids l : List (List Char)) (x : List Char)
    (hcount : ids.count x = 1) (hl : ∀ a ∈ l, x ≠ a) : l.flatMap (turnExtra ids x) = l := by
  induction l with
  | nil => rfl
  | cons a l ih =>
    have ha : x ≠ a := hl a (List.mem_cons_self _ _)
    rw [List.flatMap_cons, ih (fun b hb => hl b (List.mem_cons_of_mem _ hb))]
    simp [turnExtra, ha, hcount]

/-- Over distinct ids, the turns of all the nodes append to the list of `x`
the ids before `x`, then all the other ids, then the ids after `x`. -/
theorem flatMap_turnExtra_nodup (pre post : List (List Char)) (x : List Char)
    (hnd : (pre ++ x :: post).Nodup) :
    (pre ++ x :: post).flatMap (turnExtra (pre ++ x :: post) x) =
      pre ++ (pre ++ post) ++ post := by
  have hparts := List.nodup_append.1 hnd
  have hxpost : x ∉ post := (List.nodup_cons.1 hparts.2.1).1
  have hxpre : x ∉ pre := fun h => hparts.2.2 h (List.mem_cons_self _ _)
  have hcount : (pre ++ x :: post).count x = 1 :=
    count_eq_one_of_nodup _ hnd x (List.mem_append_right _ (List.mem_cons_self _ _))
  have hpre : ∀ a ∈ pre, x ≠ a := fun a ha e => hxpre (by rw [e]; exact ha)
  have hpost : ∀ a ∈ post, x ≠ a := fun a ha e => hxpost (by rw [e]; exact ha)
  have hfil : (pre ++ x :: post).filter (fun b => decide (b ≠ x)) = pre ++ post := by
    rw [List.filter_append, List.filter_cons]
    have h1 : pre.filter (fun b => decide (b ≠ x)) = pre :=
      List.filter_eq_self.2 (fun a ha => by simpa using fun e => hpre a ha e.symm)
    have h2 : post.filter (fun b => decide (b ≠ x)) = post :=
      List.filter_eq_self.2 (fun a ha => by simpa using fun e => hpost a ha e.symm)
    rw [h1, h2]
    simp
  rw [List.flatMap_append, List.flatMap_cons,
    flatMap_turnExtra_of_ne _ pre x hcount hpre, flatMap_turnExtra_of_ne _ post x hcount hpost]
  have hx : turnExtra (pre ++ x :: post) x x = pre ++ post := by
    simp only [turnExtra, if_true]
    exact hfil
  rw [hx]
  simp

/-- C19: after a successful `assignTasksToNodes` over nodes as created in
which every node receives a type, the connection list of every node has
length `2 * (n - 1)`, holds every other id exactly twice and not its own id;
and two calls of `establishConnection(a, b)` on registered, distinct `a` and
`b` append `b` twice to the list of `a` and `a` twice to the list of `b`. -/
theorem C19_connections_doubled (c : Node) (line : List Char) (tm : TaskManager)
    (p : Protocol)
    (hload : (TaskManager.new (some c)).loadInstructions (some line) = .ok (true, tm))
    (hwf : p.WF) (hfresh : ∀ kn ∈ p.nodes, kn.2.Fresh)
    (hcount : (distinctTypes tm.instructions).length = p.discoverNodes.length) :
    (∃ p', tm.assignTasksToNodes p = (true, p') ∧
      ∀ x n, p'.getNode x = some n →
        n.connectedNodes.length = 2 * (p.discoverNodes.length - 1) ∧
        (∀ y ∈ p.discoverNodes, y ≠ x → n.connectedNodes.count y = 2) ∧
        x ∉ n.connectedNodes) ∧
    (∀ (q : Protocol) (a b : List Char) (na nb : Node), a ≠ b →
      q.getNode a = some na → q.getNode b = some nb →
      ((q.establishConnection a b).2.establishConnection a b).2.getNode a =
        some { na with connectedNodes := na.connectedNodes ++ [b, b] } ∧
      ((q.establishConnection a b).2.establishConnection a b).2.getNode b =
        some { nb with connectedNodes := nb.connectedNodes ++ [a, a] }) := by
  constructor
  · obtain ⟨hc, hP, _⟩ := TaskManager.loadInstructions_spec _ _ _ _ hload
    have hnd : p.discoverNodes.Nodup := pairwise_strLt_nodup _ hwf.1
    have hfst : (tm.assignTasksToNodes p).1 = true := by
      cases hb : (tm.assignTasksToNodes p).1 with
      | true => rfl
      | false =>
        have := (TaskManager.assignTasksToNodes_fst tm c hc p).1.1 hb
        rw [hP.types_length] at this
        omega
    have hassign : tm.assignTasksToNodes p = (true, (tm.assignTasksToNodes p).2) := by
      rw [← hfst]
    refine ⟨_, hassign, ?_⟩
    obtain ⟨_, hlen, hp'⟩ := TaskManager.assign_true tm p _ hassign
    have htl : tm.getRequiredInstructionTypes.length = p.discoverNodes.length := by
      rw [hP.types_length]; exact hcount
    intro x n hn
    have hext := TaskManager.assignTasksToNodes_extends tm p
    have hx : x ∈ p.discoverNodes := by
      rw [← hext.1]
      exact (Protocol.getNode_isSome_iff _ x).1 ⟨n, hn⟩
    obtain ⟨n0, hn0⟩ := (Protocol.getNode_isSome_iff p x).2 hx
    have hf : n0.Fresh := hfresh (x, n0) (mapFind_mem _ _ _ hn0)
    obtain ⟨n', hn', hconn⟩ := TaskManager.assignLoop_conn tm tm.getRequiredInstructionTypes p
      tm.getRequiredInstructionTypes.length hlen x n0 hn0
    rw [← hp', hn] at hn'
    cases Option.some.inj hn'
    rw [htl, List.take_length, hf.2.1, List.nil_append] at hconn
    obtain ⟨pre, post, hsplit⟩ := List.append_of_mem hx
    rw [hsplit] at hnd
    have hparts := List.nodup_append.1 hnd
    have hxpost : x ∉ post := (List.nodup_cons.1 hparts.2.1).1
    have hxpre : x ∉ pre := fun h => hparts.2.2 h (List.mem_cons_self _ _)
    rw [hsplit, flatMap_turnExtra_nodup pre post x hnd] at hconn
    rw [hconn, hsplit]
    refine ⟨?_, ?_, ?_⟩
    · simp only [List.length_append, List.length_cons]
      omega
    · intro y hy hyx
      have hc1 : (pre ++ x :: post).count y = 1 := count_eq_one_of_nodup _ hnd y hy
      have hyx' : ¬ x = y := fun e => hyx e.symm
      simp only [List.count_append, List.count_cons, beq_iff_eq, hyx', if_false] at hc1 ⊢
      omega
    · simp [hxpre, hxpost]
  · intro q a b na nb hab hna hnb
    have hra := (Protocol.getNode_isSome_iff q a).1 ⟨na, hna⟩
    have hrb := (Protocol.getNode_isSome_iff q b).1 ⟨nb, hnb⟩
    have hok : (q.establishConnection a b).1 = true :=
      (Protocol.establishConnection_fst q a b).2 ⟨hra, hrb⟩
    have hd := Protocol.establishConnection_discoverNodes q a b
    have hok2 : ((q.establishConnection a b).2.establishConnection a b).1 = true :=
      (Protocol.establishConnection_fst _ a b).2 ⟨by rw [hd]; exact hra, by rw [hd]; exact hrb⟩
    have hba : ¬ b = a := fun e => hab e.symm
    constructor
    · rw [Protocol.establishConnection_getNode _ a b a hok2,
        Protocol.establishConnection_getNode q a b a hok, hna]
      simp [hab]
    · rw [Protocol.establishConnection_getNode _ a b b hok2,
        Protocol.establishConnection_getNode q a b b hok, hnb]
      simp [hba]

theorem C19_connections_doubled_witness :
    (∃ p', (TaskManager.ofLine sampleCoordinator sampleLine).assignTasksToNodes
        (sampleProtocol 3) = (true, p') ∧
      ∀ x n, p'.getNode x = some n →
        n.connectedNodes.length = 2 * ((sampleProtocol 3).discoverNodes.length - 1) ∧
        (∀ y ∈ (sampleProtocol 3).discoverNodes, y ≠ x → n.connectedNodes.count y = 2) ∧
        x ∉ n.connectedNodes) ∧
    ((TaskManager.ofLine sampleCoordinator sampleLine).assignTasksToNodes
        (sampleProtocol 3)).2.nodes.map (fun kn => (kn.1, kn.2.connectedNodes)) =
      [("Node1".toList, ["Node2".toList, "Node3".toList, "Node2".toList, "Node3".toList]),
        ("Node2".toList, ["Node1".toList, "Node1".toList, "Node3".toList, "Node3".toList]),
        ("Node3".toList, ["Node1".toList, "Node2".toList, "Node1".toList, "Node2".toList])] :=
  ⟨(C19_connections_doubled sampleCoordinator sampleLine
      (TaskManager.ofLine sampleCoordinator sampleLine) (sampleProtocol 3)
      (by decide) (by decide) (by decide) (by decide)).1, by decide⟩

end DistributedProtocol
